import Mathlib

/-!
# Verification of the DLSU Eatery Pathfinder backend

A shallow embedding of `backend.py` (graph store, attribute store,
open-hours evaluator, preference/score engine, UCS and A* search,
optimal-path selector) together with proofs about the claims of the
specification.

Modelling conventions:

* Python `dict`s are insertion-ordered association lists
  (`List (key × value)`); assignment is update-in-place-or-append
  (`upsert`), deletion removes the (unique) matching key (`eraseKey`).
* Python `float` arithmetic is modelled by exact rationals `ℚ`;
  `float('inf')` (used as the failure cost of the searches) is `⊤` in
  `WithTop ℚ`.
* The Haversine great-circle distance is transcendental and has no
  executable exact embedding; the A* heuristic (in the code,
  `haversine` applied to stored coordinates) is therefore abstracted
  into an explicit function argument `hfun : NodeId → ℚ`, and the
  claims' premises about the heuristic become hypotheses on `hfun`.
  Likewise `compute_scores` receives the haversine function as an
  explicit argument `hav`.
* Wall-clock values (`datetime.now`, `time.perf_counter`,
  `tracemalloc`) are impure; `is_open` receives the current time as an
  argument (seconds since midnight), the elapsed-time and peak-memory
  metrics are modelled as `0`.
* A Python exception escaping a mutating operation is modelled by the
  `PyOutcome.keyError` constructor, paired with the state of the
  (in-place mutated) object at the moment the exception is raised.
-/

namespace Backend

set_option maxRecDepth 8000

abbrev NodeId := String

/-- A node's adjacency dictionary: neighbor id ↦ edge weight. -/
abbrev Adj := List (NodeId × ℚ)

/-- The graph of `graph.json`: `nodes` maps a node id to a
`[lat, lng]` pair, `edges` maps a node id to its adjacency dict. -/
structure Graph where
  nodes : List (NodeId × (ℚ × ℚ))
  edges : List (NodeId × Adj)
  deriving Repr, DecidableEq

/-- Dictionary assignment `d[k] = v`: replace the first binding of `k`
in place, or append a fresh binding at the end (CPython dicts preserve
insertion order). -/
def upsert {β : Type} (l : List (NodeId × β)) (k : NodeId) (v : β) :
    List (NodeId × β) :=
  match l with
  | [] => [(k, v)]
  | (k', v') :: rest =>
    if k' = k then (k, v) :: rest else (k', v') :: upsert rest k v

/-- Dictionary deletion `del d[k]`: remove the first binding of `k`. -/
def eraseKey {β : Type} (l : List (NodeId × β)) (k : NodeId) :
    List (NodeId × β) :=
  match l with
  | [] => []
  | (k', v') :: rest =>
    if k' = k then rest else (k', v') :: eraseKey rest k

/-- Dictionary lookup (first binding wins, as in a duplicate-free dict). -/
def lookupK {β : Type} (l : List (NodeId × β)) (k : NodeId) : Option β :=
  match l with
  | [] => none
  | (k', v') :: rest => if k' = k then some v' else lookupK rest k

/-- `node in graph["nodes"]`. -/
def Graph.hasNode (g : Graph) (v : NodeId) : Bool :=
  (lookupK g.nodes v).isSome

/-- `graph["edges"].get(v, {})`. -/
def Graph.adj (g : Graph) (v : NodeId) : Adj :=
  (lookupK g.edges v).getD []

/-- The weight dictionary entry `graph["edges"][u][v]`, if any. -/
def Graph.w (g : Graph) (u v : NodeId) : Option ℚ :=
  lookupK (g.adj u) v

section AssocLemmas

variable {β : Type}

theorem lookupK_not_mem_keys (l : List (NodeId × β)) (k : NodeId)
    (h : k ∉ l.map Prod.fst) : lookupK l k = none := by
  induction l with
  | nil => simp [lookupK]
  | cons p rest ih =>
    obtain ⟨a, b⟩ := p
    simp only [List.map_cons, List.mem_cons, not_or] at h
    have hne : ¬ (a = k) := fun he => h.1 he.symm
    simp only [lookupK, if_neg hne]
    exact ih h.2

theorem lookupK_upsert (l : List (NodeId × β)) (k : NodeId) (v : β)
    (k' : NodeId) :
    lookupK (upsert l k v) k' = if k = k' then some v else lookupK l k' := by
  induction l with
  | nil =>
    by_cases h : k = k' <;> simp [upsert, lookupK, h]
  | cons p rest ih =>
    obtain ⟨a, b⟩ := p
    by_cases hak : a = k
    · subst hak
      by_cases h : a = k' <;> simp [upsert, lookupK, h, ih]
    · by_cases h : a = k'
      · subst h
        have hk : ¬ (k = a) := fun hk => hak hk.symm
        simp [upsert, lookupK, hak, hk]
      · simp [upsert, lookupK, hak, h, ih]

theorem lookupK_eraseKey (l : List (NodeId × β)) (k k' : NodeId)
    (hnd : (l.map Prod.fst).Nodup) :
    lookupK (eraseKey l k) k' = if k = k' then none else lookupK l k' := by
  induction l with
  | nil => by_cases h : k = k' <;> simp [eraseKey, lookupK, h]
  | cons p rest ih =>
    obtain ⟨a, b⟩ := p
    simp only [List.map_cons, List.nodup_cons] at hnd
    by_cases hak : a = k
    · subst hak
      by_cases h : a = k'
      · subst h
        simp only [eraseKey, if_pos rfl, if_pos rfl]
        exact lookupK_not_mem_keys rest a hnd.1
      · simp [eraseKey, lookupK, h]
    · by_cases h : a = k'
      · subst h
        have hk : ¬ (k = a) := fun hk => hak hk.symm
        simp [eraseKey, lookupK, hak, hk]
      · simp [eraseKey, lookupK, hak, h, ih hnd.2]

theorem lookupK_eraseKey_of_not_mem (l : List (NodeId × β)) (k k' : NodeId)
    (h : lookupK l k = none) :
    lookupK (eraseKey l k) k' = lookupK l k' := by
  induction l with
  | nil => simp [eraseKey]
  | cons p rest ih =>
    obtain ⟨a, b⟩ := p
    by_cases hak : a = k
    · subst hak
      simp [lookupK] at h
    · simp only [lookupK, if_neg hak] at h
      by_cases h' : a = k'
      · subst h'
        have hk : ¬ (k = a) := fun hk => hak hk.symm
        simp [eraseKey, lookupK, hak, hk]
      · simp [eraseKey, lookupK, hak, h', ih h]

theorem lookupK_append_single_eraseKey (l : List (NodeId × β))
    (k : NodeId) (v : β) (h : lookupK l k = none) :
    eraseKey (l ++ [(k, v)]) k = l := by
  induction l with
  | nil => simp [eraseKey]
  | cons p rest ih =>
    obtain ⟨a, b⟩ := p
    by_cases hak : a = k
    · subst hak
      simp [lookupK] at h
    · simp only [lookupK, if_neg hak] at h
      simp [eraseKey, hak, ih h]

theorem upsert_eq_append_of_not_mem (l : List (NodeId × β))
    (k : NodeId) (v : β) (h : lookupK l k = none) :
    upsert l k v = l ++ [(k, v)] := by
  induction l with
  | nil => simp [upsert]
  | cons p rest ih =>
    obtain ⟨a, b⟩ := p
    by_cases hak : a = k
    · subst hak
      simp [lookupK] at h
    · simp only [lookupK, if_neg hak] at h
      simp [upsert, hak, ih h]

theorem lookupK_isSome_of_mem (l : List (NodeId × β)) (k : NodeId) (v : β)
    (h : (k, v) ∈ l) : (lookupK l k).isSome := by
  induction l with
  | nil => simp at h
  | cons p rest ih =>
    obtain ⟨a, b⟩ := p
    rcases List.mem_cons.mp h with h1 | h2
    · cases h1
      simp [lookupK]
    · by_cases hak : a = k
      · simp [lookupK, hak]
      · simp only [lookupK, if_neg hak]
        exact ih h2

theorem lookupK_mem (l : List (NodeId × β)) (k : NodeId) (v : β)
    (h : lookupK l k = some v) : (k, v) ∈ l := by
  induction l with
  | nil => simp [lookupK] at h
  | cons p rest ih =>
    obtain ⟨a, b⟩ := p
    by_cases hak : a = k
    · subst hak
      simp [lookupK] at h
      rw [← h]
      exact List.mem_cons_self _ _
    · simp only [lookupK, if_neg hak] at h
      exact List.mem_cons_of_mem _ (ih h)

theorem eraseKey_keys_subset (l : List (NodeId × β)) (k : NodeId) :
    ∀ p ∈ eraseKey l k, p ∈ l := by
  induction l with
  | nil => simp [eraseKey]
  | cons q rest ih =>
    obtain ⟨a, b⟩ := q
    by_cases hak : a = k
    · subst hak
      simp only [eraseKey, if_pos rfl]
      exact fun p hp => List.mem_cons_of_mem _ hp
    · simp only [eraseKey, if_neg hak]
      intro p hp
      rcases List.mem_cons.mp hp with h1 | h2
      · exact h1 ▸ List.mem_cons_self _ _
      · exact List.mem_cons_of_mem _ (ih p h2)

theorem upsert_mem (l : List (NodeId × β)) (k : NodeId) (v : β) :
    ∀ p ∈ upsert l k v, p ∈ l ∨ p = (k, v) := by
  induction l with
  | nil => simp [upsert]
  | cons q rest ih =>
    obtain ⟨a, b⟩ := q
    by_cases hak : a = k
    · subst hak
      simp only [upsert, if_pos rfl]
      intro p hp
      rcases List.mem_cons.mp hp with h1 | h2
      · exact Or.inr h1
      · exact Or.inl (List.mem_cons_of_mem _ h2)
    · simp only [upsert, if_neg hak]
      intro p hp
      rcases List.mem_cons.mp hp with h1 | h2
      · exact Or.inl (h1 ▸ List.mem_cons_self _ _)
      · rcases ih p h2 with h3 | h3
        · exact Or.inl (List.mem_cons_of_mem _ h3)
        · exact Or.inr h3

theorem upsert_keys_nodup (l : List (NodeId × β)) (k : NodeId) (v : β)
    (hnd : (l.map Prod.fst).Nodup) :
    ((upsert l k v).map Prod.fst).Nodup := by
  induction l with
  | nil => simp [upsert]
  | cons q rest ih =>
    obtain ⟨a, b⟩ := q
    simp only [List.map_cons, List.nodup_cons] at hnd
    by_cases hak : a = k
    · subst hak
      rw [upsert, if_pos rfl]
      simp only [List.map_cons, List.nodup_cons]
      exact hnd
    · simp only [upsert, if_neg hak, List.map_cons, List.nodup_cons]
      refine ⟨?_, ih hnd.2⟩
      intro hmem
      have : ∀ x ∈ upsert rest k v, x ∈ rest ∨ x = (k, v) := upsert_mem rest k v
      rcases List.mem_map.mp hmem with ⟨p, hp, hfst⟩
      rcases this p hp with h1 | h1
      · exact hnd.1 (hfst ▸ List.mem_map_of_mem Prod.fst h1)
      · exact hak (by rw [h1] at hfst; exact hfst.symm ▸ rfl)

theorem eraseKey_keys_nodup (l : List (NodeId × β)) (k : NodeId)
    (hnd : (l.map Prod.fst).Nodup) :
    ((eraseKey l k).map Prod.fst).Nodup := by
  induction l with
  | nil => simp [eraseKey]
  | cons q rest ih =>
    obtain ⟨a, b⟩ := q
    simp only [List.map_cons, List.nodup_cons] at hnd
    by_cases hak : a = k
    · subst hak
      simp only [eraseKey, if_pos rfl]
      exact hnd.2
    · simp only [eraseKey, if_neg hak, List.map_cons, List.nodup_cons]
      refine ⟨?_, ih hnd.2⟩
      intro hmem
      rcases List.mem_map.mp hmem with ⟨p, hp, hfst⟩
      exact hnd.1 (hfst ▸ List.mem_map_of_mem Prod.fst (eraseKey_keys_subset rest k p hp))

theorem mem_upsert_iff {β : Type} (l : List (NodeId × β)) (k : NodeId) (v : β)
    (hnd : (l.map Prod.fst).Nodup) (p : NodeId × β) :
    p ∈ upsert l k v ↔ (p ∈ l ∧ p.1 ≠ k) ∨ p = (k, v) := by
  induction l with
  | nil => simp [upsert]
  | cons q rest ih =>
    obtain ⟨a, b⟩ := q
    simp only [List.map_cons, List.nodup_cons] at hnd
    by_cases hak : a = k
    · subst hak
      rw [upsert, if_pos rfl]
      constructor
      · intro hp
        rcases List.mem_cons.mp hp with h1 | h2
        · exact Or.inr h1
        · refine Or.inl ⟨List.mem_cons_of_mem _ h2, ?_⟩
          intro hpk
          exact hnd.1 (hpk ▸ List.mem_map_of_mem Prod.fst h2)
      · rintro (⟨hmem, hne⟩ | heq)
        · rcases List.mem_cons.mp hmem with h1 | h2
          · exact absurd (congrArg Prod.fst h1) hne
          · exact List.mem_cons_of_mem _ h2
        · exact heq ▸ List.mem_cons_self _ _
    · rw [upsert, if_neg hak]
      constructor
      · intro hp
        rcases List.mem_cons.mp hp with h1 | h2
        · exact Or.inl ⟨h1 ▸ List.mem_cons_self _ _, by rw [h1]; exact hak⟩
        · rcases (ih hnd.2).mp h2 with ⟨h3, h4⟩ | h3
          · exact Or.inl ⟨List.mem_cons_of_mem _ h3, h4⟩
          · exact Or.inr h3
      · rintro (⟨hmem, hne⟩ | heq)
        · rcases List.mem_cons.mp hmem with h1 | h2
          · exact h1 ▸ List.mem_cons_self _ _
          · exact List.mem_cons_of_mem _ ((ih hnd.2).mpr (Or.inl ⟨h2, hne⟩))
        · exact List.mem_cons_of_mem _ ((ih hnd.2).mpr (Or.inr heq))

theorem mem_eraseKey_iff {β : Type} (l : List (NodeId × β)) (k : NodeId)
    (hnd : (l.map Prod.fst).Nodup) (p : NodeId × β) :
    p ∈ eraseKey l k ↔ p ∈ l ∧ p.1 ≠ k := by
  induction l with
  | nil => simp [eraseKey]
  | cons q rest ih =>
    obtain ⟨a, b⟩ := q
    simp only [List.map_cons, List.nodup_cons] at hnd
    by_cases hak : a = k
    · subst hak
      rw [eraseKey, if_pos rfl]
      constructor
      · intro hp
        refine ⟨List.mem_cons_of_mem _ hp, ?_⟩
        intro hpk
        exact hnd.1 (hpk ▸ List.mem_map_of_mem Prod.fst hp)
      · rintro ⟨hmem, hne⟩
        rcases List.mem_cons.mp hmem with h1 | h2
        · exact absurd (congrArg Prod.fst h1) hne
        · exact h2
    · rw [eraseKey, if_neg hak]
      constructor
      · intro hp
        rcases List.mem_cons.mp hp with h1 | h2
        · exact ⟨h1 ▸ List.mem_cons_self _ _, by rw [h1]; exact hak⟩
        · have := (ih hnd.2).mp h2
          exact ⟨List.mem_cons_of_mem _ this.1, this.2⟩
      · rintro ⟨hmem, hne⟩
        rcases List.mem_cons.mp hmem with h1 | h2
        · exact h1 ▸ List.mem_cons_self _ _
        · exact List.mem_cons_of_mem _ ((ih hnd.2).mpr ⟨h2, hne⟩)

theorem lookupK_map_eraseInner (l : List (NodeId × Adj)) (k x : NodeId) :
    lookupK (l.map (fun p => (p.1, eraseKey p.2 k))) x =
      (lookupK l x).map (fun a => eraseKey a k) := by
  induction l with
  | nil => simp [lookupK]
  | cons q rest ih =>
    obtain ⟨a, b⟩ := q
    by_cases hax : a = x
    · subst hax
      simp [lookupK]
    · simp only [List.map_cons, lookupK, if_neg hax]
      exact ih

end AssocLemmas

/-! ## Kernel-computable rational division and floor

`Rat.inv` (hence `/` on `ℚ`) and Mathlib's `⌊⌋`/`⌈⌉` do not reduce
inside the kernel, so concrete instances could not be settled by
`decide`.  The embedding therefore uses the equivalent computable
forms below; the bridge lemmas restore the ordinary operators inside
proofs. -/

/-- Division on `ℚ`, computed through `mkRat` (provably equal to `/`). -/
def ratDiv (a b : ℚ) : ℚ :=
  if (a.den : ℤ) * b.num < 0 then
    mkRat (-(a.num * (b.den : ℤ))) ((a.den : ℤ) * b.num).natAbs
  else
    mkRat (a.num * (b.den : ℤ)) ((a.den : ℤ) * b.num).natAbs

theorem mkRat_eq_divQ (n : ℤ) (d : ℕ) : mkRat n d = (n : ℚ) / (d : ℚ) := by
  rw [Rat.mkRat_eq_divInt, Rat.divInt_eq_div]
  norm_num

theorem ratDiv_eq (a b : ℚ) : ratDiv a b = a / b := by
  have hden : ((a.den : ℚ)) ≠ 0 := by exact_mod_cast a.den_nz
  have hbden : ((b.den : ℚ)) ≠ 0 := by exact_mod_cast b.den_nz
  have hmain : a / b = ((a.num : ℚ) * (b.den : ℚ)) / ((a.den : ℚ) * (b.num : ℚ)) := by
    by_cases hb : b.num = 0
    · have hb0 : b = 0 := by
        rw [← Rat.num_div_den b, hb]
        simp
      subst hb0
      simp
    · have hbq : ((b.num : ℚ)) ≠ 0 := by exact_mod_cast hb
      have hbne : b ≠ 0 := by
        intro h
        rw [h] at hb
        exact hb rfl
      have hanum : (a.num : ℚ) = a * (a.den : ℚ) :=
        (div_eq_iff hden).mp (Rat.num_div_den a)
      have hbnum : (b.num : ℚ) = b * (b.den : ℚ) :=
        (div_eq_iff hbden).mp (Rat.num_div_den b)
      have hu : ((a.den : ℚ)) * ((b.num : ℚ)) ≠ 0 := mul_ne_zero hden hbq
      rw [eq_div_iff hu]
      calc a / b * ((a.den : ℚ) * (b.num : ℚ))
          = a / b * ((a.den : ℚ) * (b * (b.den : ℚ))) := by rw [← hbnum]
        _ = (a / b * b) * ((a.den : ℚ) * (b.den : ℚ)) := by ring
        _ = a * ((a.den : ℚ) * (b.den : ℚ)) := by rw [div_mul_cancel₀ a hbne]
        _ = (a * (a.den : ℚ)) * (b.den : ℚ) := by ring
        _ = (a.num : ℚ) * (b.den : ℚ) := by rw [← hanum]
  unfold ratDiv
  by_cases hu : (a.den : ℤ) * b.num < 0
  · rw [if_pos hu, mkRat_eq_divQ, hmain]
    have hneg : ((((a.den : ℤ) * b.num : ℤ)) : ℚ) < 0 := by exact_mod_cast hu
    rw [Int.cast_natAbs, Int.cast_abs, abs_of_neg hneg]
    push_cast
    rw [neg_div_neg_eq]
  · rw [if_neg hu, mkRat_eq_divQ, hmain]
    push_neg at hu
    have hpos : (0:ℚ) ≤ ((((a.den : ℤ) * b.num : ℤ)) : ℚ) := by exact_mod_cast hu
    rw [Int.cast_natAbs, Int.cast_abs, abs_of_nonneg hpos]
    push_cast
    rfl


/-- Addition on `ℚ` computed through `mkRat` (provably equal to `+`). -/
def ratAdd (a b : ℚ) : ℚ :=
  mkRat (a.num * (b.den : ℤ) + b.num * (a.den : ℤ)) (a.den * b.den)

/-- Subtraction on `ℚ` computed through `mkRat` (provably equal to `-`). -/
def ratSub (a b : ℚ) : ℚ :=
  mkRat (a.num * (b.den : ℤ) - b.num * (a.den : ℤ)) (a.den * b.den)

/-- Multiplication on `ℚ` computed through `mkRat` (provably `*`). -/
def ratMul (a b : ℚ) : ℚ := mkRat (a.num * b.num) (a.den * b.den)

theorem ratAdd_eq (a b : ℚ) : ratAdd a b = a + b := by
  have hden : ((a.den : ℚ)) ≠ 0 := by exact_mod_cast a.den_nz
  have hbden : ((b.den : ℚ)) ≠ 0 := by exact_mod_cast b.den_nz
  have hanum : (a.num : ℚ) = a * (a.den : ℚ) :=
    (div_eq_iff hden).mp (Rat.num_div_den a)
  have hbnum : (b.num : ℚ) = b * (b.den : ℚ) :=
    (div_eq_iff hbden).mp (Rat.num_div_den b)
  rw [ratAdd, mkRat_eq_divQ]
  push_cast
  field_simp
  rw [hanum, hbnum]
  ring

theorem ratSub_eq (a b : ℚ) : ratSub a b = a - b := by
  have hden : ((a.den : ℚ)) ≠ 0 := by exact_mod_cast a.den_nz
  have hbden : ((b.den : ℚ)) ≠ 0 := by exact_mod_cast b.den_nz
  have hanum : (a.num : ℚ) = a * (a.den : ℚ) :=
    (div_eq_iff hden).mp (Rat.num_div_den a)
  have hbnum : (b.num : ℚ) = b * (b.den : ℚ) :=
    (div_eq_iff hbden).mp (Rat.num_div_den b)
  rw [ratSub, mkRat_eq_divQ]
  push_cast
  field_simp
  rw [hanum, hbnum]
  ring

theorem ratMul_eq (a b : ℚ) : ratMul a b = a * b := by
  have hden : ((a.den : ℚ)) ≠ 0 := by exact_mod_cast a.den_nz
  have hbden : ((b.den : ℚ)) ≠ 0 := by exact_mod_cast b.den_nz
  have hanum : (a.num : ℚ) = a * (a.den : ℚ) :=
    (div_eq_iff hden).mp (Rat.num_div_den a)
  have hbnum : (b.num : ℚ) = b * (b.den : ℚ) :=
    (div_eq_iff hbden).mp (Rat.num_div_den b)
  rw [ratMul, mkRat_eq_divQ]
  push_cast
  field_simp
  rw [hanum, hbnum]
  ring

/-- Floor of a rational, computed on the normal form (provably `⌊q⌋`). -/
def ratFloor (q : ℚ) : ℤ := q.num / (q.den : ℤ)

theorem ratFloor_eq (q : ℚ) : ratFloor q = ⌊q⌋ := Rat.floor_def.symm

/-- Ceiling of a rational (provably `⌈q⌉`). -/
def ratCeil (q : ℚ) : ℤ := -ratFloor (-q)

theorem ratCeil_eq (q : ℚ) : ratCeil q = ⌈q⌉ := by
  rw [ratCeil, ratFloor_eq, ← Int.ceil_neg, neg_neg]

theorem mkRat_half : (mkRat 1 2 : ℚ) = 1/2 := by
  rw [mkRat_eq_divQ]
  norm_num

/-! ## Python string primitives

Kernel-computable models of the Python string methods the backend
uses (`str.strip`, `str.lower`, `str.split`, digit parsing), defined
by recursion on the character list so concrete instances evaluate
by `decide`/`rfl`. -/

/-- The ASCII whitespace stripped by Python `str.strip()`. -/
def isPySpace (c : Char) : Bool :=
  c = ' ' || c = '\t' || c = '\n' || c = '\r' || c = '\x0b' || c = '\x0c'

/-- Python `s.strip()`. -/
def pyStrip (s : String) : String :=
  ⟨((s.data.dropWhile isPySpace).reverse.dropWhile isPySpace).reverse⟩

/-- ASCII lower-casing of one character (Python `str.lower`; the
backend only compares against ASCII literals). -/
def lowerChar (c : Char) : Char :=
  if 'A' ≤ c && c ≤ 'Z' then Char.ofNat (c.toNat + 32) else c

/-- Python `s.lower()`. -/
def pyLower (s : String) : String := ⟨s.data.map lowerChar⟩

/-- Helper for `pySplit`: accumulate the current piece (reversed). -/
def pySplitAux (sep : Char) : List Char → List Char → List (List Char)
  | [], acc => [acc.reverse]
  | c :: cs, acc =>
    if c = sep then acc.reverse :: pySplitAux sep cs []
    else pySplitAux sep cs (c :: acc)

/-- Python `s.split(sep)` for a one-character separator. -/
def pySplit (s : String) (sep : Char) : List String :=
  (pySplitAux sep s.data []).map (fun cs => ⟨cs⟩)

/-- Decimal value of a digit list (`foldl`-style). -/
def digitsVal (cs : List Char) : ℕ :=
  cs.foldl (fun n c => n * 10 + (c.toNat - 48)) 0

/-- Parse a non-empty all-digit string. -/
def parseDigitsCs (cs : List Char) : Option ℕ :=
  if cs ≠ [] && cs.all Char.isDigit then some (digitsVal cs) else none

/-! ## Graph operations (`backend.py`, GRAPH OPERATIONS AND VALIDATION) -/

/-- Coordinate range test used by `validate_graph` and `add_node`:
`-90 <= lat <= 90 and -180 <= lng <= 180`. -/
def coordOK (c : ℚ × ℚ) : Bool :=
  decide (-90 ≤ c.1) && decide (c.1 ≤ 90) &&
  decide (-180 ≤ c.2) && decide (c.2 ≤ 180)

/-- The boolean verdict of `validate_graph` (the embedding types rule out
the malformed-shape and non-numeric branches; only the error message,
which no claim mentions, is not modelled). -/
def validate_graph (g : Graph) : Bool :=
  g.nodes.all (fun p => coordOK p.2) &&
  g.edges.all (fun p => g.hasNode p.1 && p.2.all (fun q => g.hasNode q.1)) &&
  g.edges.all (fun p => p.2.all (fun q => decide (q.1 ≠ p.1) && decide (0 < q.2)))

/-- Outcome of a mutating Python function: either the returned status
message, or an uncaught `KeyError` (paired, at the call site, with the
state of the in-place-mutated object when the exception was raised). -/
inductive PyOutcome where
  | msg (s : String)
  | keyError
  deriving Repr, DecidableEq

/-- `add_node(graph, node_id, lat, lng)`. The `float()` conversion
cannot fail on `ℚ` inputs, so the `"must be numbers"` branch is not
representable. -/
def add_node (g : Graph) (node_id : String) (lat lng : ℚ) :
    Graph × String :=
  if pyStrip node_id = "" then (g, "Node ID must be a non-empty string")
  else if ¬ (-90 ≤ lat ∧ lat ≤ 90 ∧ -180 ≤ lng ∧ lng ≤ 180) then
    (g, "Invalid coordinates range")
  else if (lookupK g.nodes node_id).isSome then
    (g, "Node " ++ node_id ++ " already exists")
  else
    ({ nodes := upsert g.nodes node_id (lat, lng),
       edges := upsert g.edges node_id [] },
     "Node " ++ node_id ++ " added successfully")

/-- `add_edge(graph, node_a, node_b, cost)`. The two dict assignments
`graph["edges"][node_a][node_b] = cost` and the symmetric one raise
`KeyError` when the outer key is missing; the first assignment has then
already mutated the graph. -/
def add_edge (g : Graph) (node_a node_b : String) (cost : ℚ) :
    Graph × PyOutcome :=
  if ¬ (g.hasNode node_a ∧ g.hasNode node_b) then
    (g, .msg "One or both nodes don't exist")
  else if node_a = node_b then (g, .msg "Cannot create self-edge")
  else if cost ≤ 0 then (g, .msg "Cost must be a positive number")
  else
    match lookupK g.edges node_a with
    | none => (g, .keyError)
    | some adjA =>
      let g1 : Graph :=
        { g with edges := upsert g.edges node_a (upsert adjA node_b cost) }
      match lookupK g1.edges node_b with
      | none => (g1, .keyError)
      | some adjB =>
        ({ g1 with edges := upsert g1.edges node_b (upsert adjB node_a cost) },
         .msg ("Edge between " ++ node_a ++ " and " ++ node_b ++
               " added successfully"))

/-- `remove_node(graph, node_id)`. -/
def remove_node (g : Graph) (node_id : String) : Graph × String :=
  if ¬ g.hasNode node_id then (g, "Node " ++ node_id ++ " does not exist")
  else
    ({ nodes := eraseKey g.nodes node_id,
       edges := (eraseKey g.edges node_id).map
         (fun p => (p.1, eraseKey p.2 node_id)) },
     "Node " ++ node_id ++ " removed successfully")

/-- One direction of `remove_edge`:
`if x in graph["edges"] and y in graph["edges"][x]: del graph["edges"][x][y]`,
returning the new edge dict and whether a deletion happened. -/
def removeDir (E : List (NodeId × Adj)) (x y : NodeId) :
    List (NodeId × Adj) × Bool :=
  match lookupK E x with
  | some adjX =>
    if (lookupK adjX y).isSome then (upsert E x (eraseKey adjX y), true)
    else (E, false)
  | none => (E, false)

/-- `remove_edge(graph, node_a, node_b)`. -/
def remove_edge (g : Graph) (node_a node_b : String) : Graph × String :=
  if ¬ (g.hasNode node_a ∧ g.hasNode node_b) then
    (g, "One or both nodes don't exist")
  else
    let s1 := removeDir g.edges node_a node_b
    let s2 := removeDir s1.1 node_b node_a
    if s1.2 || s2.2 then
      ({ g with edges := s2.1 },
       "Edge between " ++ node_a ++ " and " ++ node_b ++ " removed successfully")
    else
      (g, "No edge between " ++ node_a ++ " and " ++ node_b)

theorem removeDir_none {E : List (NodeId × Adj)} {x : NodeId} (y : NodeId)
    (h : lookupK E x = none) : removeDir E x y = (E, false) := by
  unfold removeDir
  rw [h]

theorem removeDir_miss {E : List (NodeId × Adj)} {x y : NodeId} {adjX : Adj}
    (h : lookupK E x = some adjX) (h2 : lookupK adjX y = none) :
    removeDir E x y = (E, false) := by
  unfold removeDir
  rw [h]
  simp [h2]

theorem removeDir_hit {E : List (NodeId × Adj)} {x y : NodeId} {adjX : Adj}
    (h : lookupK E x = some adjX) (h2 : (lookupK adjX y).isSome = true) :
    removeDir E x y = (upsert E x (eraseKey adjX y), true) := by
  unfold removeDir
  rw [h]
  simp [h2]

/-! ## Graph well-formedness and the validity invariant -/

/-- Representation invariant of Python dicts: no duplicate keys. -/
def Graph.WF (g : Graph) : Prop :=
  (g.nodes.map Prod.fst).Nodup ∧ (g.edges.map Prod.fst).Nodup ∧
  ∀ p ∈ g.edges, (p.2.map Prod.fst).Nodup

instance (g : Graph) : Decidable g.WF := by
  unfold Graph.WF
  infer_instance

/-- Adjacency symmetry: `weight(a,b) = weight(b,a)` whenever either
exists (stated for every stored direction, which under symmetry covers
"whenever either exists"). -/
def Graph.SymmetricAdj (g : Graph) : Prop :=
  ∀ p ∈ g.edges, ∀ q ∈ p.2, g.w q.1 p.1 = some q.2

/-- No self-loops. -/
def Graph.NoSelfLoop (g : Graph) : Prop :=
  ∀ p ∈ g.edges, ∀ q ∈ p.2, q.1 ≠ p.1

/-- All edge weights positive. -/
def Graph.PosWeights (g : Graph) : Prop :=
  ∀ p ∈ g.edges, ∀ q ∈ p.2, 0 < q.2

/-- Every node referenced in `edges` is present in `nodes`. -/
def Graph.EdgeRefsOK (g : Graph) : Prop :=
  ∀ p ∈ g.edges, g.hasNode p.1 = true ∧ ∀ q ∈ p.2, g.hasNode q.1 = true

/-- All coordinates in range. -/
def Graph.CoordsOK (g : Graph) : Prop :=
  ∀ p ∈ g.nodes, coordOK p.2 = true

/-- The graph validity invariant exactly as the claim states it:
symmetry, no self-loops, positive weights, no dangling edge references,
coordinates in range. -/
def Graph.InvOrig (g : Graph) : Prop :=
  g.SymmetricAdj ∧ g.NoSelfLoop ∧ g.PosWeights ∧ g.EdgeRefsOK ∧ g.CoordsOK

/-- Every node has an adjacency entry in `edges` (the clause the
original invariant is missing; `add_node` establishes it and
`add_edge` silently assumes it). -/
def Graph.AdjTotal (g : Graph) : Prop :=
  ∀ p ∈ g.nodes, (lookupK g.edges p.1).isSome = true

/-- The amended invariant: the claimed one plus adjacency totality. -/
def Graph.InvAmended (g : Graph) : Prop :=
  g.InvOrig ∧ g.AdjTotal

instance (g : Graph) : Decidable g.SymmetricAdj := by
  unfold Graph.SymmetricAdj
  infer_instance

instance (g : Graph) : Decidable g.InvOrig := by
  unfold Graph.InvOrig Graph.NoSelfLoop Graph.PosWeights Graph.EdgeRefsOK
    Graph.CoordsOK
  infer_instance

instance (g : Graph) : Decidable g.InvAmended := by
  unfold Graph.InvAmended Graph.AdjTotal
  infer_instance

/-! ## Claim C3: the mutation operations preserve the graph invariant -/

theorem Graph.adjNodup {g : Graph} (hwf : g.WF) (v : NodeId) :
    ((g.adj v).map Prod.fst).Nodup := by
  unfold Graph.adj
  cases h : lookupK g.edges v with
  | none => simp
  | some adjV => exact hwf.2.2 _ (lookupK_mem _ _ _ h)

theorem Graph.adj_of_lookup {g : Graph} {u : NodeId} {adjU : Adj}
    (h : lookupK g.edges u = some adjU) : g.adj u = adjU := by
  unfold Graph.adj
  rw [h]
  rfl

/-- `add_node` preserves well-formedness and the amended invariant. -/
theorem add_node_preserves (g : Graph) (hwf : g.WF) (hinv : g.InvAmended)
    (id : String) (lat lng : ℚ) :
    (add_node g id lat lng).1.WF ∧ (add_node g id lat lng).1.InvAmended := by
  obtain ⟨⟨hsym, hself, hpos, hrefs, hcoords⟩, hadjt⟩ := hinv
  unfold add_node
  by_cases h1 : pyStrip id = ""
  · rw [if_pos h1]
    exact ⟨hwf, ⟨hsym, hself, hpos, hrefs, hcoords⟩, hadjt⟩
  rw [if_neg h1]
  by_cases h2 : ¬ (-90 ≤ lat ∧ lat ≤ 90 ∧ -180 ≤ lng ∧ lng ≤ 180)
  · rw [if_pos h2]
    exact ⟨hwf, ⟨hsym, hself, hpos, hrefs, hcoords⟩, hadjt⟩
  rw [if_neg h2]
  by_cases h3 : (lookupK g.nodes id).isSome = true
  · rw [if_pos h3]
    exact ⟨hwf, ⟨hsym, hself, hpos, hrefs, hcoords⟩, hadjt⟩
  rw [if_neg h3]
  push_neg at h2
  have hidfresh : g.hasNode id = false := by
    unfold Graph.hasNode
    cases h : lookupK g.nodes id with
    | none => rfl
    | some c => exact absurd (by rw [h]; rfl) h3
  -- any node referenced in the old edges is distinct from the new id
  have hrefne : ∀ v, g.hasNode v = true → v ≠ id := by
    intro v hv hvid
    rw [hvid, hidfresh] at hv
    exact Bool.false_ne_true hv
  have hmono : ∀ v, g.hasNode v = true →
      (lookupK (upsert g.nodes id (lat, lng)) v).isSome = true := by
    intro v hv
    rw [lookupK_upsert]
    by_cases hidv : id = v
    · rw [if_pos hidv]
      rfl
    · rw [if_neg hidv]
      exact hv
  have hadjkeep : ∀ v, v ≠ id →
      (Graph.adj ⟨upsert g.nodes id (lat, lng), upsert g.edges id []⟩ v) =
        g.adj v := by
    intro v hvne
    unfold Graph.adj
    show (lookupK (upsert g.edges id []) v).getD [] = _
    rw [lookupK_upsert, if_neg (fun h => hvne h.symm)]
  refine ⟨⟨?_, ?_, ?_⟩, ⟨?_, ?_, ?_, ?_, ?_⟩, ?_⟩
  · exact upsert_keys_nodup _ _ _ hwf.1
  · exact upsert_keys_nodup _ _ _ hwf.2.1
  · intro p hp
    rcases upsert_mem g.edges id [] p hp with h | h
    · exact hwf.2.2 p h
    · rw [h]
      simp
  · -- symmetry
    intro p hp q hq
    rcases upsert_mem g.edges id [] p hp with h | h
    · have hold := hsym p h q hq
      have hq1 : g.hasNode q.1 = true := (hrefs p h).2 q hq
      unfold Graph.w
      rw [hadjkeep q.1 (hrefne q.1 hq1)]
      exact hold
    · rw [h] at hq
      simp at hq
  · -- no self-loops
    intro p hp q hq
    rcases upsert_mem g.edges id [] p hp with h | h
    · exact hself p h q hq
    · rw [h] at hq
      simp at hq
  · -- positive weights
    intro p hp q hq
    rcases upsert_mem g.edges id [] p hp with h | h
    · exact hpos p h q hq
    · rw [h] at hq
      simp at hq
  · -- edge references
    intro p hp
    rcases upsert_mem g.edges id [] p hp with h | h
    · refine ⟨hmono p.1 (hrefs p h).1, ?_⟩
      intro q hq
      exact hmono q.1 ((hrefs p h).2 q hq)
    · rw [h]
      constructor
      · show (lookupK (upsert g.nodes id (lat, lng)) id).isSome = true
        rw [lookupK_upsert, if_pos rfl]
        rfl
      · intro q hq
        simp at hq
  · -- coordinates in range
    intro p hp
    rcases upsert_mem g.nodes id (lat, lng) p hp with h | h
    · exact hcoords p h
    · rw [h]
      unfold coordOK
      simp only [Bool.and_eq_true, decide_eq_true_eq]
      exact ⟨⟨⟨h2.1, h2.2.1⟩, h2.2.2.1⟩, h2.2.2.2⟩
  · -- adjacency totality
    intro p hp
    rcases upsert_mem g.nodes id (lat, lng) p hp with h | h
    · show (lookupK (upsert g.edges id []) p.1).isSome = true
      rw [lookupK_upsert]
      by_cases hidp : id = p.1
      · rw [if_pos hidp]
        rfl
      · rw [if_neg hidp]
        exact hadjt p h
    · show (lookupK (upsert g.edges id []) p.1).isSome = true
      rw [h, lookupK_upsert, if_pos rfl]
      rfl

/-- `remove_node` preserves well-formedness and the amended invariant. -/
theorem remove_node_preserves (g : Graph) (hwf : g.WF) (hinv : g.InvAmended)
    (id : String) :
    (remove_node g id).1.WF ∧ (remove_node g id).1.InvAmended := by
  obtain ⟨⟨hsym, hself, hpos, hrefs, hcoords⟩, hadjt⟩ := hinv
  unfold remove_node
  by_cases h1 : ¬ g.hasNode id = true
  · rw [if_pos h1]
    exact ⟨hwf, ⟨hsym, hself, hpos, hrefs, hcoords⟩, hadjt⟩
  rw [if_neg h1]
  set E' := (eraseKey g.edges id).map (fun p => (p.1, eraseKey p.2 id))
    with hE'
  have hkeys : E'.map Prod.fst = (eraseKey g.edges id).map Prod.fst := by
    rw [hE', List.map_map]
    rfl
  have hlookE' : ∀ x, lookupK E' x =
      if id = x then none else (lookupK g.edges x).map (fun a => eraseKey a id) := by
    intro x
    rw [hE', lookupK_map_eraseInner, lookupK_eraseKey _ _ _ hwf.2.1]
    by_cases hidx : id = x
    · rw [if_pos hidx, if_pos hidx]
      rfl
    · rw [if_neg hidx, if_neg hidx]
  have hadj' : ∀ x, x ≠ id →
      (Graph.adj ⟨eraseKey g.nodes id, E'⟩ x) = eraseKey (g.adj x) id := by
    intro x hx
    show (lookupK E' x).getD [] = _
    rw [hlookE' x, if_neg (fun h => hx h.symm)]
    unfold Graph.adj
    cases h : lookupK g.edges x with
    | none => rfl
    | some adjX => rfl
  have hmem' : ∀ p, p ∈ E' →
      ∃ n adjN, p = (n, eraseKey adjN id) ∧ (n, adjN) ∈ g.edges ∧ n ≠ id := by
    intro p hp
    rw [hE'] at hp
    rcases List.mem_map.mp hp with ⟨r, hr, hrfl⟩
    obtain ⟨n, adjN⟩ := r
    have := (mem_eraseKey_iff g.edges id hwf.2.1 (n, adjN)).mp hr
    exact ⟨n, adjN, hrfl.symm, this.1, this.2⟩
  have hnodes' : ∀ v, v ≠ id →
      (Graph.hasNode ⟨eraseKey g.nodes id, E'⟩ v) = g.hasNode v := by
    intro v hv
    show (lookupK (eraseKey g.nodes id) v).isSome = _
    rw [lookupK_eraseKey _ _ _ hwf.1, if_neg (fun h => hv h.symm)]
    rfl
  refine ⟨⟨?_, ?_, ?_⟩, ⟨?_, ?_, ?_, ?_, ?_⟩, ?_⟩
  · exact eraseKey_keys_nodup _ _ hwf.1
  · rw [hkeys]
    exact eraseKey_keys_nodup _ _ hwf.2.1
  · intro p hp
    rcases hmem' p hp with ⟨n, adjN, rfl, hmem, hne⟩
    exact eraseKey_keys_nodup _ _ (hwf.2.2 (n, adjN) hmem)
  · -- symmetry
    intro p hp q hq
    rcases hmem' p hp with ⟨n, adjN, rfl, hmem, hne⟩
    have hinner : (adjN.map Prod.fst).Nodup := hwf.2.2 (n, adjN) hmem
    have hq' := (mem_eraseKey_iff adjN id hinner q).mp hq
    have hold := hsym (n, adjN) hmem q hq'.1
    unfold Graph.w
    rw [hadj' q.1 hq'.2]
    rw [lookupK_eraseKey _ _ _ (Graph.adjNodup hwf q.1),
      if_neg (fun h => hne h.symm)]
    exact hold
  · -- no self-loops
    intro p hp q hq
    rcases hmem' p hp with ⟨n, adjN, rfl, hmem, hne⟩
    have hinner : (adjN.map Prod.fst).Nodup := hwf.2.2 (n, adjN) hmem
    have hq' := (mem_eraseKey_iff adjN id hinner q).mp hq
    exact hself (n, adjN) hmem q hq'.1
  · -- positive weights
    intro p hp q hq
    rcases hmem' p hp with ⟨n, adjN, rfl, hmem, hne⟩
    have hinner : (adjN.map Prod.fst).Nodup := hwf.2.2 (n, adjN) hmem
    have hq' := (mem_eraseKey_iff adjN id hinner q).mp hq
    exact hpos (n, adjN) hmem q hq'.1
  · -- edge references
    intro p hp
    rcases hmem' p hp with ⟨n, adjN, rfl, hmem, hne⟩
    have hinner : (adjN.map Prod.fst).Nodup := hwf.2.2 (n, adjN) hmem
    constructor
    · rw [hnodes' n hne]
      exact (hrefs (n, adjN) hmem).1
    · intro q hq
      have hq' := (mem_eraseKey_iff adjN id hinner q).mp hq
      rw [hnodes' q.1 hq'.2]
      exact (hrefs (n, adjN) hmem).2 q hq'.1
  · -- coordinates
    intro p hp
    exact hcoords p (eraseKey_keys_subset g.nodes id p hp)
  · -- adjacency totality
    intro p hp
    have hp' := (mem_eraseKey_iff g.nodes id hwf.1 p).mp hp
    show (lookupK E' p.1).isSome = true
    rw [hlookE' p.1, if_neg (fun h => hp'.2 h.symm)]
    have := hadjt p hp'.1
    cases h : lookupK g.edges p.1 with
    | none => rw [h] at this; exact absurd this (by simp)
    | some adjP => rfl

/-- `add_edge` preserves well-formedness and the amended invariant: under
adjacency totality both dict assignments find their entry, so the edge is
written symmetrically with the same positive cost. -/
theorem add_edge_preserves (g : Graph) (hwf : g.WF) (hinv : g.InvAmended)
    (a b : String) (c : ℚ) :
    (add_edge g a b c).1.WF ∧ (add_edge g a b c).1.InvAmended := by
  have horig : g.WF ∧ g.InvAmended := ⟨hwf, hinv⟩
  obtain ⟨⟨hsym, hself, hpos, hrefs, hcoords⟩, hadjt⟩ := hinv
  by_cases h1 : ¬ (g.hasNode a = true ∧ g.hasNode b = true)
  · unfold add_edge
    rw [if_pos h1]
    exact horig
  by_cases h2 : a = b
  · unfold add_edge
    rw [if_neg h1, if_pos h2]
    exact horig
  by_cases h3 : c ≤ 0
  · unfold add_edge
    rw [if_neg h1, if_neg h2, if_pos h3]
    exact horig
  push_neg at h1 h3
  have hba : b ≠ a := fun h => h2 h.symm
  obtain ⟨ca, hca⟩ : ∃ ca, lookupK g.nodes a = some ca := by
    have hx := h1.1
    unfold Graph.hasNode at hx
    exact Option.isSome_iff_exists.mp hx
  obtain ⟨cb, hcb⟩ : ∃ cb, lookupK g.nodes b = some cb := by
    have hx := h1.2
    unfold Graph.hasNode at hx
    exact Option.isSome_iff_exists.mp hx
  obtain ⟨adjA, hEa⟩ : ∃ adjA, lookupK g.edges a = some adjA :=
    Option.isSome_iff_exists.mp (hadjt (a, ca) (lookupK_mem _ _ _ hca))
  obtain ⟨adjB, hEb⟩ : ∃ adjB, lookupK g.edges b = some adjB :=
    Option.isSome_iff_exists.mp (hadjt (b, cb) (lookupK_mem _ _ _ hcb))
  have hmemA : (a, adjA) ∈ g.edges := lookupK_mem _ _ _ hEa
  have hmemB : (b, adjB) ∈ g.edges := lookupK_mem _ _ _ hEb
  have hInA : (adjA.map Prod.fst).Nodup := hwf.2.2 _ hmemA
  have hInB : (adjB.map Prod.fst).Nodup := hwf.2.2 _ hmemB
  have hcond : ¬ ¬ (g.hasNode a = true ∧ g.hasNode b = true) := fun h => h h1
  have hcnot : ¬ (c ≤ 0) := not_le.mpr h3
  have hadd : (add_edge g a b c).1 =
      (match lookupK g.edges a with
       | none => (g, PyOutcome.keyError)
       | some adjA =>
         let g1 : Graph :=
           { g with edges := upsert g.edges a (upsert adjA b c) }
         match lookupK g1.edges b with
         | none => (g1, PyOutcome.keyError)
         | some adjB =>
           ({ g1 with edges := upsert g1.edges b (upsert adjB a c) },
            PyOutcome.msg ("Edge between " ++ a ++ " and " ++ b ++
              " added successfully"))).1 := by
    unfold add_edge
    rw [if_neg hcond, if_neg h2, if_neg hcnot]
  have hE1b : lookupK (upsert g.edges a (upsert adjA b c)) b = some adjB := by
    rw [lookupK_upsert, if_neg h2, hEb]
  have hg1 : (add_edge g a b c).1 = { g with edges := upsert (upsert g.edges a (upsert adjA b c)) b (upsert adjB a c) } := by
    rw [hadd, hEa]
    simp only [hE1b]
  rw [hg1]
  set F := upsert (upsert g.edges a (upsert adjA b c)) b (upsert adjB a c)
    with hF
  have hlookF : ∀ x, lookupK F x =
      if b = x then some (upsert adjB a c)
      else if a = x then some (upsert adjA b c)
      else lookupK g.edges x := by
    intro x
    rw [hF, lookupK_upsert, lookupK_upsert]
  have hadjF : ∀ x, Graph.adj { g with edges := F } x =
      if b = x then upsert adjB a c
      else if a = x then upsert adjA b c
      else g.adj x := by
    intro x
    show (lookupK F x).getD [] = _
    rw [hlookF x]
    by_cases hbx : b = x
    · rw [if_pos hbx, if_pos hbx]
      rfl
    · rw [if_neg hbx, if_neg hbx]
      by_cases hax : a = x
      · rw [if_pos hax, if_pos hax]
        rfl
      · rw [if_neg hax, if_neg hax]
        rfl
  have hmemF : ∀ p ∈ F, (p ∈ g.edges ∧ p.1 ≠ a ∧ p.1 ≠ b) ∨
      p = (a, upsert adjA b c) ∨ p = (b, upsert adjB a c) := by
    intro p hp
    rw [hF] at hp
    rcases (mem_upsert_iff _ b _
        (upsert_keys_nodup _ _ _ hwf.2.1) p).mp hp with ⟨hp1, hpb⟩ | hp1
    · rcases (mem_upsert_iff _ a _ hwf.2.1 p).mp hp1 with ⟨hp2, hpa⟩ | hp2
      · exact Or.inl ⟨hp2, hpa, hpb⟩
      · exact Or.inr (Or.inl hp2)
    · exact Or.inr (Or.inr hp1)
  refine ⟨⟨hwf.1, ?_, ?_⟩, ⟨?_, ?_, ?_, ?_, ?_⟩, ?_⟩
  · show (F.map Prod.fst).Nodup
    rw [hF]
    exact upsert_keys_nodup _ _ _ (upsert_keys_nodup _ _ _ hwf.2.1)
  · intro p hp
    rcases hmemF p hp with ⟨h, _, _⟩ | h | h
    · exact hwf.2.2 p h
    · rw [h]
      exact upsert_keys_nodup _ _ _ hInA
    · rw [h]
      exact upsert_keys_nodup _ _ _ hInB
  · -- symmetry
    intro p hp q hq
    unfold Graph.w
    rw [hadjF q.1]
    rcases hmemF p hp with ⟨hpm, hpa, hpb⟩ | hp2 | hp2
    · have hold := hsym p hpm q hq
      unfold Graph.w at hold
      by_cases hqb : b = q.1
      · rw [if_pos hqb]
        rw [← hqb] at hold
        rw [Graph.adj_of_lookup hEb] at hold
        rw [lookupK_upsert, if_neg (fun h => hpa h.symm)]
        exact hold
      · rw [if_neg hqb]
        by_cases hqa : a = q.1
        · rw [if_pos hqa]
          rw [← hqa] at hold
          rw [Graph.adj_of_lookup hEa] at hold
          rw [lookupK_upsert, if_neg (fun h => hpb h.symm)]
          exact hold
        · rw [if_neg hqa]
          exact hold
    · rw [hp2] at hq ⊢
      rcases (mem_upsert_iff adjA b c hInA q).mp hq with ⟨hqm, hqb⟩ | hqc
      · have hold := hsym (a, adjA) hmemA q hqm
        have hqa : q.1 ≠ a := hself (a, adjA) hmemA q hqm
        unfold Graph.w at hold
        rw [if_neg (fun h => hqb h.symm), if_neg (fun h => hqa h.symm)]
        exact hold
      · have hq1 : q.1 = b := by rw [hqc]
        have hq2 : q.2 = c := by rw [hqc]
        rw [hq1, hq2, if_pos rfl]
        show lookupK (upsert adjB a c) a = some c
        rw [lookupK_upsert, if_pos rfl]
    · rw [hp2] at hq ⊢
      rcases (mem_upsert_iff adjB a c hInB q).mp hq with ⟨hqm, hqa⟩ | hqc
      · have hold := hsym (b, adjB) hmemB q hqm
        have hqb : q.1 ≠ b := hself (b, adjB) hmemB q hqm
        unfold Graph.w at hold
        rw [if_neg (fun h => hqb h.symm), if_neg (fun h => hqa h.symm)]
        exact hold
      · have hq1 : q.1 = a := by rw [hqc]
        have hq2 : q.2 = c := by rw [hqc]
        rw [hq1, hq2, if_neg hba, if_pos rfl]
        show lookupK (upsert adjA b c) b = some c
        rw [lookupK_upsert, if_pos rfl]
  · -- no self-loops
    intro p hp q hq
    rcases hmemF p hp with ⟨hpm, _, _⟩ | hp2 | hp2
    · exact hself p hpm q hq
    · rw [hp2] at hq ⊢
      rcases (mem_upsert_iff adjA b c hInA q).mp hq with ⟨hqm, _⟩ | hqc
      · exact hself (a, adjA) hmemA q hqm
      · rw [hqc]
        exact hba
    · rw [hp2] at hq ⊢
      rcases (mem_upsert_iff adjB a c hInB q).mp hq with ⟨hqm, _⟩ | hqc
      · exact hself (b, adjB) hmemB q hqm
      · rw [hqc]
        exact h2
  · -- positive weights
    intro p hp q hq
    rcases hmemF p hp with ⟨hpm, _, _⟩ | hp2 | hp2
    · exact hpos p hpm q hq
    · rw [hp2] at hq
      rcases (mem_upsert_iff adjA b c hInA q).mp hq with ⟨hqm, _⟩ | hqc
      · exact hpos (a, adjA) hmemA q hqm
      · rw [hqc]
        exact h3
    · rw [hp2] at hq
      rcases (mem_upsert_iff adjB a c hInB q).mp hq with ⟨hqm, _⟩ | hqc
      · exact hpos (b, adjB) hmemB q hqm
      · rw [hqc]
        exact h3
  · -- edge references
    intro p hp
    rcases hmemF p hp with ⟨hpm, _, _⟩ | hp2 | hp2
    · exact ⟨(hrefs p hpm).1, fun q hq => (hrefs p hpm).2 q hq⟩
    · rw [hp2]
      refine ⟨h1.1, ?_⟩
      intro q hq
      rcases (mem_upsert_iff adjA b c hInA q).mp hq with ⟨hqm, _⟩ | hqc
      · exact (hrefs (a, adjA) hmemA).2 q hqm
      · rw [hqc]
        exact h1.2
    · rw [hp2]
      refine ⟨h1.2, ?_⟩
      intro q hq
      rcases (mem_upsert_iff adjB a c hInB q).mp hq with ⟨hqm, _⟩ | hqc
      · exact (hrefs (b, adjB) hmemB).2 q hqm
      · rw [hqc]
        exact h1.1
  · exact hcoords
  · -- adjacency totality
    intro p hp
    show (lookupK F p.1).isSome = true
    rw [hlookF p.1]
    by_cases hbp : b = p.1
    · rw [if_pos hbp]
      rfl
    · rw [if_neg hbp]
      by_cases hap : a = p.1
      · rw [if_pos hap]
        rfl
      · rw [if_neg hap]
        exact hadjt p hp

/-- `remove_edge` preserves well-formedness and the amended invariant
(under symmetry an edge exists in both directions or neither, so the
two deletions happen together). -/
theorem remove_edge_preserves (g : Graph) (hwf : g.WF) (hinv : g.InvAmended)
    (a b : String) :
    (remove_edge g a b).1.WF ∧ (remove_edge g a b).1.InvAmended := by
  obtain ⟨⟨hsym, hself, hpos, hrefs, hcoords⟩, hadjt⟩ := hinv
  unfold remove_edge
  by_cases h1 : ¬ (g.hasNode a = true ∧ g.hasNode b = true)
  · rw [if_pos h1]
    exact ⟨hwf, ⟨hsym, hself, hpos, hrefs, hcoords⟩, hadjt⟩
  rw [if_neg h1]
  push_neg at h1
  cases hEa : lookupK g.edges a with
  | none =>
    have hs1 : removeDir g.edges a b = (g.edges, false) := removeDir_none b hEa
    cases hEb : lookupK g.edges b with
    | none =>
      have hs2 : removeDir g.edges b a = (g.edges, false) := removeDir_none a hEb
      simp only [hs1, hs2]
      exact ⟨hwf, ⟨hsym, hself, hpos, hrefs, hcoords⟩, hadjt⟩
    | some adjB =>
      have hlB : lookupK adjB a = none := by
        cases hw : lookupK adjB a with
        | none => rfl
        | some w =>
          have hmemB : (b, adjB) ∈ g.edges := lookupK_mem _ _ _ hEb
          have hmemw : (a, w) ∈ adjB := lookupK_mem _ _ _ hw
          have hcontra := hsym (b, adjB) hmemB (a, w) hmemw
          unfold Graph.w Graph.adj at hcontra
          rw [hEa] at hcontra
          simp [lookupK] at hcontra
      have hs2 : removeDir g.edges b a = (g.edges, false) :=
        removeDir_miss hEb hlB
      simp only [hs1, hs2]
      exact ⟨hwf, ⟨hsym, hself, hpos, hrefs, hcoords⟩, hadjt⟩
  | some adjA =>
    cases hwAB : lookupK adjA b with
    | none =>
      have hs1 : removeDir g.edges a b = (g.edges, false) :=
        removeDir_miss hEa hwAB
      cases hEb : lookupK g.edges b with
      | none =>
        have hs2 : removeDir g.edges b a = (g.edges, false) := removeDir_none a hEb
        simp only [hs1, hs2]
        exact ⟨hwf, ⟨hsym, hself, hpos, hrefs, hcoords⟩, hadjt⟩
      | some adjB =>
        have hlB : lookupK adjB a = none := by
          cases hw : lookupK adjB a with
          | none => rfl
          | some w =>
            have hmemB : (b, adjB) ∈ g.edges := lookupK_mem _ _ _ hEb
            have hmemw : (a, w) ∈ adjB := lookupK_mem _ _ _ hw
            have hcontra := hsym (b, adjB) hmemB (a, w) hmemw
            unfold Graph.w at hcontra
            rw [Graph.adj_of_lookup hEa, hwAB] at hcontra
            exact Option.noConfusion hcontra
        have hs2 : removeDir g.edges b a = (g.edges, false) :=
          removeDir_miss hEb hlB
        simp only [hs1, hs2]
        exact ⟨hwf, ⟨hsym, hself, hpos, hrefs, hcoords⟩, hadjt⟩
    | some w =>
      have hmemA : (a, adjA) ∈ g.edges := lookupK_mem _ _ _ hEa
      have hmemw : (b, w) ∈ adjA := lookupK_mem _ _ _ hwAB
      have hba : b ≠ a := hself (a, adjA) hmemA (b, w) hmemw
      have hab : a ≠ b := fun h => hba h.symm
      have hsymv := hsym (a, adjA) hmemA (b, w) hmemw
      unfold Graph.w at hsymv
      obtain ⟨adjB, hEb, hwBA⟩ : ∃ adjB, lookupK g.edges b = some adjB ∧
          lookupK adjB a = some w := by
        unfold Graph.adj at hsymv
        cases hEb : lookupK g.edges b with
        | none =>
          rw [hEb] at hsymv
          simp [lookupK] at hsymv
        | some adjB =>
          rw [hEb] at hsymv
          exact ⟨adjB, rfl, hsymv⟩
      have hs1 : removeDir g.edges a b =
          (upsert g.edges a (eraseKey adjA b), true) :=
        removeDir_hit hEa (by rw [hwAB]; rfl)
      have hlookb1 : lookupK (upsert g.edges a (eraseKey adjA b)) b =
          some adjB := by
        rw [lookupK_upsert, if_neg hab, hEb]
      have hs2 : removeDir (upsert g.edges a (eraseKey adjA b)) b a =
          (upsert (upsert g.edges a (eraseKey adjA b)) b (eraseKey adjB a),
           true) :=
        removeDir_hit hlookb1 (by rw [hwBA]; rfl)
      simp only [hs1, hs2]
      have hInA : (adjA.map Prod.fst).Nodup := hwf.2.2 _ hmemA
      have hInB : (adjB.map Prod.fst).Nodup :=
        hwf.2.2 _ (lookupK_mem _ _ _ hEb)
      have hmemB : (b, adjB) ∈ g.edges := lookupK_mem _ _ _ hEb
      have main : (Graph.mk g.nodes (upsert (upsert g.edges a
          (eraseKey adjA b)) b (eraseKey adjB a))).WF ∧
          (Graph.mk g.nodes (upsert (upsert g.edges a
            (eraseKey adjA b)) b (eraseKey adjB a))).InvAmended := by
        set F := upsert (upsert g.edges a (eraseKey adjA b)) b
          (eraseKey adjB a) with hF
        have hlookF : ∀ x, lookupK F x =
            if b = x then some (eraseKey adjB a)
            else if a = x then some (eraseKey adjA b)
            else lookupK g.edges x := by
          intro x
          rw [hF, lookupK_upsert, lookupK_upsert]
        have hadjF : ∀ x, (Graph.mk g.nodes F).adj x =
            if b = x then eraseKey adjB a
            else if a = x then eraseKey adjA b
            else g.adj x := by
          intro x
          show (lookupK F x).getD [] = _
          rw [hlookF x]
          by_cases hbx : b = x
          · rw [if_pos hbx, if_pos hbx]
            rfl
          · rw [if_neg hbx, if_neg hbx]
            by_cases hax : a = x
            · rw [if_pos hax, if_pos hax]
              rfl
            · rw [if_neg hax, if_neg hax]
              rfl
        have hmemF : ∀ p ∈ F, (p ∈ g.edges ∧ p.1 ≠ a ∧ p.1 ≠ b) ∨
            p = (a, eraseKey adjA b) ∨ p = (b, eraseKey adjB a) := by
          intro p hp
          rw [hF] at hp
          rcases (mem_upsert_iff _ b _
              (upsert_keys_nodup _ _ _ hwf.2.1) p).mp hp with ⟨hp1, hpb⟩ | hp1
          · rcases (mem_upsert_iff _ a _ hwf.2.1 p).mp hp1 with ⟨hp2, hpa⟩ | hp2
            · exact Or.inl ⟨hp2, hpa, hpb⟩
            · exact Or.inr (Or.inl hp2)
          · exact Or.inr (Or.inr hp1)
        refine ⟨⟨hwf.1, ?_, ?_⟩, ⟨?_, ?_, ?_, ?_, ?_⟩, ?_⟩
        · rw [hF]
          exact upsert_keys_nodup _ _ _ (upsert_keys_nodup _ _ _ hwf.2.1)
        · intro p hp
          rcases hmemF p hp with ⟨h, _, _⟩ | h | h
          · exact hwf.2.2 p h
          · rw [h]
            exact eraseKey_keys_nodup _ _ hInA
          · rw [h]
            exact eraseKey_keys_nodup _ _ hInB
        · -- symmetry
          intro p hp q hq
          unfold Graph.w
          rw [hadjF q.1]
          rcases hmemF p hp with ⟨hpm, hpa, hpb⟩ | hp2 | hp2
          · have hold := hsym p hpm q hq
            unfold Graph.w at hold
            by_cases hqb : b = q.1
            · rw [if_pos hqb]
              rw [← hqb] at hold
              rw [Graph.adj_of_lookup hEb] at hold
              rw [lookupK_eraseKey _ _ _ hInB, if_neg (fun h => hpa h.symm)]
              exact hold
            · rw [if_neg hqb]
              by_cases hqa : a = q.1
              · rw [if_pos hqa]
                rw [← hqa] at hold
                rw [Graph.adj_of_lookup hEa] at hold
                rw [lookupK_eraseKey _ _ _ hInA, if_neg (fun h => hpb h.symm)]
                exact hold
              · rw [if_neg hqa]
                exact hold
          · rw [hp2] at hq ⊢
            have hq' := (mem_eraseKey_iff adjA b hInA q).mp hq
            have hold := hsym (a, adjA) hmemA q hq'.1
            have hqa : q.1 ≠ a := hself (a, adjA) hmemA q hq'.1
            unfold Graph.w at hold
            rw [if_neg (fun h => hq'.2 h.symm), if_neg (fun h => hqa h.symm)]
            exact hold
          · rw [hp2] at hq ⊢
            have hq' := (mem_eraseKey_iff adjB a hInB q).mp hq
            have hold := hsym (b, adjB) hmemB q hq'.1
            have hqb : q.1 ≠ b := hself (b, adjB) hmemB q hq'.1
            unfold Graph.w at hold
            rw [if_neg (fun h => hqb h.symm), if_neg (fun h => hq'.2 h.symm)]
            exact hold
        · -- no self-loops
          intro p hp q hq
          rcases hmemF p hp with ⟨hpm, _, _⟩ | hp2 | hp2
          · exact hself p hpm q hq
          · rw [hp2] at hq ⊢
            exact hself (a, adjA) hmemA q
              ((mem_eraseKey_iff adjA b hInA q).mp hq).1
          · rw [hp2] at hq ⊢
            exact hself (b, adjB) hmemB q
              ((mem_eraseKey_iff adjB a hInB q).mp hq).1
        · -- positive weights
          intro p hp q hq
          rcases hmemF p hp with ⟨hpm, _, _⟩ | hp2 | hp2
          · exact hpos p hpm q hq
          · rw [hp2] at hq
            exact hpos (a, adjA) hmemA q
              ((mem_eraseKey_iff adjA b hInA q).mp hq).1
          · rw [hp2] at hq
            exact hpos (b, adjB) hmemB q
              ((mem_eraseKey_iff adjB a hInB q).mp hq).1
        · -- edge references
          intro p hp
          rcases hmemF p hp with ⟨hpm, _, _⟩ | hp2 | hp2
          · exact ⟨(hrefs p hpm).1, fun q hq => (hrefs p hpm).2 q hq⟩
          · rw [hp2]
            refine ⟨h1.1, ?_⟩
            intro q hq
            exact (hrefs (a, adjA) hmemA).2 q
              ((mem_eraseKey_iff adjA b hInA q).mp hq).1
          · rw [hp2]
            refine ⟨h1.2, ?_⟩
            intro q hq
            exact (hrefs (b, adjB) hmemB).2 q
              ((mem_eraseKey_iff adjB a hInB q).mp hq).1
        · exact hcoords
        · -- adjacency totality
          intro p hp
          show (lookupK F p.1).isSome = true
          rw [hlookF p.1]
          by_cases hbp : b = p.1
          · rw [if_pos hbp]
            rfl
          · rw [if_neg hbp]
            by_cases hap : a = p.1
            · rw [if_pos hap]
              rfl
            · rw [if_neg hap]
              exact hadjt p hp
      exact main

/-- C3 (counterexample to the claim as stated): the claimed invariant
alone is not preserved.  On a graph where node `B` lacks an adjacency
entry — which the claimed invariant permits — `add_edge` raises
`KeyError` after the first of its two dict assignments, leaving an
asymmetric half-edge behind. -/
theorem graph_mutations_counterexample :
    Graph.WF ⟨[("A", (0, 0)), ("B", (0, 0))], [("A", [])]⟩ ∧
    Graph.InvOrig ⟨[("A", (0, 0)), ("B", (0, 0))], [("A", [])]⟩ ∧
    (add_edge ⟨[("A", (0, 0)), ("B", (0, 0))], [("A", [])]⟩ "A" "B" 1).2 =
      PyOutcome.keyError ∧
    ¬ Graph.InvOrig
      (add_edge ⟨[("A", (0, 0)), ("B", (0, 0))], [("A", [])]⟩ "A" "B" 1).1 := by
  decide

/-- C3 (amended): strengthening the invariant with adjacency totality
(every node owns an `edges` entry — which `add_node` establishes and
`remove_node` maintains) makes all four mutations preserve
well-formedness and the full invariant, on success and on failure. -/
theorem graph_mutations_preserve_invariant (g : Graph) (hwf : g.WF)
    (hinv : g.InvAmended) :
    (∀ id lat lng, (add_node g id lat lng).1.WF ∧
      (add_node g id lat lng).1.InvAmended) ∧
    (∀ a b c, (add_edge g a b c).1.WF ∧ (add_edge g a b c).1.InvAmended) ∧
    (∀ id, (remove_node g id).1.WF ∧ (remove_node g id).1.InvAmended) ∧
    (∀ a b, (remove_edge g a b).1.WF ∧ (remove_edge g a b).1.InvAmended) :=
  ⟨fun id lat lng => add_node_preserves g hwf hinv id lat lng,
   fun a b c => add_edge_preserves g hwf hinv a b c,
   fun id => remove_node_preserves g hwf hinv id,
   fun a b => remove_edge_preserves g hwf hinv a b⟩

/-- C3 witness: on a concrete two-node graph satisfying the amended
invariant, removing the edge keeps the invariant. -/
theorem graph_mutations_preserve_invariant_witness :
    (remove_edge ⟨[("A", (0, 0)), ("B", (0, 0))],
      [("A", [("B", 2)]), ("B", [("A", 2)])]⟩ "A" "B").1.WF ∧
    (remove_edge ⟨[("A", (0, 0)), ("B", (0, 0))],
      [("A", [("B", 2)]), ("B", [("A", 2)])]⟩ "A" "B").1.InvAmended :=
  (graph_mutations_preserve_invariant _ (by decide) (by decide)).2.2.2 "A" "B"

/-! ## Claim C4: `add_edge` / `remove_edge` round trip -/

/-- C4 counterexample: when an `A`–`B` edge (cost 2) already exists,
`add_edge(A,B,3)` overwrites it and the following `remove_edge(A,B)`
deletes the pair entirely, so `A`'s adjacency is not restored — even
though the `add_edge` call is valid (both endpoints present, `A ≠ B`,
positive cost). -/
theorem add_remove_edge_counterexample :
    (Graph.hasNode ⟨[("A", (0, 0)), ("B", (0, 0))],
        [("A", [("B", 2)]), ("B", [("A", 2)])]⟩ "A" = true) ∧
    (Graph.hasNode ⟨[("A", (0, 0)), ("B", (0, 0))],
        [("A", [("B", 2)]), ("B", [("A", 2)])]⟩ "B" = true) ∧
    ("A" : String) ≠ "B" ∧ (0 : ℚ) < 3 ∧
    lookupK (remove_edge
        (add_edge ⟨[("A", (0, 0)), ("B", (0, 0))],
          [("A", [("B", 2)]), ("B", [("A", 2)])]⟩ "A" "B" 3).1 "A" "B").1.edges
        "A" ≠
      lookupK (Graph.edges ⟨[("A", (0, 0)), ("B", (0, 0))],
        [("A", [("B", 2)]), ("B", [("A", 2)])]⟩) "A" := by
  refine ⟨rfl, rfl, by decide, by decide, by decide⟩

/-- C4 (amended): if additionally no `a`–`b` edge exists in either
direction before the call, a valid `add_edge(a,b,cost)` followed by
`remove_edge(a,b)` restores the adjacency entries of both `a` and `b`
exactly (this also covers the `KeyError` paths where `a` or `b` has no
adjacency dictionary). -/
theorem add_remove_edge_roundtrip (g : Graph) (a b : String) (c : ℚ)
    (ha : g.hasNode a = true) (hb : g.hasNode b = true) (hab : a ≠ b)
    (hc : 0 < c) (hnab : g.w a b = none) (hnba : g.w b a = none) :
    lookupK (remove_edge (add_edge g a b c).1 a b).1.edges a =
      lookupK g.edges a ∧
    lookupK (remove_edge (add_edge g a b c).1 a b).1.edges b =
      lookupK g.edges b := by
  have hba : b ≠ a := fun h => hab h.symm
  have hcondA : ¬ ¬ (g.hasNode a = true ∧ g.hasNode b = true) := by
    simp [ha, hb]
  have hcnot : ¬ (c ≤ 0) := not_le.mpr hc
  have hadd : (add_edge g a b c).1 =
      (match lookupK g.edges a with
       | none => (g, PyOutcome.keyError)
       | some adjA =>
         let g1 : Graph :=
           { g with edges := upsert g.edges a (upsert adjA b c) }
         match lookupK g1.edges b with
         | none => (g1, PyOutcome.keyError)
         | some adjB =>
           ({ g1 with edges := upsert g1.edges b (upsert adjB a c) },
            PyOutcome.msg ("Edge between " ++ a ++ " and " ++ b ++
              " added successfully"))).1 := by
    unfold add_edge
    rw [if_neg hcondA, if_neg hab, if_neg hcnot]
  cases hEa : lookupK g.edges a with
  | none =>
    -- add_edge raises before mutating; remove_edge is then a no-op
    have hg1 : (add_edge g a b c).1 = g := by
      rw [hadd, hEa]
    rw [hg1]
    unfold remove_edge
    rw [if_neg hcondA]
    have hs1 : removeDir g.edges a b = (g.edges, false) := removeDir_none b hEa
    cases hEb : lookupK g.edges b with
    | none =>
      have hs2 : removeDir g.edges b a = (g.edges, false) := removeDir_none a hEb
      simp only [hs1, hs2]
      exact ⟨hEa, hEb⟩
    | some adjB =>
      have hlB : lookupK adjB a = none := by
        have hw : g.w b a = lookupK adjB a := by
          unfold Graph.w Graph.adj
          rw [hEb]
          rfl
        rw [← hw, hnba]
      have hs2 : removeDir g.edges b a = (g.edges, false) :=
        removeDir_miss hEb hlB
      simp only [hs1, hs2]
      exact ⟨hEa, hEb⟩
  | some adjA =>
    have hadjA : g.adj a = adjA := by
      unfold Graph.adj
      rw [hEa]
      rfl
    have hlA : lookupK adjA b = none := by
      have hw : g.w a b = lookupK adjA b := by
        unfold Graph.w
        rw [hadjA]
      rw [← hw, hnab]
    have hbackA : eraseKey (upsert adjA b c) b = adjA := by
      rw [upsert_eq_append_of_not_mem adjA b c hlA]
      exact lookupK_append_single_eraseKey adjA b c hlA
    have hlApp : (lookupK (upsert adjA b c) b).isSome = true := by
      rw [lookupK_upsert, if_pos rfl]
      rfl
    cases hEb : lookupK g.edges b with
    | none =>
      -- the second dict assignment raises; remove_edge deletes the
      -- half-added edge again
      have hg1 : (add_edge g a b c).1 =
          { g with edges := upsert g.edges a (upsert adjA b c) } := by
        rw [hadd, hEa]
        have hlb : lookupK (upsert g.edges a (upsert adjA b c)) b = none := by
          rw [lookupK_upsert, if_neg hab, hEb]
        simp only [hlb]
      rw [hg1]
      unfold remove_edge
      rw [if_neg (by simp [Graph.hasNode] at hcondA ⊢; exact hcondA)]
      have hlook1 : lookupK (upsert g.edges a (upsert adjA b c)) a =
          some (upsert adjA b c) := by
        rw [lookupK_upsert, if_pos rfl]
      have hs1 : removeDir (upsert g.edges a (upsert adjA b c)) a b =
          (upsert (upsert g.edges a (upsert adjA b c)) a adjA, true) := by
        rw [removeDir_hit hlook1 hlApp, hbackA]
      have hlook2 : lookupK (upsert (upsert g.edges a (upsert adjA b c)) a
          adjA) b = none := by
        rw [lookupK_upsert, if_neg hab, lookupK_upsert, if_neg hab, hEb]
      have hs2 : removeDir (upsert (upsert g.edges a (upsert adjA b c)) a
          adjA) b a =
          (upsert (upsert g.edges a (upsert adjA b c)) a adjA, false) :=
        removeDir_none a hlook2
      simp only [hs1, hs2]
      constructor
      · show lookupK (upsert (upsert g.edges a (upsert adjA b c)) a adjA) a =
          some adjA
        rw [lookupK_upsert, if_pos rfl]
      · show lookupK (upsert (upsert g.edges a (upsert adjA b c)) a adjA) b =
          none
        rw [lookupK_upsert, if_neg hab, lookupK_upsert, if_neg hab]
        exact hEb
    | some adjB =>
      have hadjB : g.adj b = adjB := by
        unfold Graph.adj
        rw [hEb]
        rfl
      have hlB : lookupK adjB a = none := by
        have hw : g.w b a = lookupK adjB a := by
          unfold Graph.w
          rw [hadjB]
        rw [← hw, hnba]
      have hbackB : eraseKey (upsert adjB a c) a = adjB := by
        rw [upsert_eq_append_of_not_mem adjB a c hlB]
        exact lookupK_append_single_eraseKey adjB a c hlB
      have hlBpp : (lookupK (upsert adjB a c) a).isSome = true := by
        rw [lookupK_upsert, if_pos rfl]
        rfl
      have hg1 : (add_edge g a b c).1 = { g with edges := upsert (upsert g.edges a (upsert adjA b c)) b (upsert adjB a c) } := by
        rw [hadd, hEa]
        have hlb : lookupK (upsert g.edges a (upsert adjA b c)) b =
            some adjB := by
          rw [lookupK_upsert, if_neg hab, hEb]
        simp only [hlb]
      rw [hg1]
      unfold remove_edge
      rw [if_neg (by simp [Graph.hasNode] at hcondA ⊢; exact hcondA)]
      have hlook1 : lookupK (upsert (upsert g.edges a (upsert adjA b c)) b
          (upsert adjB a c)) a = some (upsert adjA b c) := by
        rw [lookupK_upsert, if_neg hba, lookupK_upsert, if_pos rfl]
      have hs1 : removeDir (upsert (upsert g.edges a (upsert adjA b c)) b
          (upsert adjB a c)) a b =
          (upsert (upsert (upsert g.edges a (upsert adjA b c)) b
            (upsert adjB a c)) a adjA, true) := by
        rw [removeDir_hit hlook1 hlApp, hbackA]
      have hlook2 : lookupK (upsert (upsert (upsert g.edges a
          (upsert adjA b c)) b (upsert adjB a c)) a adjA) b =
          some (upsert adjB a c) := by
        rw [lookupK_upsert, if_neg hab, lookupK_upsert, if_pos rfl]
      have hs2 : removeDir (upsert (upsert (upsert g.edges a
          (upsert adjA b c)) b (upsert adjB a c)) a adjA) b a =
          (upsert (upsert (upsert (upsert g.edges a (upsert adjA b c)) b
            (upsert adjB a c)) a adjA) b adjB, true) := by
        rw [removeDir_hit hlook2 hlBpp, hbackB]
      simp only [hs1, hs2]
      constructor
      · show lookupK (upsert (upsert (upsert (upsert g.edges a
            (upsert adjA b c)) b (upsert adjB a c)) a adjA) b adjB) a =
          some adjA
        rw [lookupK_upsert, if_neg hba, lookupK_upsert, if_pos rfl]
      · show lookupK (upsert (upsert (upsert (upsert g.edges a
            (upsert adjA b c)) b (upsert adjB a c)) a adjA) b adjB) b =
          some adjB
        rw [lookupK_upsert, if_pos rfl]

/-- C4 witness: on a concrete graph with no prior `A`–`B` edge the
round trip restores both adjacencies. -/
theorem add_remove_edge_roundtrip_witness :
    lookupK (remove_edge (add_edge ⟨[("A", (0, 0)), ("B", (0, 0))],
        [("A", []), ("B", [])]⟩ "A" "B" 5).1 "A" "B").1.edges "A" =
      lookupK (Graph.edges ⟨[("A", (0, 0)), ("B", (0, 0))],
        [("A", []), ("B", [])]⟩) "A" ∧
    lookupK (remove_edge (add_edge ⟨[("A", (0, 0)), ("B", (0, 0))],
        [("A", []), ("B", [])]⟩ "A" "B" 5).1 "A" "B").1.edges "B" =
      lookupK (Graph.edges ⟨[("A", (0, 0)), ("B", (0, 0))],
        [("A", []), ("B", [])]⟩) "B" :=
  add_remove_edge_roundtrip _ "A" "B" 5 rfl rfl (by decide) (by decide)
    rfl rfl

/-! ## Python values and coercions -/

/-- The JSON-compatible Python values stored in the attribute records
and accepted as rank-dictionary values. -/
inductive PyVal where
  | pyBool (b : Bool)
  | pyInt (n : ℤ)
  | pyFloat (q : ℚ)
  | pyStr (s : String)
  | pyNone
  deriving Repr, DecidableEq

/-- Python `int(s)` on a string: strip, optional sign, digits. -/
def parseIntStr (s : String) : Option ℤ :=
  match (pyStrip s).data with
  | '-' :: rest => (parseDigitsCs rest).map (fun n => -(n : ℤ))
  | '+' :: rest => (parseDigitsCs rest).map (fun n => (n : ℤ))
  | cs => (parseDigitsCs cs).map (fun n => (n : ℤ))

/-- Core of `parseFloatStr`: unsigned decimal forms
`digits`, `digits.digits`, `digits.`, `.digits`. -/
def parseUFloatCs (cs : List Char) : Option ℚ :=
  match pySplitAux '.' cs [] with
  | [a] => (parseDigitsCs a).map (fun n => (n : ℚ))
  | [a, b] =>
    if a = [] && b = [] then none
    else
      let ip : Option ℕ := if a = [] then some 0 else parseDigitsCs a
      let fp : Option (ℕ × ℕ) :=
        if b = [] then some (0, 0)
        else (parseDigitsCs b).map (fun n => (n, b.length))
      match ip, fp with
      | some i, some (f, d) => some (ratAdd (i : ℚ) (ratDiv (f : ℚ) (mkRat ((10:ℤ) ^ d) 1)))
      | _, _ => none
  | _ => none

/-- Python `float(s)` on a string, for the plain decimal forms
(exponent/inf/nan forms and digit-group underscores are not modelled;
no claim exercises them). -/
def parseFloatStr (s : String) : Option ℚ :=
  match (pyStrip s).data with
  | '-' :: rest => (parseUFloatCs rest).map (fun q => -q)
  | '+' :: rest => parseUFloatCs rest
  | cs => parseUFloatCs cs

/-- Truncation toward zero, as Python `int(float)`. -/
def truncRat (q : ℚ) : ℤ := if q < 0 then ratCeil q else ratFloor q

/-- Python `float(value)`: may raise (`none`) on `None` and
unparseable strings. -/
def pyFloatOf : PyVal → Option ℚ
  | .pyBool b => some (if b then 1 else 0)
  | .pyInt n => some (n : ℚ)
  | .pyFloat q => some q
  | .pyStr s => parseFloatStr s
  | .pyNone => none

/-- Python `int(value)`: truncates floats toward zero; may raise
(`none`) on `None` and non-integer strings. -/
def pyIntOf : PyVal → Option ℤ
  | .pyBool b => some (if b then 1 else 0)
  | .pyInt n => some n
  | .pyFloat q => some (truncRat q)
  | .pyStr s => parseIntStr s
  | .pyNone => none

/-! ## Eatery attributes (`backend.py`, EATERY ATTRIBUTES MANAGEMENT) -/

/-- The attribute store of `eateries.json`: eatery id ↦ attribute dict. -/
abbrev Attrs := List (NodeId × List (String × PyVal))

/-- Boolean verdict of `validate_attributes` (shape checks are
subsumed by the embedding types). -/
def validate_attributes (attributes : Attrs) : Bool :=
  attributes.all (fun p =>
    (match lookupK p.2 "rating" with
     | none => true
     | some v =>
       match pyFloatOf v with
       | none => false
       | some r => decide (0 ≤ r) && decide (r ≤ 5)) &&
    (match lookupK p.2 "price" with
     | none => true
     | some v =>
       match pyIntOf v with
       | none => false
       | some n => decide (0 ≤ n)))

/-- The amenity-flag coercion in `update_eatery`: `bool` and `int` by
zero test, recognized truthy strings, everything else `0`.  (In
Python, `bool` is checked before `int`; floats fall to the default.) -/
def amenityCoerce : PyVal → ℤ
  | .pyBool b => if b then 1 else 0
  | .pyInt n => if n ≠ 0 then 1 else 0
  | .pyStr s => if pyLower s ∈ ["true", "yes", "1", "y", "t"] then 1 else 0
  | _ => 0

/-- `attributes[eatery_id][key] = value`. -/
def setField (attributes : Attrs) (eatery_id key : String) (v : PyVal) :
    Attrs :=
  upsert attributes eatery_id (upsert ((lookupK attributes eatery_id).getD []) key v)

/-- The field-merging loop of `update_eatery`; an invalid field aborts
with an error message, leaving the fields already processed merged. -/
def updateFields (attributes : Attrs) (eatery_id : String) :
    List (String × PyVal) → Attrs × String
  | [] => (attributes, "Eatery " ++ eatery_id ++ " updated successfully")
  | (key, value) :: rest =>
    if key = "rating" then
      match pyFloatOf value with
      | none => (attributes, "Invalid rating value")
      | some r =>
        if ¬ (0 ≤ r ∧ r ≤ 5) then (attributes, "Rating must be between 0-5")
        else updateFields (setField attributes eatery_id key (.pyFloat r)) eatery_id rest
    else if key = "price" then
      match pyIntOf value with
      | none => (attributes, "Invalid price level")
      | some n =>
        if n < 0 then (attributes, "Price level must be non-negative")
        else updateFields (setField attributes eatery_id key (.pyInt n)) eatery_id rest
    else if key ∈ ["power_outlet", "halal_certified", "wifi", "aircon"] then
      updateFields (setField attributes eatery_id key (.pyInt (amenityCoerce value)))
        eatery_id rest
    else updateFields (setField attributes eatery_id key value) eatery_id rest

/-- `update_eatery(attributes, eatery_id, new_attrs)`. -/
def update_eatery (attributes : Attrs) (eatery_id : String)
    (new_attrs : List (String × PyVal)) : Attrs × String :=
  let base :=
    if (lookupK attributes eatery_id).isSome then attributes
    else upsert attributes eatery_id []
  updateFields base eatery_id new_attrs

/-- `remove_eatery(attributes, eatery_id)`. -/
def remove_eatery (attributes : Attrs) (eatery_id : String) :
    Attrs × String :=
  if (lookupK attributes eatery_id).isSome then
    (eraseKey attributes eatery_id,
     "Eatery " ++ eatery_id ++ " removed successfully")
  else (attributes, "Eatery " ++ eatery_id ++ " does not exist")

/-! ## Open-hours evaluation (`is_open`) -/

/-- `datetime.strptime(t, "%H:%M").time()` on a stripped string,
returned as seconds since midnight: one or two digit hour `0..23`,
colon, one or two digit minute `0..59`, nothing else. -/
def parseHM (s : String) : Option ℕ :=
  match pySplitAux ':' (pyStrip s).data [] with
  | [hs, ms] =>
    if 1 ≤ hs.length && hs.length ≤ 2 &&
       1 ≤ ms.length && ms.length ≤ 2 then
      match parseDigitsCs hs, parseDigitsCs ms with
      | some h, some m =>
        if h ≤ 23 && m ≤ 59 then some (h * 3600 + m * 60) else none
      | _, _ => none
    else none
  | _ => none

/-- The `"HH:MM-HH:MM"` window parser inside `is_open`: split on `-`
into exactly two parts, parse each with `strptime("%H:%M")`.
`none` models any `ValueError`/format failure (which `is_open`
converts to "open"). -/
def parseWindow (s : String) : Option (ℕ × ℕ) :=
  match pySplit s '-' with
  | [a, b] =>
    match parseHM a, parseHM b with
    | some o, some c => some (o, c)
    | _, _ => none
  | _ => none

/-- `is_open(hours_str)` on a string spec, with the current wall-clock
time passed explicitly as seconds since midnight (sub-second precision
of `datetime.now().time()` is dropped; no comparison can distinguish
it at second granularity of the parsed bounds). -/
def is_open_str (hours_str : String) (now : ℕ) : Bool :=
  if hours_str = "" then true
  else if pyLower (pyStrip hours_str) = "24/7" then true
  else
    match parseWindow hours_str with
    | none => true
    | some (o, c) =>
      if c < o then decide (now ≥ o) || decide (now ≤ c)
      else decide (o ≤ now) && decide (now ≤ c)

/-- `is_open` on an arbitrary Python value: any non-string (and the
empty string) is "open". -/
def is_open (v : PyVal) (now : ℕ) : Bool :=
  match v with
  | .pyStr s => is_open_str s now
  | _ => true

/-! ## Preference handling and scoring -/

def KNOWN_FACTORS : List String :=
  ["rating", "price", "distance", "power_outlet", "halal_certified",
   "wifi", "aircon"]

/-- `DEFAULT_WEIGHTS` (the unnormalized dict divided by its total
`1.10`), as exact rationals. -/
def DEFAULT_WEIGHTS : List (String × ℚ) :=
  [("rating", mkRat 2 11), ("price", mkRat 2 11), ("distance", mkRat 2 11),
   ("power_outlet", mkRat 3 22), ("halal_certified", mkRat 3 22),
   ("wifi", mkRat 1 11), ("aircon", mkRat 1 11)]

/-- The `valid_ranks` filter of `convert_ranks_to_weights`: keep known
factors whose value survives `int()` with a positive result. -/
def validRanks (rank_dict : List (String × PyVal)) : List (String × ℤ) :=
  rank_dict.filterMap (fun p =>
    if p.1 ∈ KNOWN_FACTORS then
      match pyIntOf p.2 with
      | some r => if 0 < r then some (p.1, r) else none
      | none => none
    else none)

/-- Round-half-to-even at integer precision (the rounding rule of
Python's `round`, on exact rationals). -/
def roundHalfEven (q : ℚ) : ℤ :=
  if ratSub q (ratFloor q : ℚ) < mkRat 1 2 then ratFloor q
  else if mkRat 1 2 < ratSub q (ratFloor q : ℚ) then ratFloor q + 1
  else if Even (ratFloor q) then ratFloor q else ratFloor q + 1

/-- Python `round(q, 4)` on exact rationals. -/
def pyRound4 (q : ℚ) : ℚ := ratDiv ((roundHalfEven (ratMul q 10000) : ℤ) : ℚ) 10000

/-- `convert_ranks_to_weights(rank_dict)`. -/
def convert_ranks_to_weights (rank_dict : List (String × PyVal)) :
    List (String × ℚ) :=
  if rank_dict = [] then DEFAULT_WEIGHTS
  else
    let valid := validRanks rank_dict
    match valid with
    | [] => DEFAULT_WEIGHTS
    | v0 :: vrest =>
      let maxRank : ℤ := (vrest.map Prod.snd).foldl max v0.2
      let inverse := (v0 :: vrest).map (fun p => (p.1, maxRank - p.2 + 1))
      let total : ℤ := (inverse.map Prod.snd).sum
      inverse.map (fun p => (p.1, pyRound4 (ratDiv (p.2 : ℚ) (total : ℚ))))

/-- `normalize_value(value, min_val, max_val, invert)`. -/
def normalize_value (value min_val max_val : ℚ) (invert : Bool) : ℚ :=
  if max_val ≤ min_val then mkRat 1 2
  else
    let clamped := max min_val (min value max_val)
    let normalized := ratDiv (ratSub clamped min_val) (ratSub max_val min_val)
    if invert then ratSub 1 normalized else normalized

/-! ## Rounding lemmas for `pyRound4` -/

theorem roundHalfEven_ge_floor (y : ℚ) : ⌊y⌋ ≤ roundHalfEven y := by
  unfold roundHalfEven
  simp only [ratSub_eq, ratFloor_eq, mkRat_half]
  split
  · exact le_refl _
  · split
    · exact Int.le.intro 1 rfl
    · split
      · exact le_refl _
      · exact Int.le.intro 1 rfl

theorem roundHalfEven_le_floor_add_one (y : ℚ) :
    roundHalfEven y ≤ ⌊y⌋ + 1 := by
  unfold roundHalfEven
  simp only [ratSub_eq, ratFloor_eq, mkRat_half]
  split
  · exact Int.le.intro 1 rfl
  · split
    · exact le_refl _
    · split
      · exact Int.le.intro 1 rfl
      · exact le_refl _

theorem roundHalfEven_sub_le (y : ℚ) :
    |((roundHalfEven y : ℤ) : ℚ) - y| ≤ 1/2 := by
  have hfl : (⌊y⌋ : ℚ) ≤ y := Int.floor_le y
  have hfu : y < (⌊y⌋ : ℚ) + 1 := Int.lt_floor_add_one y
  unfold roundHalfEven
  simp only [ratSub_eq, ratFloor_eq, mkRat_half]
  split
  · rw [abs_le]
    constructor <;> [linarith; linarith]
  · rename_i h1
    push_neg at h1
    split
    · rename_i h2
      rw [abs_le]
      push_cast
      constructor <;> [linarith; linarith]
    · rename_i h2
      push_neg at h2
      have heq : y - (⌊y⌋ : ℚ) = 1/2 := le_antisymm h2 h1
      split
      · rw [abs_le]
        constructor <;> [linarith; linarith]
      · rw [abs_le]
        push_cast
        constructor <;> [linarith; linarith]

theorem roundHalfEven_mono {x y : ℚ} (hxy : x ≤ y) :
    roundHalfEven x ≤ roundHalfEven y := by
  have hf : ⌊x⌋ ≤ ⌊y⌋ := Int.floor_le_floor hxy
  rcases lt_or_eq_of_le hf with hlt | heq
  · calc roundHalfEven x ≤ ⌊x⌋ + 1 := roundHalfEven_le_floor_add_one x
      _ ≤ ⌊y⌋ := hlt
      _ ≤ roundHalfEven y := roundHalfEven_ge_floor y
  · unfold roundHalfEven
    simp only [ratSub_eq, ratFloor_eq, mkRat_half]
    rw [← heq]
    have hry : x - (⌊x⌋ : ℚ) ≤ y - (⌊x⌋ : ℚ) := by linarith
    have hrhs_ge : ∀ z : ℚ, (⌊x⌋ : ℤ) ≤
        (if z < 1/2 then ⌊x⌋ else if 1/2 < z then ⌊x⌋ + 1
         else if Even ⌊x⌋ then ⌊x⌋ else ⌊x⌋ + 1) := by
      intro z
      split
      · exact le_refl _
      · split
        · exact Int.le.intro 1 rfl
        · split
          · exact le_refl _
          · exact Int.le.intro 1 rfl
    by_cases hx1 : x - (⌊x⌋ : ℚ) < 1/2
    · rw [if_pos hx1]
      exact hrhs_ge _
    · push_neg at hx1
      rw [if_neg (not_lt.mpr hx1)]
      by_cases hx2 : 1/2 < x - (⌊x⌋ : ℚ)
      · rw [if_pos hx2]
        have hy2 : 1/2 < y - (⌊x⌋ : ℚ) := lt_of_lt_of_le hx2 hry
        rw [if_neg (not_lt.mpr hy2.le), if_pos hy2]
      · push_neg at hx2
        rw [if_neg (not_lt.mpr hx2)]
        have hy1 : ¬ (y - (⌊x⌋ : ℚ) < 1/2) :=
          not_lt.mpr (le_trans hx1 hry)
        rw [if_neg hy1]
        by_cases hy2 : 1/2 < y - (⌊x⌋ : ℚ)
        · rw [if_pos hy2]
          split
          · exact Int.le.intro 1 rfl
          · exact le_refl _
        · rw [if_neg hy2]

theorem pyRound4_sub_le (q : ℚ) : |pyRound4 q - q| ≤ 1/20000 := by
  unfold pyRound4
  rw [ratDiv_eq, ratMul_eq]
  have h := roundHalfEven_sub_le (q * 10000)
  have h4 : (0:ℚ) < 10000 := by norm_num
  have hsplit : ((roundHalfEven (q * 10000) : ℤ) : ℚ) / 10000 - q =
      (((roundHalfEven (q * 10000) : ℤ) : ℚ) - q * 10000) / 10000 := by
    ring
  rw [hsplit, abs_div, abs_of_pos h4, div_le_iff₀ h4]
  calc |((roundHalfEven (q * 10000) : ℤ) : ℚ) - q * 10000| ≤ 1/2 := h
    _ = 1/20000 * 10000 := by norm_num

theorem pyRound4_mono {x y : ℚ} (hxy : x ≤ y) : pyRound4 x ≤ pyRound4 y := by
  unfold pyRound4
  rw [ratDiv_eq, ratDiv_eq, ratMul_eq, ratMul_eq]
  have := roundHalfEven_mono (mul_le_mul_of_nonneg_right hxy
    (by norm_num : (0:ℚ) ≤ 10000))
  have hc : ((roundHalfEven (x * 10000) : ℤ) : ℚ) ≤
      ((roundHalfEven (y * 10000) : ℤ) : ℚ) := by exact_mod_cast this
  exact div_le_div_of_nonneg_right hc (by norm_num) |>.trans (le_refl _)

theorem sum_map_div (l : List ℚ) (c : ℚ) :
    (l.map (fun x => x / c)).sum = l.sum / c := by
  induction l with
  | nil => simp
  | cons x xs ih => simp [ih, add_div]

theorem sum_round_close (l : List ℚ) :
    |(l.map pyRound4).sum - l.sum| ≤ (l.length : ℚ) * (1/20000) := by
  induction l with
  | nil => simp
  | cons x xs ih =>
    simp only [List.map_cons, List.sum_cons, List.length_cons]
    have htri : |pyRound4 x + (xs.map pyRound4).sum - (x + xs.sum)| ≤
        |pyRound4 x - x| + |(xs.map pyRound4).sum - xs.sum| := by
      have : pyRound4 x + (xs.map pyRound4).sum - (x + xs.sum) =
          (pyRound4 x - x) + ((xs.map pyRound4).sum - xs.sum) := by ring
      rw [this]
      exact abs_add _ _
    have hx := pyRound4_sub_le x
    push_cast
    linarith

theorem sum_map_intCast (l : List ℤ) :
    (l.map (fun n => ((n : ℤ) : ℚ))).sum = ((l.sum : ℤ) : ℚ) := by
  induction l with
  | nil => simp
  | cons x xs ih =>
    simp only [List.map_cons, List.sum_cons, ih]
    push_cast
    ring

/-! ## Claim C6: `convert_ranks_to_weights` -/

theorem validRanks_pos (rank_dict : List (String × PyVal)) :
    ∀ p ∈ validRanks rank_dict, 0 < p.2 := by
  intro p hp
  unfold validRanks at hp
  rcases List.mem_filterMap.mp hp with ⟨a, _, hfa⟩
  by_cases hk : a.1 ∈ KNOWN_FACTORS
  · rw [if_pos hk] at hfa
    cases hi : pyIntOf a.2 with
    | none => rw [hi] at hfa; simp at hfa
    | some r =>
      rw [hi] at hfa
      by_cases hr : 0 < r
      · simp only [if_pos hr, Option.some_inj] at hfa
        rw [← hfa]
        exact hr
      · simp [if_neg hr] at hfa
  · rw [if_neg hk] at hfa
    simp at hfa

theorem le_foldl_max (l : List ℤ) (init : ℤ) :
    init ≤ l.foldl max init ∧ ∀ x ∈ l, x ≤ l.foldl max init := by
  induction l generalizing init with
  | nil => simp
  | cons y ys ih =>
    simp only [List.foldl_cons, List.mem_cons]
    have h := ih (max init y)
    refine ⟨le_trans (le_max_left _ _) h.1, ?_⟩
    rintro x (rfl | hx)
    · exact le_trans (le_max_right _ _) h.1
    · exact h.2 x hx

theorem sum_ge_length_of_ge_one (l : List ℤ) (h : ∀ x ∈ l, 1 ≤ x) :
    (l.length : ℤ) ≤ l.sum := by
  induction l with
  | nil => simp
  | cons x xs ih =>
    simp only [List.length_cons, List.sum_cons]
    have hx := h x (List.mem_cons_self _ _)
    have := ih (fun y hy => h y (List.mem_cons_of_mem _ hy))
    push_cast
    linarith

/-- C6 counterexample: the claim says a non-integer rank such as `2.7`
is discarded, but `int(rank)` truncates it to `2` and keeps the
factor: the result still contains a `"rating"` weight (and is not the
pure-`"distance"` vector the claim would predict). -/
theorem convert_ranks_counterexample :
    convert_ranks_to_weights
        [("rating", .pyFloat (mkRat 27 10)), ("distance", .pyInt 1)] =
      [("rating", mkRat 3333 10000), ("distance", mkRat 6667 10000)] ∧
    lookupK (convert_ranks_to_weights
        [("rating", .pyFloat (mkRat 27 10)), ("distance", .pyInt 1)]) "rating" ≠
      none := by
  constructor
  · decide
  · decide

/-- C6 (amended): `convert_ranks_to_weights` discards unknown factor
names and entries whose value fails `int()` conversion or truncates to
a non-positive integer (non-integer numeric ranks are truncated toward
zero, not discarded); with no valid entry it returns the default
vector; otherwise it returns weights over exactly the valid factors
whose sum is within `n·5·10⁻⁵` of 1 (`n` = number of valid factors,
each weight being rounded to four decimals), and a factor ranked 1
receives the largest weight via `weight_raw = max_rank - rank + 1`. -/
theorem convert_ranks_amended (rank_dict : List (String × PyVal)) :
    (validRanks rank_dict = [] →
      convert_ranks_to_weights rank_dict = DEFAULT_WEIGHTS) ∧
    (validRanks rank_dict ≠ [] →
      (convert_ranks_to_weights rank_dict).map Prod.fst =
        (validRanks rank_dict).map Prod.fst ∧
      |((convert_ranks_to_weights rank_dict).map Prod.snd).sum - 1| ≤
        ((validRanks rank_dict).length : ℚ) / 20000 ∧
      ∃ wmax : ℚ, (∀ q ∈ convert_ranks_to_weights rank_dict, q.2 ≤ wmax) ∧
        ∀ p ∈ validRanks rank_dict, p.2 = 1 →
          (p.1, wmax) ∈ convert_ranks_to_weights rank_dict) := by
  constructor
  · intro hempty
    unfold convert_ranks_to_weights
    by_cases hrd : rank_dict = []
    · rw [if_pos hrd]
    · rw [if_neg hrd, hempty]
  · intro hne
    have hrd : rank_dict ≠ [] := by
      intro h
      exact hne (by rw [h]; rfl)
    obtain ⟨v0, vrest, hvalid⟩ : ∃ v0 vrest, validRanks rank_dict = v0 :: vrest := by
      cases hv : validRanks rank_dict with
      | nil => exact absurd hv hne
      | cons a l => exact ⟨a, l, rfl⟩
    have hres : convert_ranks_to_weights rank_dict =
        ((v0 :: vrest).map
          (fun p => (p.1, ((vrest.map Prod.snd).foldl max v0.2) - p.2 + 1))).map
          (fun p => (p.1, pyRound4 (ratDiv (p.2 : ℚ)
            (((((v0 :: vrest).map
              (fun p => (p.1, ((vrest.map Prod.snd).foldl max v0.2) - p.2 + 1))).map
                Prod.snd).sum : ℤ) : ℚ)))) := by
      unfold convert_ranks_to_weights
      rw [if_neg hrd, hvalid]
    simp only [ratDiv_eq] at hres
    set maxRank : ℤ := (vrest.map Prod.snd).foldl max v0.2 with hmaxdef
    set inverse := (v0 :: vrest).map (fun p => (p.1, maxRank - p.2 + 1))
      with hinvdef
    set T : ℤ := (inverse.map Prod.snd).sum with hTdef
    -- every valid rank is ≤ maxRank, so every inverse rank is ≥ 1
    have hmax : ∀ p ∈ validRanks rank_dict, p.2 ≤ maxRank := by
      intro p hp
      rw [hvalid] at hp
      rcases List.mem_cons.mp hp with h1 | h2
      · rw [h1]
        exact (le_foldl_max (vrest.map Prod.snd) v0.2).1
      · exact (le_foldl_max (vrest.map Prod.snd) v0.2).2 _
          (List.mem_map_of_mem Prod.snd h2)
    have hinv_ge : ∀ x ∈ inverse.map Prod.snd, 1 ≤ x := by
      intro x hx
      rw [hinvdef] at hx
      rw [List.map_map] at hx
      rcases List.mem_map.mp hx with ⟨p, hp, hpx⟩
      have := hmax p (hvalid ▸ hp)
      simp only [Function.comp_apply] at hpx
      omega
    have hlenT : ((inverse.map Prod.snd).length : ℤ) ≤ T :=
      sum_ge_length_of_ge_one _ hinv_ge
    have hlen_pos : 0 < (inverse.map Prod.snd).length := by
      rw [hinvdef]
      simp
    have hT_pos : 0 < T := lt_of_lt_of_le (by exact_mod_cast hlen_pos) hlenT
    have hTQ_pos : (0:ℚ) < (T : ℤ) := by exact_mod_cast hT_pos
    clear_value T
    clear_value inverse
    clear_value maxRank
    refine ⟨?_, ?_, ?_⟩
    · rw [hres, List.map_map, hinvdef, List.map_map, hvalid]
      rfl
    · rw [hres]
      have hweights : ((inverse.map
          (fun p => (p.1, pyRound4 ((p.2 : ℚ) / (T : ℚ))))).map Prod.snd) =
          (inverse.map (fun p => ((p.2 : ℚ) / (T : ℚ)))).map pyRound4 := by
        rw [List.map_map, List.map_map]
        rfl
      have hexact : (inverse.map (fun p => ((p.2 : ℚ) / (T : ℚ)))).sum = 1 := by
        have hcomp : inverse.map (fun p => ((p.2 : ℚ) / (T : ℚ))) =
            ((inverse.map Prod.snd).map (fun n => ((n : ℤ) : ℚ))).map
              (fun x => x / (T : ℚ)) := by
          rw [List.map_map, List.map_map]
          rfl
        rw [hcomp, sum_map_div]
        rw [sum_map_intCast, ← hTdef]
        exact div_self (ne_of_gt hTQ_pos)
      have hlen2 : (inverse.map (fun p => ((p.2 : ℚ) / (T : ℚ)))).length =
          (validRanks rank_dict).length := by
        rw [hvalid, hinvdef]
        simp
      have hsrc := sum_round_close (inverse.map (fun p => ((p.2 : ℚ) / (T : ℚ))))
      rw [hexact, hlen2] at hsrc
      calc |((inverse.map
            (fun p => (p.1, pyRound4 ((p.2 : ℚ) / (T : ℚ))))).map Prod.snd).sum - 1|
          = |((inverse.map (fun p => ((p.2 : ℚ) / (T : ℚ)))).map pyRound4).sum - 1| := by
            rw [hweights]
        _ ≤ ((validRanks rank_dict).length : ℚ) * (1/20000) := hsrc
        _ = ((validRanks rank_dict).length : ℚ) / 20000 := by ring
    · refine ⟨pyRound4 ((maxRank : ℚ) / (T : ℚ)), ?_, ?_⟩
      · intro q hq
        rw [hres] at hq
        rcases List.mem_map.mp hq with ⟨p, hp, hpq⟩
        have hpinv : p ∈ inverse := hp
        rw [hinvdef] at hpinv
        rcases List.mem_map.mp hpinv with ⟨r, hr, hrp⟩
        have hr2 : r.2 ≤ maxRank := hmax r (hvalid ▸ hr)
        have hr1 : 0 < r.2 := validRanks_pos rank_dict r (hvalid ▸ hr)
        have hz : p.2 = maxRank - r.2 + 1 := by rw [← hrp]
        have hzle : p.2 ≤ maxRank := by omega
        have hple : (p.2 : ℚ) ≤ (maxRank : ℚ) := by exact_mod_cast hzle
        have hq2 : q.2 = pyRound4 ((p.2 : ℚ) / (T : ℚ)) := by rw [← hpq]
        rw [hq2]
        exact pyRound4_mono (div_le_div_of_nonneg_right hple hTQ_pos.le)
      · intro p hp hp1
        rw [hres]
        have hmem1 : (p.1, maxRank - p.2 + 1) ∈ inverse := by
          rw [hinvdef]
          exact List.mem_map_of_mem _ (hvalid ▸ hp)
        have heq1 : maxRank - p.2 + 1 = maxRank := by omega
        rw [heq1] at hmem1
        exact List.mem_map_of_mem _ hmem1

/-- C6 witness (for the amended theorem): ranks
`{distance: 1, rating: 2}` give weights over exactly those two
factors, summing to `1` within `2·5·10⁻⁵`. -/
theorem convert_ranks_amended_witness :
    (convert_ranks_to_weights [("distance", .pyInt 1), ("rating", .pyInt 2)]).map
        Prod.fst = ["distance", "rating"] ∧
    |((convert_ranks_to_weights
        [("distance", .pyInt 1), ("rating", .pyInt 2)]).map Prod.snd).sum - 1| ≤
      ((validRanks [("distance", .pyInt 1), ("rating", .pyInt 2)]).length : ℚ) / 20000 := by
  have h := (convert_ranks_amended
    [("distance", .pyInt 1), ("rating", .pyInt 2)]).2 (by decide)
  exact ⟨h.1, h.2.1⟩

/-! ## Claim C7: `normalize_value` stays in the unit interval -/

/-- C7: for every value, bound pair and invert flag, `normalize_value`
returns a result in `[0, 1]`, and whenever `max_val <= min_val` it
returns exactly `0.5` regardless of the value. -/
theorem normalize_value_unit_interval (value min_val max_val : ℚ)
    (invert : Bool) :
    0 ≤ normalize_value value min_val max_val invert ∧
    normalize_value value min_val max_val invert ≤ 1 ∧
    (max_val ≤ min_val → normalize_value value min_val max_val invert = 1/2) := by
  unfold normalize_value
  simp only [ratDiv_eq, ratSub_eq, mkRat_half]
  by_cases hdeg : max_val ≤ min_val
  · simp only [if_pos hdeg]
    norm_num
  · simp only [if_neg hdeg]
    push_neg at hdeg
    have hden : 0 < max_val - min_val := by linarith
    set clamped := max min_val (min value max_val) with hc
    have hlo : min_val ≤ clamped := le_max_left _ _
    have hhi : clamped ≤ max_val := by
      apply max_le (le_of_lt hdeg)
      exact min_le_right _ _
    have h0 : 0 ≤ (clamped - min_val) / (max_val - min_val) :=
      div_nonneg (by linarith) (le_of_lt hden)
    have h1 : (clamped - min_val) / (max_val - min_val) ≤ 1 := by
      rw [div_le_one hden]
      linarith
    cases invert <;> simp only [if_true, if_false, Bool.false_eq_true] <;>
      exact ⟨by linarith, by linarith, fun h => absurd h (not_le.mpr hdeg)⟩

/-- C7 witness: the degenerate bounds give exactly `1/2`. -/
theorem normalize_value_unit_interval_witness :
    normalize_value 3 7 7 false = 1/2 :=
  (normalize_value_unit_interval 3 7 7 false).2.2 (le_refl 7)

/-! ## Claim C8: `is_open` case analysis -/

/-- C8: `is_open` is open for an empty or non-string spec, for a spec
whose stripped lowercase form is `"24/7"`, and for any spec that fails
to parse as `"HH:MM-HH:MM"`; when the spec parses and `close < open`
it is open exactly when `now >= open` or `now <= close` (the overnight
wrap), and otherwise exactly when `open <= now <= close`. -/
theorem is_open_case_analysis (now : ℕ) :
    (∀ v : PyVal, (∀ s, v ≠ .pyStr s) → is_open v now = true) ∧
    (is_open (.pyStr "") now = true) ∧
    (∀ s, pyLower (pyStrip s) = "24/7" → is_open (.pyStr s) now = true) ∧
    (∀ s, parseWindow s = none → is_open (.pyStr s) now = true) ∧
    (∀ s o c, s ≠ "" → pyLower (pyStrip s) ≠ "24/7" →
      parseWindow s = some (o, c) → c < o →
      is_open (.pyStr s) now = (decide (now ≥ o) || decide (now ≤ c))) ∧
    (∀ s o c, s ≠ "" → pyLower (pyStrip s) ≠ "24/7" →
      parseWindow s = some (o, c) → ¬ c < o →
      is_open (.pyStr s) now = (decide (o ≤ now) && decide (now ≤ c))) := by
  refine ⟨?_, ?_, ?_, ?_, ?_, ?_⟩
  · intro v hv
    cases v with
    | pyStr s => exact absurd rfl (hv s)
    | pyBool b => rfl
    | pyInt n => rfl
    | pyFloat q => rfl
    | pyNone => rfl
  · rfl
  · intro s h247
    show is_open_str s now = true
    unfold is_open_str
    by_cases hs : s = ""
    · rw [if_pos hs]
    · rw [if_neg hs, if_pos h247]
  · intro s hpw
    show is_open_str s now = true
    unfold is_open_str
    by_cases hs : s = ""
    · rw [if_pos hs]
    · rw [if_neg hs]
      by_cases h247 : pyLower (pyStrip s) = "24/7"
      · rw [if_pos h247]
      · rw [if_neg h247, hpw]
  · intro s o c hs h247 hpw hco
    show is_open_str s now = _
    unfold is_open_str
    rw [if_neg hs, if_neg h247, hpw]
    simp only [if_pos hco]
  · intro s o c hs h247 hpw hco
    show is_open_str s now = _
    unfold is_open_str
    rw [if_neg hs, if_neg h247, hpw]
    simp only [if_neg hco]

/-- C8 witness: `"22:00-02:00"` evaluated at 01:00 (3600 seconds past
midnight) is open via the overnight-wrap branch. -/
theorem is_open_case_analysis_witness :
    parseWindow "22:00-02:00" = some (79200, 7200) ∧ (7200 : ℕ) < 79200 ∧
    is_open (.pyStr "22:00-02:00") 3600 = true := by
  refine ⟨by decide, by decide, ?_⟩
  have h := (is_open_case_analysis 3600).2.2.2.2.1 "22:00-02:00" 79200 7200
    (by decide) (by decide) (by decide) (by decide)
  rw [h]
  decide

/-! ## Claim C9: failed mutations leave the graph unchanged -/

/-- C9: `add_node` with an out-of-range coordinate fails with the
range-validation message and returns the graph as it was, and
`remove_edge` with a missing endpoint fails with the not-found message
and returns the graph as it was. -/
theorem failed_mutations_unchanged :
    (∀ (g : Graph) (id : String) (lat lng : ℚ), pyStrip id ≠ "" →
      ¬ (-90 ≤ lat ∧ lat ≤ 90 ∧ -180 ≤ lng ∧ lng ≤ 180) →
      add_node g id lat lng = (g, "Invalid coordinates range")) ∧
    (∀ (g : Graph) (a b : String), ¬ (g.hasNode a ∧ g.hasNode b) →
      remove_edge g a b = (g, "One or both nodes don't exist")) := by
  constructor
  · intro g id lat lng hid hrange
    unfold add_node
    rw [if_neg hid, if_pos hrange]
  · intro g a b hab
    unfold remove_edge
    rw [if_pos hab]

/-- C9 witness: latitude 91 is rejected and removing an edge to the
absent node `"Z"` is rejected, both leaving the concrete graph
unchanged. -/
theorem failed_mutations_unchanged_witness :
    add_node ⟨[("A", (0, 0)), ("B", (0, 0))],
        [("A", [("B", 2)]), ("B", [("A", 2)])]⟩ "C" 91 0 =
      (⟨[("A", (0, 0)), ("B", (0, 0))],
        [("A", [("B", 2)]), ("B", [("A", 2)])]⟩, "Invalid coordinates range") ∧
    remove_edge ⟨[("A", (0, 0)), ("B", (0, 0))],
        [("A", [("B", 2)]), ("B", [("A", 2)])]⟩ "A" "Z" =
      (⟨[("A", (0, 0)), ("B", (0, 0))],
        [("A", [("B", 2)]), ("B", [("A", 2)])]⟩, "One or both nodes don't exist") :=
  ⟨failed_mutations_unchanged.1 _ "C" 91 0 (by decide) (by decide),
   failed_mutations_unchanged.2 _ "A" "Z" (by decide)⟩

/-! ## Claim C10: `update_eatery` is not atomic on validation failure -/

/-- C10: updating the absent eatery `"E"` with a `name` field followed
by an out-of-range rating returns the rating error message, yet the
store now contains `"E"` with the `name` field already merged. -/
theorem update_eatery_not_atomic :
    lookupK ([] : Attrs) "E" = none ∧
    update_eatery [] "E" [("name", .pyStr "x"), ("rating", .pyFloat 9)] =
      ([("E", [("name", .pyStr "x")])], "Rating must be between 0-5") := by
  constructor
  · rfl
  · rfl

/-! ## Heap order: Python tuple comparison

`heapq` pops the least element under Python's total order on the pushed
tuples: floats compare numerically, lists of strings lexicographically,
strings by code points.  Since the path is part of every tuple, the
order is total on the pushed entries, so the heap is modelled as a list
from which the least entry is removed. -/

/-- Code-point comparison of characters, as a Bool. -/
def charLtB (a b : Char) : Bool := decide (a < b)

/-- Lexicographic strict comparison of lists, from a strict comparison
of elements (Python list comparison). -/
def lexLt {α : Type} [DecidableEq α] (lt : α → α → Bool) :
    List α → List α → Bool
  | _, [] => false
  | [], _ :: _ => true
  | a :: as, b :: bs =>
    if lt a b then true else if a = b then lexLt lt as bs else false

/-- A Bool-valued relation that is asymmetric, transitive and total on
distinct elements: the shape of every Python `<` used by the heaps. -/
def StrictOrdB {α : Type} (lt : α → α → Bool) : Prop :=
  (∀ a b, lt a b = true → lt b a = false) ∧
  (∀ a b c, lt a b = true → lt b c = true → lt a c = true) ∧
  (∀ a b, a ≠ b → lt a b = true ∨ lt b a = true)

theorem StrictOrdB.irrefl {α : Type} {lt : α → α → Bool}
    (h : StrictOrdB lt) (a : α) : lt a a = false := by
  cases hx : lt a a with
  | false => rfl
  | true =>
    have h2 := h.1 a a hx
    rw [hx] at h2
    exact h2

theorem StrictOrdB.negtrans {α : Type} {lt : α → α → Bool}
    (h : StrictOrdB lt) {a b c : α} (hab : lt a b = false)
    (hbc : lt b c = false) : lt a c = false := by
  cases hac : lt a c with
  | false => rfl
  | true =>
    exfalso
    by_cases hab2 : a = b
    · rw [hab2] at hac
      rw [hac] at hbc
      exact Bool.noConfusion hbc
    by_cases hbc2 : b = c
    · rw [← hbc2] at hac
      rw [hac] at hab
      exact Bool.noConfusion hab
    · have hba : lt b a = true := by
        rcases h.2.2 a b hab2 with hx | hx
        · rw [hx] at hab
          exact Bool.noConfusion hab
        · exact hx
      have hcb : lt c b = true := by
        rcases h.2.2 b c hbc2 with hx | hx
        · rw [hx] at hbc
          exact Bool.noConfusion hbc
        · exact hx
      have hca : lt c a = true := h.2.1 c b a hcb hba
      have := h.1 a c hac
      rw [this] at hca
      exact Bool.noConfusion hca

theorem charLtB_strict : StrictOrdB charLtB := by
  refine ⟨?_, ?_, ?_⟩
  · intro a b hab
    rw [charLtB, decide_eq_true_eq] at hab
    rw [charLtB, decide_eq_false_iff_not]
    exact lt_asymm hab
  · intro a b c hab hbc
    rw [charLtB, decide_eq_true_eq] at hab hbc
    rw [charLtB, decide_eq_true_eq]
    exact lt_trans hab hbc
  · intro a b hne
    rcases hne.lt_or_lt with hx | hx
    · exact Or.inl (by rw [charLtB, decide_eq_true_eq]; exact hx)
    · exact Or.inr (by rw [charLtB, decide_eq_true_eq]; exact hx)

theorem lexLt_strict {α : Type} [DecidableEq α] (lt : α → α → Bool)
    (h : StrictOrdB lt) : StrictOrdB (lexLt lt) := by
  refine ⟨?_, ?_, ?_⟩
  · intro x
    induction x with
    | nil =>
      intro y hxy
      cases y with
      | nil => exact absurd hxy (by rw [lexLt]; exact Bool.noConfusion)
      | cons b bs => rfl
    | cons a as ih =>
      intro y hxy
      cases y with
      | nil => exact absurd hxy (by rw [lexLt]; exact Bool.noConfusion)
      | cons b bs =>
        rw [lexLt] at hxy ⊢
        by_cases hab : lt a b = true
        · have hba := h.1 a b hab
          have hne : a ≠ b := by
            intro hx
            rw [hx] at hab
            rw [h.irrefl b] at hab
            exact Bool.noConfusion hab
          rw [hba, if_neg (Bool.noConfusion), if_neg (fun hx => hne hx.symm)]
        · rw [if_neg (fun hx => hab hx)] at hxy
          by_cases hab2 : a = b
          · rw [if_pos hab2] at hxy
            subst hab2
            rw [h.irrefl a, if_neg (Bool.noConfusion), if_pos rfl]
            exact ih bs hxy
          · rw [if_neg hab2] at hxy
            exact Bool.noConfusion hxy
  · intro x
    induction x with
    | nil =>
      intro y z hxy hyz
      cases y with
      | nil => exact absurd hxy (by rw [lexLt]; exact Bool.noConfusion)
      | cons b bs =>
        cases z with
        | nil => exact absurd hyz (by rw [lexLt]; exact Bool.noConfusion)
        | cons c cs => rw [lexLt]
    | cons a as ih =>
      intro y z hxy hyz
      cases y with
      | nil => exact absurd hxy (by rw [lexLt]; exact Bool.noConfusion)
      | cons b bs =>
        cases z with
        | nil => exact absurd hyz (by rw [lexLt]; exact Bool.noConfusion)
        | cons c cs =>
          rw [lexLt] at hxy hyz ⊢
          by_cases hab : lt a b = true
          · by_cases hbc : lt b c = true
            · rw [if_pos (h.2.1 a b c hab hbc)]
            · rw [if_neg (fun hx => hbc hx)] at hyz
              by_cases hbc2 : b = c
              · rw [← hbc2, if_pos hab]
              · rw [if_neg hbc2] at hyz
                exact Bool.noConfusion hyz
          · rw [if_neg (fun hx => hab hx)] at hxy
            by_cases hab2 : a = b
            · rw [if_pos hab2] at hxy
              subst hab2
              by_cases hac : lt a c = true
              · rw [if_pos hac]
              · rw [if_neg (fun hx => hac hx)] at hyz ⊢
                by_cases hac2 : a = c
                · rw [if_pos hac2] at hyz ⊢
                  exact ih bs cs hxy hyz
                · rw [if_neg hac2] at hyz
                  exact Bool.noConfusion hyz
            · rw [if_neg hab2] at hxy
              exact Bool.noConfusion hxy
  · intro x
    induction x with
    | nil =>
      intro y hne
      cases y with
      | nil => exact absurd rfl hne
      | cons b bs => exact Or.inl (by rw [lexLt])
    | cons a as ih =>
      intro y hne
      cases y with
      | nil => exact Or.inr (by rw [lexLt])
      | cons b bs =>
        by_cases hab2 : a = b
        · subst hab2
          have hne2 : as ≠ bs := by
            intro hx
            exact hne (by rw [hx])
          rcases ih bs hne2 with hx | hx
          · exact Or.inl (by rw [lexLt, h.irrefl a,
              if_neg (Bool.noConfusion), if_pos rfl]; exact hx)
          · exact Or.inr (by rw [lexLt, h.irrefl a,
              if_neg (Bool.noConfusion), if_pos rfl]; exact hx)
        · rcases h.2.2 a b hab2 with hx | hx
          · exact Or.inl (by rw [lexLt, hx, if_pos rfl])
          · exact Or.inr (by rw [lexLt, hx, if_pos rfl])

/-- Python `str` comparison (code-point lexicographic), as a Bool.
Defined structurally on the character list so that it computes in the
kernel. -/
def strLtB (s t : String) : Bool := lexLt charLtB s.data t.data

theorem strLtB_strict : StrictOrdB strLtB := by
  have h := lexLt_strict charLtB charLtB_strict
  refine ⟨?_, ?_, ?_⟩
  · intro a b hab
    exact h.1 a.data b.data hab
  · intro a b c hab hbc
    exact h.2.1 a.data b.data c.data hab hbc
  · intro a b hne
    refine h.2.2 a.data b.data ?_
    intro hd
    exact hne (String.ext hd)

/-- Python comparison of `list[str]` values (the `path` component). -/
def listStrLt : List String → List String → Bool := lexLt strLtB

theorem listStrLt_strict : StrictOrdB listStrLt :=
  lexLt_strict strLtB strLtB_strict

/-- Python tuple comparison `(float, rest)`: numeric on the first
component, tie broken by the rest. -/
def pairLtQ {β : Type} (ltB : β → β → Bool) (a b : ℚ × β) : Bool :=
  if a.1 < b.1 then true else if b.1 < a.1 then false else ltB a.2 b.2

theorem pairLtQ_strict {β : Type} (ltB : β → β → Bool)
    (h : StrictOrdB ltB) : StrictOrdB (pairLtQ ltB) := by
  refine ⟨?_, ?_, ?_⟩
  · intro a b hab
    rw [pairLtQ] at hab ⊢
    by_cases h1 : a.1 < b.1
    · rw [if_neg (asymm h1), if_pos h1]
    · rw [if_neg h1] at hab
      by_cases h2 : b.1 < a.1
      · rw [if_pos h2] at hab
        exact Bool.noConfusion hab
      · rw [if_neg h2] at hab
        rw [if_neg h2, if_neg h1]
        exact h.1 _ _ hab
  · intro a b c hab hbc
    rw [pairLtQ] at hab hbc ⊢
    by_cases h1 : a.1 < b.1
    · by_cases h2 : b.1 < c.1
      · rw [if_pos (lt_trans h1 h2)]
      · rw [if_neg h2] at hbc
        by_cases h3 : c.1 < b.1
        · rw [if_pos h3] at hbc
          exact Bool.noConfusion hbc
        · have : a.1 < c.1 := lt_of_lt_of_le h1 (le_of_not_lt h3)
          rw [if_pos this]
    · rw [if_neg h1] at hab
      by_cases h2 : b.1 < a.1
      · rw [if_pos h2] at hab
        exact Bool.noConfusion hab
      · rw [if_neg h2] at hab
        have hcongr : a.1 = b.1 := le_antisymm (le_of_not_lt h2) (le_of_not_lt h1)
        by_cases h3 : b.1 < c.1
        · rw [hcongr, if_pos h3]
        · rw [if_neg h3] at hbc
          by_cases h4 : c.1 < b.1
          · rw [if_pos h4] at hbc
            exact Bool.noConfusion hbc
          · rw [if_neg h4] at hbc
            rw [hcongr, if_neg h3, if_neg h4]
            exact h.2.1 _ _ _ hab hbc
  · intro a b hne
    by_cases h1 : a.1 < b.1
    · exact Or.inl (by rw [pairLtQ, if_pos h1])
    by_cases h2 : b.1 < a.1
    · exact Or.inr (by rw [pairLtQ, if_pos h2])
    have hq : a.1 = b.1 := le_antisymm (le_of_not_lt h2) (le_of_not_lt h1)
    have hsnd : a.2 ≠ b.2 := by
      intro hx
      exact hne (Prod.ext hq hx)
    rcases h.2.2 a.2 b.2 hsnd with hx | hx
    · exact Or.inl (by rw [pairLtQ, if_neg h1, if_neg h2]; exact hx)
    · exact Or.inr (by rw [pairLtQ, if_neg h2, if_neg h1]; exact hx)

/-- Order of the UCS heap entries `(cost, path)`. -/
def ucsLt : (ℚ × List String) → (ℚ × List String) → Bool :=
  pairLtQ listStrLt

theorem ucsLt_strict : StrictOrdB ucsLt :=
  pairLtQ_strict listStrLt listStrLt_strict

/-- Order of the A* heap entries `(f_score, g_cost, path)`. -/
def astarLt : (ℚ × ℚ × List String) → (ℚ × ℚ × List String) → Bool :=
  pairLtQ ucsLt

theorem astarLt_strict : StrictOrdB astarLt :=
  pairLtQ_strict ucsLt ucsLt_strict

theorem pairLtQ_fst_le {β : Type} {ltB : β → β → Bool} {y m : ℚ × β}
    (h : pairLtQ ltB y m = false) : m.1 ≤ y.1 := by
  rw [pairLtQ] at h
  by_cases h1 : y.1 < m.1
  · rw [if_pos h1] at h
    exact Bool.noConfusion h
  · exact le_of_not_lt h1

/-- `heapq.heappop`: remove the least element (leftmost among equals,
which are fully identical tuples) and return it with the remainder. -/
def popMinBy {α : Type} (lt : α → α → Bool) : List α → Option (α × List α)
  | [] => none
  | x :: xs =>
    match popMinBy lt xs with
    | none => some (x, [])
    | some (m, rest) => if lt m x then some (m, x :: rest) else some (x, xs)

theorem popMinBy_eq_none {α : Type} {lt : α → α → Bool} :
    ∀ {l : List α}, popMinBy lt l = none → l = [] := by
  intro l h
  cases l with
  | nil => rfl
  | cons x xs =>
    rw [popMinBy] at h
    split at h
    · exact Option.noConfusion h
    · split at h
      · exact Option.noConfusion h
      · exact Option.noConfusion h

theorem popMinBy_perm {α : Type} {lt : α → α → Bool} :
    ∀ {l : List α} {m : α} {rest : List α},
      popMinBy lt l = some (m, rest) → l.Perm (m :: rest) := by
  intro l
  induction l with
  | nil =>
    intro m rest h
    exact Option.noConfusion h
  | cons x xs ih =>
    intro m rest h
    rw [popMinBy] at h
    split at h
    case h_1 heq =>
      rw [Option.some.injEq, Prod.mk.injEq] at h
      obtain ⟨h1, h2⟩ := h
      have hxs := popMinBy_eq_none heq
      subst hxs
      rw [← h1, ← h2]
    case h_2 m' rest' heq =>
      have hperm := ih heq
      split at h
      · rw [Option.some.injEq, Prod.mk.injEq] at h
        obtain ⟨h1, h2⟩ := h
        rw [← h1, ← h2]
        exact List.Perm.trans (hperm.cons x) (List.Perm.swap _ _ _)
      · rw [Option.some.injEq, Prod.mk.injEq] at h
        obtain ⟨h1, h2⟩ := h
        rw [← h1, ← h2]

theorem popMinBy_min {α : Type} {lt : α → α → Bool} (hord : StrictOrdB lt) :
    ∀ {l : List α} {m : α} {rest : List α},
      popMinBy lt l = some (m, rest) → ∀ y ∈ l, lt y m = false := by
  intro l
  induction l with
  | nil =>
    intro m rest h
    exact Option.noConfusion h
  | cons x xs ih =>
    intro m rest h y hy
    rw [popMinBy] at h
    split at h
    case h_1 heq =>
      rw [Option.some.injEq, Prod.mk.injEq] at h
      obtain ⟨h1, h2⟩ := h
      have hxs := popMinBy_eq_none heq
      subst hxs
      rcases List.mem_singleton.mp hy with rfl
      rw [← h1]
      exact hord.irrefl y
    case h_2 m' rest' heq =>
      split at h
      case isTrue hx =>
        rw [Option.some.injEq, Prod.mk.injEq] at h
        obtain ⟨h1, h2⟩ := h
        rcases List.mem_cons.mp hy with rfl | hy2
        · rw [← h1]
          exact hord.1 m' y hx
        · rw [← h1]
          exact ih heq y hy2
      case isFalse hx =>
        rw [Option.some.injEq, Prod.mk.injEq] at h
        obtain ⟨h1, h2⟩ := h
        rcases List.mem_cons.mp hy with rfl | hy2
        · rw [← h1]
          exact hord.irrefl y
        · rw [← h1]
          exact hord.negtrans (ih heq y hy2)
            (by rw [← Bool.not_eq_true]; exact hx)

theorem popMinBy_mem {α : Type} {lt : α → α → Bool} {l : List α} {m : α}
    {rest : List α} (h : popMinBy lt l = some (m, rest)) : m ∈ l :=
  (popMinBy_perm h).mem_iff.mpr (List.mem_cons_self _ _)

theorem popMinBy_rest_subset {α : Type} {lt : α → α → Bool} {l : List α}
    {m : α} {rest : List α} (h : popMinBy lt l = some (m, rest)) :
    ∀ y ∈ rest, y ∈ l :=
  fun y hy => (popMinBy_perm h).mem_iff.mpr (List.mem_cons_of_mem _ hy)

theorem popMinBy_length {α : Type} {lt : α → α → Bool} {l : List α} {m : α}
    {rest : List α} (h : popMinBy lt l = some (m, rest)) :
    l.length = rest.length + 1 :=
  (popMinBy_perm h).length_eq

/-! ## Paths, trails and reachability -/

/-- `validate_path(graph, path)`: every consecutive pair must be a
stored edge (`path[i] in graph["edges"].get(path[i-1], {})`). -/
def validate_path (g : Graph) : List NodeId → Bool
  | u :: v :: rest => (g.w u v).isSome && validate_path g (v :: rest)
  | _ => true

/-- Cost of a node list: sum of the stored weights of its steps
(missing edges count 0; only used beneath `validate_path`). -/
def trailCost (g : Graph) : List NodeId → ℚ
  | u :: v :: rest => (g.w u v).getD 0 + trailCost g (v :: rest)
  | _ => 0

/-- There is a walk from `s` to the second node along stored edges with
the given total cost. -/
inductive RTrail (g : Graph) (s : NodeId) : NodeId → ℚ → Prop where
  | base : RTrail g s s 0
  | snoc {u v : NodeId} {c w : ℚ} : RTrail g s u c → g.w u v = some w →
      RTrail g s v (c + w)

/-- `t` is reachable from `s` along stored edges. -/
def Reach (g : Graph) (s t : NodeId) : Prop := ∃ c, RTrail g s t c

theorem w_mem {g : Graph} {u v : NodeId} {w : ℚ} (h : g.w u v = some w) :
    ∃ adjU, (u, adjU) ∈ g.edges ∧ (v, w) ∈ adjU := by
  unfold Graph.w Graph.adj at h
  cases hE : lookupK g.edges u with
  | none =>
    rw [hE] at h
    simp [lookupK] at h
  | some adjU =>
    rw [hE] at h
    exact ⟨adjU, lookupK_mem _ _ _ hE, lookupK_mem _ _ _ h⟩

theorem w_nonneg {g : Graph} (hw : ∀ p ∈ g.edges, ∀ q ∈ p.2, 0 ≤ q.2)
    {u v : NodeId} {c : ℚ} (h : g.w u v = some c) : 0 ≤ c := by
  obtain ⟨adjU, hmem, hq⟩ := w_mem h
  exact hw (u, adjU) hmem (v, c) hq

/-- Any walk cost is bounded below by the drop of a potential that is
feasible on every stored edge. -/
theorem rtrail_potential {g : Graph} (φ : NodeId → ℚ)
    (hfeas : ∀ p ∈ g.edges, ∀ q ∈ p.2, φ p.1 ≤ q.2 + φ q.1)
    {u t : NodeId} {c : ℚ} (h : RTrail g u t c) : φ u ≤ c + φ t := by
  induction h with
  | base => simp
  | snoc hr hedge ih =>
    obtain ⟨adjU, hmem, hq⟩ := w_mem hedge
    have := hfeas _ hmem _ hq
    linarith

theorem rtrail_nonneg {g : Graph}
    (hw : ∀ p ∈ g.edges, ∀ q ∈ p.2, 0 ≤ q.2)
    {s t : NodeId} {c : ℚ} (h : RTrail g s t c) : 0 ≤ c := by
  induction h with
  | base => exact le_refl 0
  | snoc hr hedge ih => linarith [w_nonneg hw hedge]

theorem rtrail_out_edge {g : Graph} {s t : NodeId} {c : ℚ}
    (h : RTrail g s t c) : s = t ∨ ∃ v w, g.w s v = some w := by
  induction h with
  | base => exact Or.inl rfl
  | snoc hr hedge ih =>
    rcases ih with rfl | hx
    · exact Or.inr ⟨_, _, hedge⟩
    · exact Or.inr hx

theorem rtrail_mem_closed {g : Graph} {s : NodeId} {vis : List NodeId}
    (hs : s ∈ vis)
    (hcl : ∀ u ∈ vis, ∀ v w, g.w u v = some w → v ∈ vis)
    {t : NodeId} {c : ℚ} (h : RTrail g s t c) : t ∈ vis := by
  induction h with
  | base => exact hs
  | snoc hr hedge ih => exact hcl _ ih _ _ hedge

theorem head_append_single {p : List NodeId} {v : NodeId} (h : p ≠ []) :
    (p ++ [v]).head? = p.head? := by
  cases p with
  | nil => exact absurd rfl h
  | cons a t => rfl

theorem getLastD_append_single (p : List NodeId) (v : NodeId) (d : NodeId) :
    (p ++ [v]).getLastD d = v := by
  induction p generalizing d with
  | nil => rfl
  | cons a t ih =>
    rw [List.cons_append]
    cases ht : t ++ [v] with
    | nil => exact absurd ht (by simp)
    | cons b u =>
      rw [List.getLastD_cons, ← ht, ih]

theorem validate_path_append {g : Graph} {p : List NodeId} {u v : NodeId}
    {w : ℚ} (hval : validate_path g p = true) (hlast : p.getLastD "" = u)
    (hedge : g.w u v = some w) :
    validate_path g (p ++ [v]) = true := by
  induction p generalizing u with
  | nil => rfl
  | cons a t ih =>
    cases t with
    | nil =>
      have hau : a = u := by simpa using hlast
      subst hau
      show ((g.w a v).isSome && validate_path g [v]) = true
      rw [hedge]
      rfl
    | cons b r =>
      rw [validate_path, Bool.and_eq_true] at hval
      rw [List.getLastD_cons] at hlast
      show ((g.w a b).isSome && validate_path g (b :: (r ++ [v]))) = true
      rw [Bool.and_eq_true]
      exact ⟨hval.1, ih hval.2 hlast hedge⟩

theorem trailCost_append {g : Graph} {p : List NodeId} {u v : NodeId}
    {w : ℚ} (hne : p ≠ []) (hlast : p.getLastD "" = u)
    (hedge : g.w u v = some w) :
    trailCost g (p ++ [v]) = trailCost g p + w := by
  induction p generalizing u with
  | nil => exact absurd rfl hne
  | cons a t ih =>
    cases t with
    | nil =>
      have hau : a = u := by simpa using hlast
      subst hau
      show (g.w a v).getD 0 + trailCost g [v] = trailCost g [a] + w
      rw [hedge]
      show w + 0 = 0 + w
      ring
    | cons b r =>
      rw [List.getLastD_cons] at hlast
      have hih := ih (show b :: r ≠ [] by simp) hlast hedge
      calc trailCost g ((a :: b :: r) ++ [v])
          = (g.w a b).getD 0 + trailCost g ((b :: r) ++ [v]) := rfl
        _ = (g.w a b).getD 0 + (trailCost g (b :: r) + w) := by rw [hih]
        _ = trailCost g (a :: b :: r) + w := by
            show _ = (g.w a b).getD 0 + trailCost g (b :: r) + w
            ring

theorem validate_path_split {g : Graph} {p : List NodeId} {v : NodeId}
    (hne : p ≠ []) (hval : validate_path g (p ++ [v]) = true) :
    validate_path g p = true ∧
      ∃ w, g.w (p.getLastD "") v = some w := by
  induction p with
  | nil => exact absurd rfl hne
  | cons a t ih =>
    cases t with
    | nil =>
      have hval2 : ((g.w a v).isSome && validate_path g [v]) = true := hval
      rw [Bool.and_eq_true] at hval2
      exact ⟨rfl, Option.isSome_iff_exists.mp hval2.1⟩
    | cons b r =>
      have hval2 : ((g.w a b).isSome &&
          validate_path g (b :: (r ++ [v]))) = true := hval
      rw [Bool.and_eq_true] at hval2
      have hr := ih (by simp) hval2.2
      refine ⟨?_, ?_⟩
      · rw [validate_path, Bool.and_eq_true]
        exact ⟨hval2.1, hr.1⟩
      · rw [List.getLastD_cons]
        exact hr.2

/-- A validated node list starting at `s` realizes a walk of its cost. -/
theorem validated_rtrail {g : Graph} {s : NodeId} :
    ∀ {p : List NodeId}, validate_path g p = true → p.head? = some s →
      RTrail g s (p.getLastD "") (trailCost g p) := by
  intro p
  induction p using List.reverseRecOn with
  | nil =>
    intro _ hh
    exact Option.noConfusion hh
  | append_singleton q v ih =>
    intro hval hh
    cases q with
    | nil =>
      rw [List.nil_append] at hval hh ⊢
      have hv : v = s := Option.some.inj hh
      subst hv
      exact RTrail.base
    | cons a t =>
      have hne : a :: t ≠ [] := by simp
      obtain ⟨hvq, w, hw⟩ := validate_path_split hne hval
      rw [head_append_single hne] at hh
      have hr := ih hvq hh
      have hstep := RTrail.snoc hr hw
      rw [← trailCost_append hne rfl hw] at hstep
      rw [getLastD_append_single]
      exact hstep

/-! ## Search loops

The Python `while frontier:` loops are embedded with an explicit fuel
argument so that runs compute inside the kernel.  Each iteration either
shortens the frontier or moves a node with its adjacency list out of
the unvisited pool, so `frontier.length + adjWeight g visited` strictly
decreases; the chosen fuel exceeds this potential, and the fuel-out
sentinel (error `"fuel exhausted"`, which no real branch produces) is
proved unreachable wherever a loop is entered. -/

/-- Total adjacency length of the edge entries whose key is unvisited:
the dominant term of the loop potential. -/
def adjWeight (g : Graph) (vis : List NodeId) : ℕ :=
  ((g.edges.filter (fun p => !decide (p.1 ∈ vis))).map
    (fun p => p.2.length)).sum

theorem sum_map_filter_mono {α : Type} (f : α → ℕ) (p q : α → Bool)
    (hpq : ∀ a, q a = true → p a = true) (l : List α) :
    ((l.filter q).map f).sum ≤ ((l.filter p).map f).sum := by
  induction l with
  | nil => exact le_refl 0
  | cons x t ih =>
    by_cases hqx : q x = true
    · have hpx := hpq x hqx
      rw [List.filter_cons_of_pos hqx, List.filter_cons_of_pos hpx]
      simp only [List.map_cons, List.sum_cons]
      omega
    · rw [List.filter_cons_of_neg hqx]
      by_cases hpx : p x = true
      · rw [List.filter_cons_of_pos hpx]
        simp only [List.map_cons, List.sum_cons]
        omega
      · rw [List.filter_cons_of_neg hpx]
        exact ih

theorem sum_map_filter_drop {α : Type} (f : α → ℕ) (p q : α → Bool)
    (hpq : ∀ a, q a = true → p a = true) {l : List α} {a : α}
    (hal : a ∈ l) (hpa : p a = true) (hqa : q a = false) :
    ((l.filter q).map f).sum + f a ≤ ((l.filter p).map f).sum := by
  induction l with
  | nil => cases hal
  | cons x t ih =>
    rcases List.mem_cons.mp hal with rfl | hat
    · rw [List.filter_cons_of_neg (by rw [hqa]; exact Bool.false_ne_true),
        List.filter_cons_of_pos hpa]
      simp only [List.map_cons, List.sum_cons]
      have := sum_map_filter_mono f p q hpq t
      omega
    · by_cases hqx : q x = true
      · have hpx := hpq x hqx
        rw [List.filter_cons_of_pos hqx, List.filter_cons_of_pos hpx]
        simp only [List.map_cons, List.sum_cons]
        have := ih hat
        omega
      · rw [List.filter_cons_of_neg hqx]
        by_cases hpx : p x = true
        · rw [List.filter_cons_of_pos hpx]
          simp only [List.map_cons, List.sum_cons]
          have := ih hat
          omega
        · rw [List.filter_cons_of_neg hpx]
          exact ih hat

theorem adjWeight_cons_le (g : Graph) (x : NodeId) (vis : List NodeId) :
    adjWeight g (x :: vis) ≤ adjWeight g vis := by
  refine sum_map_filter_mono _ _ _ ?_ _
  intro a ha
  simp only [Bool.not_eq_true', decide_eq_false_iff_not] at ha ⊢
  intro hmem
  exact ha (List.mem_cons_of_mem _ hmem)

theorem adjWeight_cons_lookup (g : Graph) {x : NodeId} {adjX : Adj}
    (hx : lookupK g.edges x = some adjX) (vis : List NodeId)
    (hxv : x ∉ vis) :
    adjWeight g (x :: vis) + adjX.length ≤ adjWeight g vis := by
  refine sum_map_filter_drop (fun p => p.2.length) _ _ ?_
    (lookupK_mem _ _ _ hx) ?_ ?_
  · intro a ha
    simp only [Bool.not_eq_true', decide_eq_false_iff_not] at ha ⊢
    intro hmem
    exact ha (List.mem_cons_of_mem _ hmem)
  · simp only [Bool.not_eq_true', decide_eq_false_iff_not]
    exact hxv
  · simp only [Bool.not_eq_true', decide_eq_false_iff_not]
    simp

theorem adj_of_lookup_none {g : Graph} {u : NodeId}
    (h : lookupK g.edges u = none) : g.adj u = [] := by
  unfold Graph.adj
  rw [h]
  rfl

/-- Result tuple of `ucs_search` / `a_star_search`:
`(cost, path, nodes_expanded, max_frontier_size, error_msg, peak_memory)`.
`float('inf')` is `⊤`; wall-clock memory tracing is modelled as 0. -/
structure SearchResult where
  cost : WithTop ℚ
  path : List NodeId
  nodesExpanded : ℕ
  maxFrontier : ℕ
  errorMsg : String
  peakMemory : ℕ
  deriving DecidableEq

/-- The node a frontier entry stands for: `path[-1]`. -/
def lastOfU (e : ℚ × List NodeId) : NodeId := e.2.getLastD ""

/-- `path[-1]` of an A* entry `(f, g, path)`. -/
def lastOfA (e : ℚ × ℚ × List NodeId) : NodeId := e.2.2.getLastD ""

/-- The `while frontier:` loop of `ucs_search`. -/
def ucsLoop (g : Graph) (goal : NodeId) :
    ℕ → List (ℚ × List NodeId) → List NodeId → ℕ → ℕ → SearchResult
  | 0, _, _, ex, mx => ⟨⊤, [], ex, mx, "fuel exhausted", 0⟩
  | fuel + 1, frontier, visited, ex, mx =>
    match popMinBy ucsLt frontier with
    | none => ⟨⊤, [], ex, mx, "No path exists", 0⟩
    | some ((cost, path), rest) =>
      let mx' := max mx frontier.length
      let current := path.getLastD ""
      if current ∈ visited then ucsLoop g goal fuel rest visited ex mx'
      else if current = goal then
        if validate_path g path then
          ⟨(cost : WithTop ℚ), path, ex + 1, mx', "", 0⟩
        else ⟨⊤, [], ex + 1, mx', "Invalid path generated", 0⟩
      else
        ucsLoop g goal fuel
          (rest ++ (g.adj current).filterMap (fun q =>
            if q.1 ∈ current :: visited then none
            else some (ratAdd cost q.2, path ++ [q.1])))
          (current :: visited) (ex + 1) mx'

/-- The `while frontier:` loop of `a_star_search`, over an abstract
heuristic `hh`. -/
def astarLoop (g : Graph) (hh : NodeId → ℚ) (goal : NodeId) :
    ℕ → List (ℚ × ℚ × List NodeId) → List NodeId → ℕ → ℕ → SearchResult
  | 0, _, _, ex, mx => ⟨⊤, [], ex, mx, "fuel exhausted", 0⟩
  | fuel + 1, frontier, visited, ex, mx =>
    match popMinBy astarLt frontier with
    | none => ⟨⊤, [], ex, mx, "No path exists", 0⟩
    | some ((f, gc, path), rest) =>
      let mx' := max mx frontier.length
      let current := path.getLastD ""
      if current ∈ visited then astarLoop g hh goal fuel rest visited ex mx'
      else if current = goal then
        if validate_path g path then
          ⟨(gc : WithTop ℚ), path, ex + 1, mx', "", 0⟩
        else ⟨⊤, [], ex + 1, mx', "Invalid path generated", 0⟩
      else
        astarLoop g hh goal fuel
          (rest ++ (g.adj current).filterMap (fun q =>
            if q.1 ∈ current :: visited then none
            else some (ratAdd (ratAdd gc q.2) (hh q.1), ratAdd gc q.2,
              path ++ [q.1])))
          (current :: visited) (ex + 1) mx'

/-- The BFS loop of `check_connectivity`. -/
def bfsLoop (g : Graph) (goal : NodeId) :
    ℕ → List NodeId → List NodeId → Bool
  | 0, _, _ => false
  | fuel + 1, queue, visited =>
    match queue with
    | [] => false
    | current :: rest =>
      if current ∈ visited then bfsLoop g goal fuel rest visited
      else if current = goal then true
      else
        bfsLoop g goal fuel
          (rest ++ ((g.adj current).map Prod.fst).filter
            (fun n => !decide (n ∈ current :: visited)))
          (current :: visited)

/-- Fuel exceeding the loop potential of any run started on `g`. -/
def searchFuel (g : Graph) : ℕ := 2 + adjWeight g []

/-- `check_connectivity(graph, start, goal)` (BFS pre-check). -/
def check_connectivity (g : Graph) (start goal : NodeId) : Bool :=
  if start = goal then true
  else if ¬ (g.hasNode start ∧ g.hasNode goal) then false
  else bfsLoop g goal (searchFuel g) [start] []

/-- `ucs_search(graph, start, goal)`. -/
def ucs_search (g : Graph) (start goal : NodeId) : SearchResult :=
  if ¬ g.hasNode start then
    ⟨⊤, [], 0, 0, "Start node '" ++ start ++ "' not found", 0⟩
  else if ¬ g.hasNode goal then
    ⟨⊤, [], 0, 0, "Goal node '" ++ goal ++ "' not found", 0⟩
  else if start = goal then ⟨((0 : ℚ) : WithTop ℚ), [start], 1, 1, "", 0⟩
  else if ¬ check_connectivity g start goal then
    ⟨⊤, [], 0, 0, "No path exists from " ++ start ++ " to " ++ goal, 0⟩
  else ucsLoop g goal (searchFuel g) [((0 : ℚ), [start])] [] 0 0

/-- The heuristic of `a_star_search`: the Haversine value on the node
and goal coordinates.  `haversine` itself is transcendental, so it is
passed as the oracle `hav`; a node id without coordinates (impossible
under the edge-reference invariant) defaults to 0 rather than raising. -/
def heurOf (g : Graph) (hav : ℚ → ℚ → ℚ → ℚ → ℚ) (goal v : NodeId) : ℚ :=
  match lookupK g.nodes v, lookupK g.nodes goal with
  | some c, some gc => hav c.1 c.2 gc.1 gc.2
  | _, _ => 0

/-- `a_star_search(graph, start, goal)` over the Haversine oracle. -/
def a_star_search (g : Graph) (hav : ℚ → ℚ → ℚ → ℚ → ℚ)
    (start goal : NodeId) : SearchResult :=
  if ¬ g.hasNode start then
    ⟨⊤, [], 0, 0, "Start node '" ++ start ++ "' not found", 0⟩
  else if ¬ g.hasNode goal then
    ⟨⊤, [], 0, 0, "Goal node '" ++ goal ++ "' not found", 0⟩
  else if start = goal then ⟨((0 : ℚ) : WithTop ℚ), [start], 1, 1, "", 0⟩
  else if ¬ check_connectivity g start goal then
    ⟨⊤, [], 0, 0, "No path exists from " ++ start ++ " to " ++ goal, 0⟩
  else
    astarLoop g (heurOf g hav goal) goal (searchFuel g)
      [(heurOf g hav goal start, (0 : ℚ), [start])] [] 0 0

/-! ## BFS correctness -/

theorem w_isSome_of_mem_adj {g : Graph} {u : NodeId} {q : NodeId × ℚ}
    (hq : q ∈ g.adj u) : (g.w u q.1).isSome = true := by
  unfold Graph.w
  exact lookupK_isSome_of_mem _ q.1 q.2 hq

theorem bfsLoop_sound {g : Graph} {s goal : NodeId} :
    ∀ fuel queue vis, (∀ n ∈ queue, Reach g s n) →
      bfsLoop g goal fuel queue vis = true → Reach g s goal := by
  intro fuel
  induction fuel with
  | zero =>
    intro queue vis _ h
    rw [bfsLoop] at h
    exact absurd h Bool.false_ne_true
  | succ fuel ih =>
    intro queue vis hq h
    cases queue with
    | nil =>
      rw [bfsLoop] at h
      exact absurd h Bool.false_ne_true
    | cons current rest =>
      simp only [bfsLoop] at h
      by_cases h1 : current ∈ vis
      · rw [if_pos h1] at h
        exact ih rest vis (fun n hn => hq n (List.mem_cons_of_mem _ hn)) h
      · rw [if_neg h1] at h
        by_cases h2 : current = goal
        · rw [← h2]
          exact hq current (List.mem_cons_self _ _)
        · rw [if_neg h2] at h
          refine ih _ _ ?_ h
          intro n hn
          rcases List.mem_append.mp hn with hn1 | hn1
          · exact hq n (List.mem_cons_of_mem _ hn1)
          · obtain ⟨hnmap, _⟩ := List.mem_filter.mp hn1
            obtain ⟨qn, hqn, hfst⟩ := List.mem_map.mp hnmap
            obtain ⟨c, hc⟩ := hq current (List.mem_cons_self _ _)
            have hw := w_isSome_of_mem_adj hqn
            obtain ⟨w, hw2⟩ := Option.isSome_iff_exists.mp hw
            rw [hfst] at hw2
            exact ⟨c + w, RTrail.snoc hc hw2⟩

theorem bfsLoop_complete {g : Graph} {s goal : NodeId}
    (hreach : Reach g s goal) :
    ∀ fuel queue vis,
      (s ∈ vis ∨ s ∈ queue) →
      (∀ u ∈ vis, ∀ v w, g.w u v = some w → v ∈ vis ∨ v ∈ queue) →
      goal ∉ vis →
      queue.length + adjWeight g vis < fuel →
      bfsLoop g goal fuel queue vis = true := by
  intro fuel
  induction fuel with
  | zero =>
    intro queue vis _ _ _ hp
    omega
  | succ fuel ih =>
    intro queue vis hs hcl hg hp
    cases queue with
    | nil =>
      exfalso
      have hsv : s ∈ vis := hs.resolve_right (List.not_mem_nil s)
      have hclosed : ∀ u ∈ vis, ∀ v w, g.w u v = some w → v ∈ vis :=
        fun u hu v w hw => (hcl u hu v w hw).resolve_right (List.not_mem_nil v)
      obtain ⟨c, hrt⟩ := hreach
      exact hg (rtrail_mem_closed hsv hclosed hrt)
    | cons current rest =>
      simp only [bfsLoop]
      by_cases h1 : current ∈ vis
      · rw [if_pos h1]
        refine ih rest vis ?_ ?_ hg ?_
        · rcases hs with hv | hq2
          · exact Or.inl hv
          · rcases List.mem_cons.mp hq2 with rfl | hq3
            · exact Or.inl h1
            · exact Or.inr hq3
        · intro u hu v w hw
          rcases hcl u hu v w hw with hv | hq2
          · exact Or.inl hv
          · rcases List.mem_cons.mp hq2 with rfl | hq3
            · exact Or.inl h1
            · exact Or.inr hq3
        · simp only [List.length_cons] at hp
          omega
      · rw [if_neg h1]
        by_cases h2 : current = goal
        · rw [if_pos h2]
        · rw [if_neg h2]
          refine ih _ _ ?_ ?_ ?_ ?_
          · rcases hs with hv | hq2
            · exact Or.inl (List.mem_cons_of_mem _ hv)
            · rcases List.mem_cons.mp hq2 with rfl | hq3
              · exact Or.inl (List.mem_cons_self _ _)
              · exact Or.inr (List.mem_append_left _ hq3)
          · intro u hu v w hw
            rcases List.mem_cons.mp hu with rfl | hu2
            · by_cases hv : v ∈ u :: vis
              · exact Or.inl hv
              · refine Or.inr (List.mem_append_right _ ?_)
                refine List.mem_filter.mpr ⟨?_, ?_⟩
                · have hlk : lookupK (g.adj u) v = some w := hw
                  exact List.mem_map_of_mem Prod.fst (lookupK_mem _ _ _ hlk)
                · simp only [Bool.not_eq_true', decide_eq_false_iff_not]
                  exact hv
            · rcases hcl u hu2 v w hw with hv | hq2
              · exact Or.inl (List.mem_cons_of_mem _ hv)
              · rcases List.mem_cons.mp hq2 with rfl | hq3
                · exact Or.inl (List.mem_cons_self _ _)
                · exact Or.inr (List.mem_append_left _ hq3)
          · intro hmem
            rcases List.mem_cons.mp hmem with rfl | hmem2
            · exact h2 rfl
            · exact hg hmem2
          · simp only [List.length_append, List.length_cons] at hp ⊢
            have hflen : (((g.adj current).map Prod.fst).filter
                (fun n => !decide (n ∈ current :: vis))).length ≤
                (g.adj current).length := by
              calc (((g.adj current).map Prod.fst).filter _).length
                  ≤ ((g.adj current).map Prod.fst).length :=
                    List.length_filter_le _ _
                _ = (g.adj current).length := List.length_map _ _
            cases hE : lookupK g.edges current with
            | none =>
              have hadj : (g.adj current).length = 0 := by
                rw [adj_of_lookup_none hE]
                rfl
              have hle := adjWeight_cons_le g current vis
              omega
            | some A =>
              have hadj : (g.adj current).length = A.length := by
                rw [Graph.adj_of_lookup hE]
              have hle := adjWeight_cons_lookup g hE vis h1
              omega

/-- `check_connectivity` decides reachability (for present endpoints). -/
theorem check_connectivity_eq_true_iff {g : Graph} {s t : NodeId}
    (hs : g.hasNode s = true) (ht : g.hasNode t = true) :
    check_connectivity g s t = true ↔ Reach g s t := by
  unfold check_connectivity
  by_cases h1 : s = t
  · rw [if_pos h1]
    subst h1
    exact ⟨fun _ => ⟨0, RTrail.base⟩, fun _ => rfl⟩
  · rw [if_neg h1, if_neg (by rw [hs, ht]; exact fun hx => hx ⟨rfl, rfl⟩)]
    constructor
    · intro h
      exact bfsLoop_sound _ _ _
        (fun n hn => by
          rcases List.mem_singleton.mp hn with rfl
          exact ⟨0, RTrail.base⟩) h
    · intro hreach
      refine bfsLoop_complete hreach _ _ _
        (Or.inr (List.mem_singleton_self s)) ?_
        (List.not_mem_nil t) ?_
      · intro u hu
        exact absurd hu (List.not_mem_nil u)
      · rw [searchFuel]
        simp only [List.length_singleton]
        omega

/-! ## UCS loop correctness -/

theorem lookupK_eq_of_mem_nodup {β : Type} {l : List (NodeId × β)}
    {k : NodeId} {v : β} (hnd : (l.map Prod.fst).Nodup) (h : (k, v) ∈ l) :
    lookupK l k = some v := by
  induction l with
  | nil => cases h
  | cons x t ih =>
    rw [List.map_cons, List.nodup_cons] at hnd
    rcases List.mem_cons.mp h with rfl | ht
    · rw [lookupK, if_pos rfl]
    · rw [lookupK]
      by_cases hk : x.1 = k
      · exfalso
        exact hnd.1 (hk ▸ List.mem_map_of_mem Prod.fst ht)
      · rw [if_neg hk]
        exact ih hnd.2 ht

theorem w_of_mem_adj {g : Graph}
    (hand : ∀ p ∈ g.edges, (p.2.map Prod.fst).Nodup) {u : NodeId}
    {q : NodeId × ℚ} (hq : q ∈ g.adj u) : g.w u q.1 = some q.2 := by
  unfold Graph.w
  cases hE : lookupK g.edges u with
  | none =>
    rw [adj_of_lookup_none hE] at hq
    cases hq
  | some A =>
    rw [Graph.adj_of_lookup hE] at hq ⊢
    exact lookupK_eq_of_mem_nodup (hand (u, A) (lookupK_mem _ _ _ hE)) hq

theorem ne_nil_of_head {p : List NodeId} {s : NodeId}
    (h : p.head? = some s) : p ≠ [] := by
  intro hx
  rw [hx] at h
  exact Option.noConfusion h

/-- A UCS frontier entry is a genuine path from the start whose stored
cost is its path cost. -/
def GoodEntryU (g : Graph) (s : NodeId) (e : ℚ × List NodeId) : Prop :=
  e.2.head? = some s ∧ validate_path g e.2 = true ∧ trailCost g e.2 = e.1

theorem goodEntryU_rtrail {g : Graph} {s : NodeId} {e : ℚ × List NodeId}
    (he : GoodEntryU g s e) : RTrail g s (lastOfU e) e.1 := by
  have h := validated_rtrail he.2.1 he.1
  rw [he.2.2] at h
  exact h

/-- Any walk from the start to an unvisited node costs at least the
minimum frontier cost, given the Dijkstra invariants. -/
theorem ucs_frontier_bound {g : Graph} {s : NodeId}
    (hw : ∀ p ∈ g.edges, ∀ q ∈ p.2, 0 ≤ q.2)
    {frontier : List (ℚ × List NodeId)} {visited : List NodeId}
    (hI4 : s ∈ visited ∨ ∃ e ∈ frontier, lastOfU e = s ∧ e.1 ≤ 0)
    (hI7 : ∀ u ∈ visited, ∃ cu, RTrail g s u cu ∧
      (∀ c', RTrail g s u c' → cu ≤ c') ∧
      (∀ v wt, g.w u v = some wt → v ∈ visited ∨
        ∃ e ∈ frontier, lastOfU e = v ∧ e.1 ≤ cu + wt))
    {m : ℚ} (hmin : ∀ e ∈ frontier, m ≤ e.1)
    {v : NodeId} {c : ℚ} (hv : v ∉ visited) (ht : RTrail g s v c) :
    m ≤ c := by
  revert hv
  induction ht with
  | base =>
    intro hv
    rcases hI4 with hs | ⟨e, he, _, hle⟩
    · exact absurd hs hv
    · exact le_trans (hmin e he) hle
  | snoc hr hedge ih =>
    intro hv
    rename_i u v' c' w
    by_cases hu : u ∈ visited
    · obtain ⟨cu, _, hcumin, hcov⟩ := hI7 u hu
      rcases hcov _ _ hedge with hvv | ⟨e, he, _, hle⟩
      · exact absurd hvv hv
      · have h1 : m ≤ e.1 := hmin e he
        have h2 : cu ≤ c' := hcumin _ hr
        linarith
    · have h3 := ih hu
      have h4 : 0 ≤ w := w_nonneg hw hedge
      linarith

/-- Master lemma for the UCS loop: under the Dijkstra invariants and
enough fuel, a success result carries a realized minimal cost, and the
loop succeeds whenever the goal is reachable. -/
theorem ucsLoop_spec {g : Graph} {s goal : NodeId}
    (hw : ∀ p ∈ g.edges, ∀ q ∈ p.2, 0 ≤ q.2)
    (hand : ∀ p ∈ g.edges, (p.2.map Prod.fst).Nodup) :
    ∀ fuel frontier visited ex mx,
      (∀ e ∈ frontier, GoodEntryU g s e) →
      goal ∉ visited →
      (s ∈ visited ∨ ∃ e ∈ frontier, lastOfU e = s ∧ e.1 ≤ 0) →
      (∀ u ∈ visited, ∃ cu, RTrail g s u cu ∧
        (∀ c', RTrail g s u c' → cu ≤ c') ∧
        (∀ v wt, g.w u v = some wt → v ∈ visited ∨
          ∃ e ∈ frontier, lastOfU e = v ∧ e.1 ≤ cu + wt)) →
      frontier.length + adjWeight g visited < fuel →
      ((ucsLoop g goal fuel frontier visited ex mx).errorMsg = "" →
        (ucsLoop g goal fuel frontier visited ex mx).path ≠ [] ∧
        ∃ c : ℚ,
          (ucsLoop g goal fuel frontier visited ex mx).cost = (c : WithTop ℚ) ∧
          RTrail g s goal c ∧ ∀ c', RTrail g s goal c' → c ≤ c') ∧
      (Reach g s goal →
        (ucsLoop g goal fuel frontier visited ex mx).errorMsg = "") := by
  intro fuel
  induction fuel with
  | zero =>
    intro fr vis ex mx _ _ _ _ hp
    omega
  | succ fuel ih =>
    intro fr vis ex mx hI1 hI3 hI4 hI7 hp
    cases hpop : popMinBy ucsLt fr with
    | none =>
      have hfr : fr = [] := popMinBy_eq_none hpop
      subst hfr
      have hres : ucsLoop g goal (fuel + 1) [] vis ex mx =
          ⟨⊤, [], ex, mx, "No path exists", 0⟩ := rfl
      rw [hres]
      constructor
      · intro hmsg
        exact absurd hmsg (show ("No path exists" : String) ≠ "" by decide)
      · intro hreach
        exfalso
        have hclosed : ∀ u ∈ vis, ∀ v w, g.w u v = some w → v ∈ vis := by
          intro u hu v w hw2
          obtain ⟨cu, _, _, hcov⟩ := hI7 u hu
          rcases hcov v w hw2 with h | ⟨e, he, _⟩
          · exact h
          · exact absurd he (List.not_mem_nil e)
        have hs : s ∈ vis := by
          rcases hI4 with h | ⟨e, he, _⟩
          · exact h
          · exact absurd he (List.not_mem_nil e)
        obtain ⟨c, hrt⟩ := hreach
        exact hI3 (rtrail_mem_closed hs hclosed hrt)
    | some pr =>
      obtain ⟨⟨cost, path⟩, rest⟩ := pr
      have hmem : (cost, path) ∈ fr := popMinBy_mem hpop
      have hgood := hI1 _ hmem
      have hminf : ∀ y ∈ fr, cost ≤ y.1 := by
        intro y hy
        exact pairLtQ_fst_le (popMinBy_min ucsLt_strict hpop y hy)
      have hrsub : ∀ y ∈ rest, y ∈ fr := popMinBy_rest_subset hpop
      have hlen : fr.length = rest.length + 1 := popMinBy_length hpop
      simp only [ucsLoop, hpop]
      by_cases hcur : path.getLastD "" ∈ vis
      · rw [if_pos hcur]
        refine ih rest vis ex (max mx fr.length) ?_ hI3 ?_ ?_ ?_
        · exact fun e he => hI1 e (hrsub e he)
        · rcases hI4 with h | ⟨e, he, hlast, hle⟩
          · exact Or.inl h
          · by_cases hse : e = (cost, path)
            · rw [hse] at hlast
              refine Or.inl ?_
              rw [← hlast]
              exact hcur
            · refine Or.inr ⟨e, ?_, hlast, hle⟩
              rcases List.mem_cons.mp ((popMinBy_perm hpop).mem_iff.mp he) with
                h3 | h3
              · exact absurd h3 hse
              · exact h3
        · intro u hu
          obtain ⟨cu, hreal, hmin2, hcov⟩ := hI7 u hu
          refine ⟨cu, hreal, hmin2, ?_⟩
          intro v wt hw2
          rcases hcov v wt hw2 with h | ⟨e, he, hlast, hle⟩
          · exact Or.inl h
          · by_cases hv2 : v ∈ vis
            · exact Or.inl hv2
            · have hne : e ≠ (cost, path) := by
                intro hx
                rw [hx] at hlast
                simp only [lastOfU] at hlast
                exact hv2 (hlast ▸ hcur)
              rcases List.mem_cons.mp
                  ((popMinBy_perm hpop).mem_iff.mp he) with h3 | h3
              · exact absurd h3 hne
              · exact Or.inr ⟨e, h3, hlast, hle⟩
        · omega
      · rw [if_neg hcur]
        by_cases hgoal : path.getLastD "" = goal
        · rw [if_pos hgoal]
          rw [if_pos hgood.2.1]
          constructor
          · intro _
            refine ⟨ne_nil_of_head hgood.1, cost, rfl, ?_, ?_⟩
            · have h := goodEntryU_rtrail hgood
              rw [lastOfU] at h
              rw [hgoal] at h
              exact h
            · intro c' hc'
              rw [← hgoal] at hc'
              exact ucs_frontier_bound hw hI4 hI7 hminf hcur hc'
          · intro _
            rfl
        · rw [if_neg hgoal]
          refine ih _ _ (ex + 1) (max mx fr.length) ?_ ?_ ?_ ?_ ?_
          · -- entries of the new frontier are good
            intro e he
            rcases List.mem_append.mp he with h2 | h2
            · exact hI1 e (hrsub e h2)
            · obtain ⟨q, hq, hqe⟩ := List.mem_filterMap.mp h2
              by_cases hqm : q.1 ∈ path.getLastD "" :: vis
              · rw [if_pos hqm] at hqe
                exact Option.noConfusion hqe
              · rw [if_neg hqm] at hqe
                have hqe2 := Option.some.inj hqe
                have hedge : g.w (path.getLastD "") q.1 = some q.2 :=
                  w_of_mem_adj hand hq
                have hpne : path ≠ [] := ne_nil_of_head hgood.1
                rw [← hqe2]
                refine ⟨?_, ?_, ?_⟩
                · rw [head_append_single hpne]
                  exact hgood.1
                · exact validate_path_append hgood.2.1 rfl hedge
                · rw [trailCost_append hpne rfl hedge, hgood.2.2, ratAdd_eq]
          · -- goal still unvisited
            intro hmem2
            rcases List.mem_cons.mp hmem2 with h2 | h2
            · exact hgoal h2.symm
            · exact hI3 h2
          · -- start coverage
            rcases hI4 with h | ⟨e, he, hlast, hle⟩
            · exact Or.inl (List.mem_cons_of_mem _ h)
            · by_cases hse : s = path.getLastD ""
              · rw [hse]
                exact Or.inl (List.mem_cons_self _ _)
              · have hne : e ≠ (cost, path) := by
                  intro hx
                  rw [hx] at hlast
                  exact hse hlast.symm
                rcases List.mem_cons.mp
                    ((popMinBy_perm hpop).mem_iff.mp he) with h3 | h3
                · exact absurd h3 hne
                · exact Or.inr ⟨e, List.mem_append_left _ h3, hlast, hle⟩
          · -- finalized nodes are optimal and covered
            intro u hu
            rcases List.mem_cons.mp hu with rfl | hu2
            · -- the newly expanded node
              refine ⟨cost, ?_, ?_, ?_⟩
              · have h := goodEntryU_rtrail hgood
                rw [lastOfU] at h
                exact h
              · intro c' hc'
                exact ucs_frontier_bound hw hI4 hI7 hminf hcur hc'
              · intro v wt hw2
                by_cases hv2 : v ∈ path.getLastD "" :: vis
                · exact Or.inl hv2
                · refine Or.inr ⟨(ratAdd cost wt, path ++ [v]), ?_, ?_, ?_⟩
                  · refine List.mem_append_right _ ?_
                    refine List.mem_filterMap.mpr ⟨(v, wt), ?_, ?_⟩
                    · unfold Graph.w at hw2
                      exact lookupK_mem _ _ _ hw2
                    · rw [if_neg hv2]
                  · exact getLastD_append_single _ _ _
                  · rw [ratAdd_eq]
            · obtain ⟨cu, hreal, hmin2, hcov⟩ := hI7 u hu2
              refine ⟨cu, hreal, hmin2, ?_⟩
              intro v wt hw2
              rcases hcov v wt hw2 with h | ⟨e, he, hlast, hle⟩
              · exact Or.inl (List.mem_cons_of_mem _ h)
              · by_cases hv2 : v = path.getLastD ""
                · rw [hv2]
                  exact Or.inl (List.mem_cons_self _ _)
                · have hne : e ≠ (cost, path) := by
                    intro hx
                    rw [hx] at hlast
                    exact hv2 hlast.symm
                  rcases List.mem_cons.mp
                      ((popMinBy_perm hpop).mem_iff.mp he) with h3 | h3
                  · exact absurd h3 hne
                  · exact Or.inr ⟨e, List.mem_append_left _ h3, hlast, hle⟩
          · -- fuel bound
            have hpu : ((g.adj (path.getLastD "")).filterMap (fun q =>
                if q.1 ∈ path.getLastD "" :: vis then none
                else some (ratAdd cost q.2, path ++ [q.1]))).length ≤
                (g.adj (path.getLastD "")).length :=
              List.length_filterMap_le _ _
            simp only [List.length_append]
            cases hE : lookupK g.edges (path.getLastD "") with
            | none =>
              have hadj : (g.adj (path.getLastD "")).length = 0 := by
                rw [adj_of_lookup_none hE]
                rfl
              have hle := adjWeight_cons_le g (path.getLastD "") vis
              omega
            | some A =>
              have hadj : (g.adj (path.getLastD "")).length = A.length := by
                rw [Graph.adj_of_lookup hE]
              have hle := adjWeight_cons_lookup g hE vis hcur
              omega

/-- Top-level `ucs_search` on present endpoints: it succeeds (empty
error and non-empty path) exactly when the goal is reachable, and on a
reachable goal its cost is a realized minimal walk cost. -/
theorem ucs_search_correct {g : Graph} {start goal : NodeId}
    (hw : ∀ p ∈ g.edges, ∀ q ∈ p.2, 0 ≤ q.2)
    (hand : ∀ p ∈ g.edges, (p.2.map Prod.fst).Nodup)
    (hs : g.hasNode start = true) (ht : g.hasNode goal = true) :
    (((ucs_search g start goal).errorMsg = "" ∧
        (ucs_search g start goal).path ≠ []) ↔ Reach g start goal) ∧
    (Reach g start goal → ∃ c : ℚ,
      (ucs_search g start goal).cost = (c : WithTop ℚ) ∧
      RTrail g start goal c ∧ ∀ c', RTrail g start goal c' → c ≤ c') ∧
    (¬ Reach g start goal → ucs_search g start goal =
      ⟨⊤, [], 0, 0, "No path exists from " ++ start ++ " to " ++ goal, 0⟩) := by
  unfold ucs_search
  rw [if_neg (fun hx => hx hs), if_neg (fun hx => hx ht)]
  by_cases hsg : start = goal
  · rw [if_pos hsg]
    subst hsg
    refine ⟨⟨fun _ => ⟨0, RTrail.base⟩, fun _ => ⟨rfl, by simp⟩⟩, ?_, ?_⟩
    · intro _
      exact ⟨0, rfl, RTrail.base, fun c' hc' => rtrail_nonneg hw hc'⟩
    · intro hnr
      exact absurd ⟨0, RTrail.base⟩ hnr
  · rw [if_neg hsg]
    by_cases hcc : check_connectivity g start goal = true
    · rw [if_neg (fun hx => hx hcc)]
      have hreach := (check_connectivity_eq_true_iff hs ht).mp hcc
      have hloop := ucsLoop_spec hw hand (searchFuel g)
        [((0 : ℚ), [start])] [] 0 0
        (by
          intro e he
          rcases List.mem_singleton.mp he with rfl
          exact ⟨rfl, rfl, rfl⟩)
        (List.not_mem_nil goal)
        (Or.inr ⟨((0 : ℚ), [start]), List.mem_singleton_self _, rfl,
          le_refl 0⟩)
        (by
          intro u hu
          exact absurd hu (List.not_mem_nil u))
        (by
          rw [searchFuel]
          simp only [List.length_singleton]
          omega)
      refine ⟨⟨?_, ?_⟩, ?_, ?_⟩
      · intro ⟨hmsg, _⟩
        obtain ⟨_, c, _, hrt, _⟩ := hloop.1 hmsg
        exact ⟨c, hrt⟩
      · intro _
        have hmsg := hloop.2 hreach
        exact ⟨hmsg, (hloop.1 hmsg).1⟩
      · intro _
        have hmsg := hloop.2 hreach
        obtain ⟨_, c, hc, hrt, hmin⟩ := hloop.1 hmsg
        exact ⟨c, hc, hrt, hmin⟩
      · intro hnr
        exact absurd hreach hnr
    · rw [if_pos hcc]
      refine ⟨⟨?_, ?_⟩, ?_, ?_⟩
      · intro ⟨_, hpath⟩
        exact absurd rfl hpath
      · intro hreach
        exact absurd ((check_connectivity_eq_true_iff hs ht).mpr hreach) hcc
      · intro hreach
        exact absurd ((check_connectivity_eq_true_iff hs ht).mpr hreach) hcc
      · intro _
        rfl

/-! ## A* loop correctness -/

/-- An A* frontier entry `(f, g, path)` is a genuine path from the
start, `g` is its path cost and `f = g + h(path[-1])`. -/
def GoodEntryA (g : Graph) (s : NodeId) (hh : NodeId → ℚ)
    (e : ℚ × ℚ × List NodeId) : Prop :=
  e.2.2.head? = some s ∧ validate_path g e.2.2 = true ∧
  trailCost g e.2.2 = e.2.1 ∧ e.1 = e.2.1 + hh (lastOfA e)

theorem goodEntryA_rtrail {g : Graph} {s : NodeId} {hh : NodeId → ℚ}
    {e : ℚ × ℚ × List NodeId} (he : GoodEntryA g s hh e) :
    RTrail g s (lastOfA e) e.2.1 := by
  have h := validated_rtrail he.2.1 he.1
  rw [he.2.2.1] at h
  exact h

/-- Master lemma for the A* loop, with no assumption on the heuristic:
a success result realizes its cost by a walk, and the loop succeeds
whenever the goal is reachable. -/
theorem astarLoop_lite {g : Graph} {s goal : NodeId} {hh : NodeId → ℚ}
    (hand : ∀ p ∈ g.edges, (p.2.map Prod.fst).Nodup) :
    ∀ fuel frontier visited ex mx,
      (∀ e ∈ frontier, GoodEntryA g s hh e) →
      goal ∉ visited →
      (s ∈ visited ∨ ∃ e ∈ frontier, lastOfA e = s) →
      (∀ u ∈ visited, ∀ v w, g.w u v = some w → v ∈ visited ∨
        ∃ e ∈ frontier, lastOfA e = v) →
      frontier.length + adjWeight g visited < fuel →
      ((astarLoop g hh goal fuel frontier visited ex mx).errorMsg = "" →
        (astarLoop g hh goal fuel frontier visited ex mx).path ≠ [] ∧
        ∃ c : ℚ,
          (astarLoop g hh goal fuel frontier visited ex mx).cost =
            (c : WithTop ℚ) ∧ RTrail g s goal c) ∧
      (Reach g s goal →
        (astarLoop g hh goal fuel frontier visited ex mx).errorMsg = "") := by
  intro fuel
  induction fuel with
  | zero =>
    intro fr vis ex mx _ _ _ _ hp
    omega
  | succ fuel ih =>
    intro fr vis ex mx hI1 hI3 hI4 hI5 hp
    cases hpop : popMinBy astarLt fr with
    | none =>
      have hfr : fr = [] := popMinBy_eq_none hpop
      subst hfr
      have hres : astarLoop g hh goal (fuel + 1) [] vis ex mx =
          ⟨⊤, [], ex, mx, "No path exists", 0⟩ := rfl
      rw [hres]
      constructor
      · intro hmsg
        exact absurd hmsg (show ("No path exists" : String) ≠ "" by decide)
      · intro hreach
        exfalso
        have hclosed : ∀ u ∈ vis, ∀ v w, g.w u v = some w → v ∈ vis := by
          intro u hu v w hw2
          rcases hI5 u hu v w hw2 with h | ⟨e, he, _⟩
          · exact h
          · exact absurd he (List.not_mem_nil e)
        have hsv : s ∈ vis := by
          rcases hI4 with h | ⟨e, he, _⟩
          · exact h
          · exact absurd he (List.not_mem_nil e)
        obtain ⟨c, hrt⟩ := hreach
        exact hI3 (rtrail_mem_closed hsv hclosed hrt)
    | some pr =>
      obtain ⟨⟨f, gc, path⟩, rest⟩ := pr
      have hmem : (f, gc, path) ∈ fr := popMinBy_mem hpop
      have hgood := hI1 _ hmem
      have hrsub : ∀ y ∈ rest, y ∈ fr := popMinBy_rest_subset hpop
      have hlen : fr.length = rest.length + 1 := popMinBy_length hpop
      simp only [astarLoop, hpop]
      by_cases hcur : path.getLastD "" ∈ vis
      · rw [if_pos hcur]
        refine ih rest vis ex (max mx fr.length) ?_ hI3 ?_ ?_ ?_
        · exact fun e he => hI1 e (hrsub e he)
        · rcases hI4 with h | ⟨e, he, hlast⟩
          · exact Or.inl h
          · by_cases hse : e = (f, gc, path)
            · rw [hse] at hlast
              refine Or.inl ?_
              rw [← hlast]
              exact hcur
            · refine Or.inr ⟨e, ?_, hlast⟩
              rcases List.mem_cons.mp ((popMinBy_perm hpop).mem_iff.mp he) with
                h3 | h3
              · exact absurd h3 hse
              · exact h3
        · intro u hu v w hw2
          rcases hI5 u hu v w hw2 with h | ⟨e, he, hlast⟩
          · exact Or.inl h
          · by_cases hv2 : v ∈ vis
            · exact Or.inl hv2
            · have hne : e ≠ (f, gc, path) := by
                intro hx
                rw [hx] at hlast
                simp only [lastOfA] at hlast
                exact hv2 (hlast ▸ hcur)
              rcases List.mem_cons.mp
                  ((popMinBy_perm hpop).mem_iff.mp he) with h3 | h3
              · exact absurd h3 hne
              · exact Or.inr ⟨e, h3, hlast⟩
        · omega
      · rw [if_neg hcur]
        by_cases hgoal : path.getLastD "" = goal
        · rw [if_pos hgoal]
          rw [if_pos hgood.2.1]
          constructor
          · intro _
            refine ⟨ne_nil_of_head hgood.1, gc, rfl, ?_⟩
            have h := goodEntryA_rtrail hgood
            rw [lastOfA] at h
            rw [hgoal] at h
            exact h
          · intro _
            rfl
        · rw [if_neg hgoal]
          refine ih _ _ (ex + 1) (max mx fr.length) ?_ ?_ ?_ ?_ ?_
          · intro e he
            rcases List.mem_append.mp he with h2 | h2
            · exact hI1 e (hrsub e h2)
            · obtain ⟨q, hq, hqe⟩ := List.mem_filterMap.mp h2
              by_cases hqm : q.1 ∈ path.getLastD "" :: vis
              · rw [if_pos hqm] at hqe
                exact Option.noConfusion hqe
              · rw [if_neg hqm] at hqe
                have hqe2 := Option.some.inj hqe
                have hedge : g.w (path.getLastD "") q.1 = some q.2 :=
                  w_of_mem_adj hand hq
                have hpne : path ≠ [] := ne_nil_of_head hgood.1
                rw [← hqe2]
                refine ⟨?_, ?_, ?_, ?_⟩
                · rw [head_append_single hpne]
                  exact hgood.1
                · exact validate_path_append hgood.2.1 rfl hedge
                · show trailCost g (path ++ [q.1]) = ratAdd gc q.2
                  rw [trailCost_append hpne rfl hedge, hgood.2.2.1, ratAdd_eq]
                · show ratAdd (ratAdd gc q.2) (hh q.1) =
                    ratAdd gc q.2 + hh ((path ++ [q.1]).getLastD "")
                  rw [getLastD_append_single, ratAdd_eq]
          · intro hmem2
            rcases List.mem_cons.mp hmem2 with h2 | h2
            · exact hgoal h2.symm
            · exact hI3 h2
          · rcases hI4 with h | ⟨e, he, hlast⟩
            · exact Or.inl (List.mem_cons_of_mem _ h)
            · by_cases hse : s = path.getLastD ""
              · rw [hse]
                exact Or.inl (List.mem_cons_self _ _)
              · have hne : e ≠ (f, gc, path) := by
                  intro hx
                  rw [hx] at hlast
                  exact hse hlast.symm
                rcases List.mem_cons.mp
                    ((popMinBy_perm hpop).mem_iff.mp he) with h3 | h3
                · exact absurd h3 hne
                · exact Or.inr ⟨e, List.mem_append_left _ h3, hlast⟩
          · intro u hu v w hw2
            rcases List.mem_cons.mp hu with rfl | hu2
            · by_cases hv2 : v ∈ path.getLastD "" :: vis
              · exact Or.inl hv2
              · refine Or.inr ⟨(ratAdd (ratAdd gc w) (hh v), ratAdd gc w,
                  path ++ [v]), ?_, ?_⟩
                · refine List.mem_append_right _ ?_
                  refine List.mem_filterMap.mpr ⟨(v, w), ?_, ?_⟩
                  · unfold Graph.w at hw2
                    exact lookupK_mem _ _ _ hw2
                  · rw [if_neg hv2]
                · exact getLastD_append_single _ _ _
            · rcases hI5 u hu2 v w hw2 with h | ⟨e, he, hlast⟩
              · exact Or.inl (List.mem_cons_of_mem _ h)
              · by_cases hv2 : v = path.getLastD ""
                · rw [hv2]
                  exact Or.inl (List.mem_cons_self _ _)
                · have hne : e ≠ (f, gc, path) := by
                    intro hx
                    rw [hx] at hlast
                    exact hv2 hlast.symm
                  rcases List.mem_cons.mp
                      ((popMinBy_perm hpop).mem_iff.mp he) with h3 | h3
                  · exact absurd h3 hne
                  · exact Or.inr ⟨e, List.mem_append_left _ h3, hlast⟩
          · have hpu : ((g.adj (path.getLastD "")).filterMap (fun q =>
                if q.1 ∈ path.getLastD "" :: vis then none
                else some (ratAdd (ratAdd gc q.2) (hh q.1), ratAdd gc q.2,
                  path ++ [q.1]))).length ≤
                (g.adj (path.getLastD "")).length :=
              List.length_filterMap_le _ _
            simp only [List.length_append]
            cases hE : lookupK g.edges (path.getLastD "") with
            | none =>
              have hadj : (g.adj (path.getLastD "")).length = 0 := by
                rw [adj_of_lookup_none hE]
                rfl
              have hle := adjWeight_cons_le g (path.getLastD "") vis
              omega
            | some A =>
              have hadj : (g.adj (path.getLastD "")).length = A.length := by
                rw [Graph.adj_of_lookup hE]
              have hle := adjWeight_cons_lookup g hE vis hcur
              omega

/-- With a consistent heuristic, any walk to an unvisited node has
`cost + h` at least the minimum frontier `f`-value. -/
theorem astar_frontier_bound {g : Graph} {s : NodeId} {hh : NodeId → ℚ}
    (hcons : ∀ p ∈ g.edges, ∀ q ∈ p.2, hh p.1 ≤ q.2 + hh q.1)
    {frontier : List (ℚ × ℚ × List NodeId)} {visited : List NodeId}
    (hI1 : ∀ e ∈ frontier, GoodEntryA g s hh e)
    (hI4 : s ∈ visited ∨ ∃ e ∈ frontier, lastOfA e = s ∧ e.2.1 ≤ 0)
    (hI7 : ∀ u ∈ visited, ∃ cu, RTrail g s u cu ∧
      (∀ c', RTrail g s u c' → cu ≤ c') ∧
      (∀ v wt, g.w u v = some wt → v ∈ visited ∨
        ∃ e ∈ frontier, lastOfA e = v ∧ e.2.1 ≤ cu + wt))
    {m : ℚ} (hmin : ∀ e ∈ frontier, m ≤ e.1)
    {v : NodeId} {c : ℚ} (hv : v ∉ visited) (ht : RTrail g s v c) :
    m ≤ c + hh v := by
  revert hv
  induction ht with
  | base =>
    intro hv
    rcases hI4 with hsv | ⟨e, he, hlast, hle⟩
    · exact absurd hsv hv
    · have hgood := hI1 e he
      have hf := hgood.2.2.2
      rw [hlast] at hf
      have h1 := hmin e he
      linarith
  | snoc hr hedge ih =>
    intro hv
    rename_i u v' c' w
    by_cases hu : u ∈ visited
    · obtain ⟨cu, _, hcumin, hcov⟩ := hI7 u hu
      rcases hcov _ _ hedge with hvv | ⟨e, he, hlast, hle⟩
      · exact absurd hvv hv
      · have hgood := hI1 e he
        have hf := hgood.2.2.2
        rw [hlast] at hf
        have h1 := hmin e he
        have h2 : cu ≤ c' := hcumin _ hr
        linarith
    · have h3 := ih hu
      obtain ⟨adjU, hmemE, hqm⟩ := w_mem hedge
      have h4 := hcons _ hmemE _ hqm
      linarith

/-- Master lemma for the A* loop with a consistent heuristic: a success
result carries a realized minimal cost. -/
theorem astarLoop_full {g : Graph} {s goal : NodeId} {hh : NodeId → ℚ}
    (hand : ∀ p ∈ g.edges, (p.2.map Prod.fst).Nodup)
    (hcons : ∀ p ∈ g.edges, ∀ q ∈ p.2, hh p.1 ≤ q.2 + hh q.1) :
    ∀ fuel frontier visited ex mx,
      (∀ e ∈ frontier, GoodEntryA g s hh e) →
      goal ∉ visited →
      (s ∈ visited ∨ ∃ e ∈ frontier, lastOfA e = s ∧ e.2.1 ≤ 0) →
      (∀ u ∈ visited, ∃ cu, RTrail g s u cu ∧
        (∀ c', RTrail g s u c' → cu ≤ c') ∧
        (∀ v wt, g.w u v = some wt → v ∈ visited ∨
          ∃ e ∈ frontier, lastOfA e = v ∧ e.2.1 ≤ cu + wt)) →
      frontier.length + adjWeight g visited < fuel →
      (astarLoop g hh goal fuel frontier visited ex mx).errorMsg = "" →
      ∃ c : ℚ,
        (astarLoop g hh goal fuel frontier visited ex mx).cost =
          (c : WithTop ℚ) ∧
        RTrail g s goal c ∧ ∀ c', RTrail g s goal c' → c ≤ c' := by
  intro fuel
  induction fuel with
  | zero =>
    intro fr vis ex mx _ _ _ _ hp
    omega
  | succ fuel ih =>
    intro fr vis ex mx hI1 hI3 hI4 hI7 hp
    cases hpop : popMinBy astarLt fr with
    | none =>
      have hfr : fr = [] := popMinBy_eq_none hpop
      subst hfr
      have hres : astarLoop g hh goal (fuel + 1) [] vis ex mx =
          ⟨⊤, [], ex, mx, "No path exists", 0⟩ := rfl
      rw [hres]
      intro hmsg
      exact absurd hmsg (show ("No path exists" : String) ≠ "" by decide)
    | some pr =>
      obtain ⟨⟨f, gc, path⟩, rest⟩ := pr
      have hmem : (f, gc, path) ∈ fr := popMinBy_mem hpop
      have hgood := hI1 _ hmem
      have hminf : ∀ y ∈ fr, f ≤ y.1 := by
        intro y hy
        exact pairLtQ_fst_le (popMinBy_min astarLt_strict hpop y hy)
      have hrsub : ∀ y ∈ rest, y ∈ fr := popMinBy_rest_subset hpop
      have hlen : fr.length = rest.length + 1 := popMinBy_length hpop
      simp only [astarLoop, hpop]
      by_cases hcur : path.getLastD "" ∈ vis
      · rw [if_pos hcur]
        refine ih rest vis ex (max mx fr.length) ?_ hI3 ?_ ?_ ?_
        · exact fun e he => hI1 e (hrsub e he)
        · rcases hI4 with h | ⟨e, he, hlast, hle⟩
          · exact Or.inl h
          · by_cases hse : e = (f, gc, path)
            · rw [hse] at hlast
              refine Or.inl ?_
              rw [← hlast]
              exact hcur
            · refine Or.inr ⟨e, ?_, hlast, hle⟩
              rcases List.mem_cons.mp ((popMinBy_perm hpop).mem_iff.mp he) with
                h3 | h3
              · exact absurd h3 hse
              · exact h3
        · intro u hu
          obtain ⟨cu, hreal, hmin2, hcov⟩ := hI7 u hu
          refine ⟨cu, hreal, hmin2, ?_⟩
          intro v wt hw2
          rcases hcov v wt hw2 with h | ⟨e, he, hlast, hle⟩
          · exact Or.inl h
          · by_cases hv2 : v ∈ vis
            · exact Or.inl hv2
            · have hne : e ≠ (f, gc, path) := by
                intro hx
                rw [hx] at hlast
                simp only [lastOfA] at hlast
                exact hv2 (hlast ▸ hcur)
              rcases List.mem_cons.mp
                  ((popMinBy_perm hpop).mem_iff.mp he) with h3 | h3
              · exact absurd h3 hne
              · exact Or.inr ⟨e, h3, hlast, hle⟩
        · omega
      · rw [if_neg hcur]
        by_cases hgoal : path.getLastD "" = goal
        · rw [if_pos hgoal]
          rw [if_pos hgood.2.1]
          intro _
          refine ⟨gc, rfl, ?_, ?_⟩
          · have h := goodEntryA_rtrail hgood
            rw [lastOfA] at h
            rw [hgoal] at h
            exact h
          · intro c' hc'
            rw [← hgoal] at hc'
            have hb := astar_frontier_bound hcons hI1 hI4 hI7 hminf hcur hc'
            have hf := hgood.2.2.2
            simp only [lastOfA] at hf
            linarith
        · rw [if_neg hgoal]
          refine ih _ _ (ex + 1) (max mx fr.length) ?_ ?_ ?_ ?_ ?_
          · intro e he
            rcases List.mem_append.mp he with h2 | h2
            · exact hI1 e (hrsub e h2)
            · obtain ⟨q, hq, hqe⟩ := List.mem_filterMap.mp h2
              by_cases hqm : q.1 ∈ path.getLastD "" :: vis
              · rw [if_pos hqm] at hqe
                exact Option.noConfusion hqe
              · rw [if_neg hqm] at hqe
                have hqe2 := Option.some.inj hqe
                have hedge : g.w (path.getLastD "") q.1 = some q.2 :=
                  w_of_mem_adj hand hq
                have hpne : path ≠ [] := ne_nil_of_head hgood.1
                rw [← hqe2]
                refine ⟨?_, ?_, ?_, ?_⟩
                · rw [head_append_single hpne]
                  exact hgood.1
                · exact validate_path_append hgood.2.1 rfl hedge
                · show trailCost g (path ++ [q.1]) = ratAdd gc q.2
                  rw [trailCost_append hpne rfl hedge, hgood.2.2.1, ratAdd_eq]
                · show ratAdd (ratAdd gc q.2) (hh q.1) =
                    ratAdd gc q.2 + hh ((path ++ [q.1]).getLastD "")
                  rw [getLastD_append_single, ratAdd_eq]
          · intro hmem2
            rcases List.mem_cons.mp hmem2 with h2 | h2
            · exact hgoal h2.symm
            · exact hI3 h2
          · rcases hI4 with h | ⟨e, he, hlast, hle⟩
            · exact Or.inl (List.mem_cons_of_mem _ h)
            · by_cases hse : s = path.getLastD ""
              · rw [hse]
                exact Or.inl (List.mem_cons_self _ _)
              · have hne : e ≠ (f, gc, path) := by
                  intro hx
                  rw [hx] at hlast
                  exact hse hlast.symm
                rcases List.mem_cons.mp
                    ((popMinBy_perm hpop).mem_iff.mp he) with h3 | h3
                · exact absurd h3 hne
                · exact Or.inr ⟨e, List.mem_append_left _ h3, hlast, hle⟩
          · intro u hu
            rcases List.mem_cons.mp hu with rfl | hu2
            · refine ⟨gc, ?_, ?_, ?_⟩
              · have h := goodEntryA_rtrail hgood
                rw [lastOfA] at h
                exact h
              · intro c' hc'
                have hb := astar_frontier_bound hcons hI1 hI4 hI7 hminf hcur hc'
                have hf := hgood.2.2.2
                simp only [lastOfA] at hf
                linarith
              · intro v wt hw2
                by_cases hv2 : v ∈ path.getLastD "" :: vis
                · exact Or.inl hv2
                · refine Or.inr ⟨(ratAdd (ratAdd gc wt) (hh v), ratAdd gc wt,
                    path ++ [v]), ?_, ?_, ?_⟩
                  · refine List.mem_append_right _ ?_
                    refine List.mem_filterMap.mpr ⟨(v, wt), ?_, ?_⟩
                    · unfold Graph.w at hw2
                      exact lookupK_mem _ _ _ hw2
                    · rw [if_neg hv2]
                  · exact getLastD_append_single _ _ _
                  · show ratAdd gc wt ≤ gc + wt
                    rw [ratAdd_eq]
            · obtain ⟨cu, hreal, hmin2, hcov⟩ := hI7 u hu2
              refine ⟨cu, hreal, hmin2, ?_⟩
              intro v wt hw2
              rcases hcov v wt hw2 with h | ⟨e, he, hlast, hle⟩
              · exact Or.inl (List.mem_cons_of_mem _ h)
              · by_cases hv2 : v = path.getLastD ""
                · rw [hv2]
                  exact Or.inl (List.mem_cons_self _ _)
                · have hne : e ≠ (f, gc, path) := by
                    intro hx
                    rw [hx] at hlast
                    exact hv2 hlast.symm
                  rcases List.mem_cons.mp
                      ((popMinBy_perm hpop).mem_iff.mp he) with h3 | h3
                  · exact absurd h3 hne
                  · exact Or.inr ⟨e, List.mem_append_left _ h3, hlast, hle⟩
          · have hpu : ((g.adj (path.getLastD "")).filterMap (fun q =>
                if q.1 ∈ path.getLastD "" :: vis then none
                else some (ratAdd (ratAdd gc q.2) (hh q.1), ratAdd gc q.2,
                  path ++ [q.1]))).length ≤
                (g.adj (path.getLastD "")).length :=
              List.length_filterMap_le _ _
            simp only [List.length_append]
            cases hE : lookupK g.edges (path.getLastD "") with
            | none =>
              have hadj : (g.adj (path.getLastD "")).length = 0 := by
                rw [adj_of_lookup_none hE]
                rfl
              have hle := adjWeight_cons_le g (path.getLastD "") vis
              omega
            | some A =>
              have hadj : (g.adj (path.getLastD "")).length = A.length := by
                rw [Graph.adj_of_lookup hE]
              have hle := adjWeight_cons_lookup g hE vis hcur
              omega

/-- Top-level `a_star_search` on present endpoints: it succeeds exactly
when the goal is reachable (for any Haversine oracle), and when the
induced heuristic is in addition consistent on the stored edges, a
reachable goal yields a realized minimal cost. -/
theorem a_star_search_correct {g : Graph} {hav : ℚ → ℚ → ℚ → ℚ → ℚ}
    {start goal : NodeId}
    (hw : ∀ p ∈ g.edges, ∀ q ∈ p.2, 0 ≤ q.2)
    (hand : ∀ p ∈ g.edges, (p.2.map Prod.fst).Nodup)
    (hs : g.hasNode start = true) (ht : g.hasNode goal = true) :
    (((a_star_search g hav start goal).errorMsg = "" ∧
        (a_star_search g hav start goal).path ≠ []) ↔ Reach g start goal) ∧
    ((∀ p ∈ g.edges, ∀ q ∈ p.2,
        heurOf g hav goal p.1 ≤ q.2 + heurOf g hav goal q.1) →
      Reach g start goal → ∃ c : ℚ,
        (a_star_search g hav start goal).cost = (c : WithTop ℚ) ∧
        RTrail g start goal c ∧ ∀ c', RTrail g start goal c' → c ≤ c') ∧
    (¬ Reach g start goal → a_star_search g hav start goal =
      ⟨⊤, [], 0, 0, "No path exists from " ++ start ++ " to " ++ goal, 0⟩) := by
  unfold a_star_search
  rw [if_neg (fun hx => hx hs), if_neg (fun hx => hx ht)]
  by_cases hsg : start = goal
  · rw [if_pos hsg]
    subst hsg
    refine ⟨⟨fun _ => ⟨0, RTrail.base⟩, fun _ => ⟨rfl, by simp⟩⟩, ?_, ?_⟩
    · intro _ _
      exact ⟨0, rfl, RTrail.base, fun c' hc' => rtrail_nonneg hw hc'⟩
    · intro hnr
      exact absurd ⟨0, RTrail.base⟩ hnr
  · rw [if_neg hsg]
    by_cases hcc : check_connectivity g start goal = true
    · rw [if_neg (fun hx => hx hcc)]
      have hreach := (check_connectivity_eq_true_iff hs ht).mp hcc
      have hgood0 : ∀ e ∈ [(heurOf g hav goal start, (0 : ℚ), [start])],
          GoodEntryA g start (heurOf g hav goal) e := by
        intro e he
        rcases List.mem_singleton.mp he with rfl
        exact ⟨rfl, rfl, rfl, (zero_add _).symm⟩
      have hfuel : ([(heurOf g hav goal start, (0 : ℚ), [start])].length +
          adjWeight g [] < searchFuel g) := by
        rw [searchFuel]
        simp only [List.length_singleton]
        omega
      have hlite := astarLoop_lite hand (searchFuel g)
        [(heurOf g hav goal start, (0 : ℚ), [start])] [] 0 0
        hgood0 (List.not_mem_nil goal)
        (Or.inr ⟨_, List.mem_singleton_self _, rfl⟩)
        (by
          intro u hu
          exact absurd hu (List.not_mem_nil u))
        hfuel
      refine ⟨⟨?_, ?_⟩, ?_, ?_⟩
      · intro ⟨hmsg, _⟩
        obtain ⟨_, c, _, hrt⟩ := hlite.1 hmsg
        exact ⟨c, hrt⟩
      · intro _
        have hmsg := hlite.2 hreach
        exact ⟨hmsg, (hlite.1 hmsg).1⟩
      · intro hcons _
        have hmsg := hlite.2 hreach
        exact astarLoop_full hand hcons (searchFuel g)
          [(heurOf g hav goal start, (0 : ℚ), [start])] [] 0 0
          hgood0 (List.not_mem_nil goal)
          (Or.inr ⟨_, List.mem_singleton_self _, rfl, le_refl 0⟩)
          (by
            intro u hu
            exact absurd hu (List.not_mem_nil u))
          hfuel hmsg
      · intro hnr
        exact absurd hreach hnr
    · rw [if_pos hcc]
      refine ⟨⟨?_, ?_⟩, ?_, ?_⟩
      · intro ⟨_, hpath⟩
        exact absurd rfl hpath
      · intro hreach
        exact absurd ((check_connectivity_eq_true_iff hs ht).mpr hreach) hcc
      · intro _ hreach
        exact absurd ((check_connectivity_eq_true_iff hs ht).mpr hreach) hcc
      · intro _
        rfl

/-! ## Claim C1: UCS / A* optimality agreement -/

/-- Seven-node graph with uniform edge cost 1.  The optimal `S`–`G`
route runs `S,P1,P2,P3,G` (cost 4); the detour through `D1,D2` costs 5. -/
def cexGraph : Graph :=
  ⟨[("S", (1, 0)), ("P1", (2, 0)), ("P2", (3, 0)), ("P3", (4, 0)),
    ("G", (5, 0)), ("D1", (6, 0)), ("D2", (7, 0))],
   [("S", [("P1", 1), ("D1", 1)]),
    ("P1", [("S", 1), ("P2", 1)]),
    ("P2", [("P1", 1), ("P3", 1), ("D2", 1)]),
    ("P3", [("P2", 1), ("G", 1)]),
    ("G", [("P3", 1)]),
    ("D1", [("S", 1), ("D2", 1)]),
    ("D2", [("D1", 1), ("P2", 1)])]⟩

/-- Haversine oracle values keyed on the node latitude: `h(P1) = 3`,
`h(P2) = 1/2`, all other nodes 0 — admissible but not consistent
(`h(P1) = 3 > 1 + h(S) = 1`). -/
def cexHav : ℚ → ℚ → ℚ → ℚ → ℚ := fun la _ _ _ =>
  if la = 2 then 3 else if la = 3 then mkRat 1 2 else 0

/-- True remaining distance to `G` in `cexGraph`, used as the feasible
potential certifying admissibility. -/
def cexPot : NodeId → ℚ := fun v =>
  if v = "S" then 4 else if v = "P1" then 3 else if v = "P2" then 2
  else if v = "P3" then 1 else if v = "G" then 0 else if v = "D1" then 4
  else if v = "D2" then 3 else 0

/-- C1 (counterexample to the claim as stated): on a valid graph with
uniform positive edge costs and an admissible (never overestimating)
Haversine heuristic, `ucs_search` returns the minimum cost 4 while
`a_star_search` returns 5 — the closed list without reopening drops the
cheaper route when the admissible-but-inconsistent heuristic misleads
the first expansion of `P2`. -/
theorem ucs_astar_counterexample :
    Graph.WF cexGraph ∧ Graph.InvOrig cexGraph ∧
    (∀ p ∈ cexGraph.edges, ∀ q ∈ p.2, q.2 = 1) ∧ (0 : ℚ) < 1 ∧
    (∀ v c', RTrail cexGraph v "G" c' → heurOf cexGraph cexHav "G" v ≤ c') ∧
    (ucs_search cexGraph "S" "G").cost = ((4 : ℚ) : WithTop ℚ) ∧
    (a_star_search cexGraph cexHav "S" "G").cost = ((5 : ℚ) : WithTop ℚ) ∧
    (ucs_search cexGraph "S" "G").cost ≠
      (a_star_search cexGraph cexHav "S" "G").cost := by
  refine ⟨by decide, by decide, by decide, by decide, ?_, by decide,
    by decide, by decide⟩
  intro v c' hrt
  have hw : ∀ p ∈ cexGraph.edges, ∀ q ∈ p.2, (0 : ℚ) ≤ q.2 := by decide
  have hfeas : ∀ p ∈ cexGraph.edges, ∀ q ∈ p.2,
      cexPot p.1 ≤ q.2 + cexPot q.1 := by
    intro p hp q hq
    have h := (show ∀ p ∈ cexGraph.edges, ∀ q ∈ p.2,
        cexPot p.1 ≤ ratAdd q.2 (cexPot q.1) by decide) p hp q hq
    rwa [ratAdd_eq] at h
  have hpot := rtrail_potential cexPot hfeas hrt
  have hg0 : cexPot "G" = 0 := rfl
  rw [hg0, add_zero] at hpot
  rcases rtrail_out_edge hrt with rfl | ⟨x, w, hxw⟩
  · rw [show heurOf cexGraph cexHav "G" "G" = 0 from rfl]
    exact rtrail_nonneg hw hrt
  · obtain ⟨adjV, hmemE, _⟩ := w_mem hxw
    have hkey : v ∈ cexGraph.edges.map Prod.fst :=
      List.mem_map_of_mem Prod.fst hmemE
    have hhle : heurOf cexGraph cexHav "G" v ≤ cexPot v :=
      (show ∀ x ∈ cexGraph.edges.map Prod.fst,
        heurOf cexGraph cexHav "G" x ≤ cexPot x by decide) v hkey
    linarith

/-- C1 (amended): with uniform positive edge costs and a heuristic that
is moreover consistent on every stored edge, `ucs_search` and
`a_star_search` return equal costs for every start/goal pair present in
the graph, and on reachable pairs that cost is the realized minimum
walk cost. -/
theorem ucs_astar_agree (g : Graph) (hav : ℚ → ℚ → ℚ → ℚ → ℚ)
    (start goal : NodeId) (c : ℚ) (hwf : g.WF)
    (hs : g.hasNode start = true) (ht : g.hasNode goal = true)
    (hc : 0 < c) (huni : ∀ p ∈ g.edges, ∀ q ∈ p.2, q.2 = c)
    (hcons : ∀ p ∈ g.edges, ∀ q ∈ p.2,
      heurOf g hav goal p.1 ≤ ratAdd q.2 (heurOf g hav goal q.1)) :
    (ucs_search g start goal).cost = (a_star_search g hav start goal).cost ∧
    (Reach g start goal → ∃ cmin : ℚ,
      (ucs_search g start goal).cost = (cmin : WithTop ℚ) ∧
      RTrail g start goal cmin ∧
      ∀ c', RTrail g start goal c' → cmin ≤ c') := by
  have hw : ∀ p ∈ g.edges, ∀ q ∈ p.2, (0 : ℚ) ≤ q.2 := by
    intro p hp q hq
    rw [huni p hp q hq]
    exact hc.le
  have hcons2 : ∀ p ∈ g.edges, ∀ q ∈ p.2,
      heurOf g hav goal p.1 ≤ q.2 + heurOf g hav goal q.1 := by
    intro p hp q hq
    have h := hcons p hp q hq
    rwa [ratAdd_eq] at h
  have hand := hwf.2.2
  have hu := ucs_search_correct hw hand hs ht
  have ha := @a_star_search_correct g hav start goal hw hand hs ht
  constructor
  · by_cases hreach : Reach g start goal
    · obtain ⟨cu, hcu, hrtu, hminu⟩ := hu.2.1 hreach
      obtain ⟨ca, hca, hrta, hmina⟩ := ha.2.1 hcons2 hreach
      rw [hcu, hca]
      have heq : cu = ca := le_antisymm (hminu ca hrta) (hmina cu hrtu)
      rw [heq]
    · rw [hu.2.2 hreach, ha.2.2 hreach]
  · intro hreach
    exact hu.2.1 hreach

/-- C1 witness: on a two-node graph with a single edge of cost 5 and
the zero heuristic (consistent), both searches return the same minimal
cost. -/
theorem ucs_astar_agree_witness :
    (ucs_search ⟨[("A", (0, 0)), ("B", (0, 0))],
        [("A", [("B", 5)]), ("B", [("A", 5)])]⟩ "A" "B").cost =
      (a_star_search ⟨[("A", (0, 0)), ("B", (0, 0))],
        [("A", [("B", 5)]), ("B", [("A", 5)])]⟩
        (fun _ _ _ _ => 0) "A" "B").cost ∧
    (Reach ⟨[("A", (0, 0)), ("B", (0, 0))],
        [("A", [("B", 5)]), ("B", [("A", 5)])]⟩ "A" "B" →
      ∃ cmin : ℚ,
        (ucs_search ⟨[("A", (0, 0)), ("B", (0, 0))],
          [("A", [("B", 5)]), ("B", [("A", 5)])]⟩ "A" "B").cost =
          (cmin : WithTop ℚ) ∧
        RTrail ⟨[("A", (0, 0)), ("B", (0, 0))],
          [("A", [("B", 5)]), ("B", [("A", 5)])]⟩ "A" "B" cmin ∧
        ∀ c', RTrail ⟨[("A", (0, 0)), ("B", (0, 0))],
          [("A", [("B", 5)]), ("B", [("A", 5)])]⟩ "A" "B" c' → cmin ≤ c') :=
  ucs_astar_agree _ (fun _ _ _ _ => 0) "A" "B" 5 (by decide) rfl rfl
    (by decide) (by decide) (by decide)

/-! ## Claim C5: frontier exhaustion result -/

/-- C5 (counterexample to the claim as stated): a UCS run on a graph
where the goal is unreachable exhausts its frontier and reports cost
`float('inf')` (`⊤`) — not zero — with message `"No path exists"`; the
top-level search likewise reports infinite cost from its pre-check. -/
theorem search_exhaustion_counterexample :
    ucsLoop ⟨[("A", (0, 0)), ("B", (0, 0))], [("A", []), ("B", [])]⟩ "B" 4
        [((0 : ℚ), ["A"])] [] 0 0 = ⟨⊤, [], 1, 1, "No path exists", 0⟩ ∧
    astarLoop ⟨[("A", (0, 0)), ("B", (0, 0))], [("A", []), ("B", [])]⟩
        (fun _ => 0) "B" 4 [((0 : ℚ), (0 : ℚ), ["A"])] [] 0 0 =
      ⟨⊤, [], 1, 1, "No path exists", 0⟩ ∧
    (⊤ : WithTop ℚ) ≠ ((0 : ℚ) : WithTop ℚ) ∧
    ucs_search ⟨[("A", (0, 0)), ("B", (0, 0))], [("A", []), ("B", [])]⟩
        "A" "B" = ⟨⊤, [], 0, 0, "No path exists from A to B", 0⟩ := by
  refine ⟨by decide, by decide, by decide, by decide⟩

/-- C5 (amended): exhausting the best-first frontier without finalizing
the goal returns the failure
`(float('inf'), [], nodes_expanded, max_frontier, "No path exists", 0)`
— the reported cost is infinite, not zero — in both `ucs_search` and
`a_star_search`. -/
theorem search_exhaustion_returns_inf :
    ∀ (g : Graph) (hh : NodeId → ℚ) (goal : NodeId) (vis : List NodeId)
      (ex mx fuel : ℕ),
      ucsLoop g goal (fuel + 1) [] vis ex mx =
        ⟨⊤, [], ex, mx, "No path exists", 0⟩ ∧
      astarLoop g hh goal (fuel + 1) [] vis ex mx =
        ⟨⊤, [], ex, mx, "No path exists", 0⟩ ∧
      (⊤ : WithTop ℚ) ≠ ((0 : ℚ) : WithTop ℚ) :=
  fun _ _ _ _ _ _ _ => ⟨rfl, rfl, by decide⟩

/-! ## Scoring and optimal-path selection

`compute_scores` and `find_optimal_path` are embedded with the JSON
file loads replaced by explicit `graph`/`attributes` arguments, the
Haversine oracle `hav`, and the wall clock `now`.  Python raising
`TypeError` on unorderable or non-numeric factor values is modelled by
`Option` (`none` = the exception propagates to `find_optimal_path`'s
`except` handler); the wall-clock and memory entries of the result
metrics are not modelled. -/

/-- `COST_FACTORS = {'price', 'distance'}`. -/
def COST_FACTORS : List String := ["price", "distance"]

/-- Numeric view of a Python value (`bool` counts as 0/1). -/
def pyNum : PyVal → Option ℚ
  | .pyBool b => some (if b then 1 else 0)
  | .pyInt n => some ((n : ℚ))
  | .pyFloat q => some q
  | _ => none

/-- Python `a < b` on attribute values: numbers compare numerically,
strings lexicographically, anything else raises (`none`). -/
def pyLt (a b : PyVal) : Option Bool :=
  match pyNum a, pyNum b with
  | some x, some y => some (decide (x < y))
  | _, _ =>
    match a, b with
    | .pyStr s, .pyStr t => some (strLtB s t)
    | _, _ => none

/-- Python `a <= b` on attribute values. -/
def pyLe (a b : PyVal) : Option Bool :=
  match pyNum a, pyNum b with
  | some x, some y => some (decide (x ≤ y))
  | _, _ =>
    match a, b with
    | .pyStr s, .pyStr t => some (!strLtB t s)
    | _, _ => none

/-- Python `min(a, b)`. -/
def pyMin2 (a b : PyVal) : Option PyVal :=
  (pyLt b a).map (fun lt => if lt then b else a)

/-- Python `max(a, b)`. -/
def pyMax2 (a b : PyVal) : Option PyVal :=
  (pyLt a b).map (fun lt => if lt then b else a)

/-- Python `min(values)` over a metrics list. -/
def pyMinList : List PyVal → Option PyVal
  | [] => none
  | v :: vs =>
    vs.foldlM (fun acc x => (pyLt x acc).map (fun b => if b then x else acc)) v

/-- Python `max(values)` over a metrics list. -/
def pyMaxList : List PyVal → Option PyVal
  | [] => none
  | v :: vs =>
    vs.foldlM (fun acc x => (pyLt acc x).map (fun b => if b then x else acc)) v

/-- `normalize_value` as invoked by `compute_scores` on raw attribute
values: the comparisons follow Python semantics and the subtraction
raises (`none`) on non-numeric operands. -/
def normalize_value_py (value min_val max_val : PyVal) (invert : Bool) :
    Option ℚ := do
  let le ← pyLe max_val min_val
  if le then pure (mkRat 1 2)
  else do
    let m1 ← pyMin2 value max_val
    let clamped ← pyMax2 min_val m1
    let c ← pyNum clamped
    let mn ← pyNum min_val
    let mx ← pyNum max_val
    let normalized := ratDiv (ratSub c mn) (ratSub mx mn)
    pure (if invert then ratSub 1 normalized else normalized)

/-- `.get('hours', '')` on an eatery record. -/
def hoursOf (data : List (String × PyVal)) : PyVal :=
  (lookupK data "hours").getD (.pyStr "")

/-- The open eateries present in the graph, in attribute order. -/
def eateryNodes (attributes : Attrs) (g : Graph) (now : ℕ) : List String :=
  (attributes.filter (fun p =>
    g.hasNode p.1 && is_open (hoursOf p.2) now)).map Prod.fst

/-- Haversine distance from the start to an eatery (coordinates of
present nodes; the guard in the callers keeps the defaults dead). -/
def distOf (g : Graph) (hav : ℚ → ℚ → ℚ → ℚ → ℚ)
    (start_node e : String) : ℚ :=
  let sc := (lookupK g.nodes start_node).getD (0, 0)
  let ec := (lookupK g.nodes e).getD (0, 0)
  hav sc.1 sc.2 ec.1 ec.2

/-- `attributes[e]` (callers only use present keys). -/
def dataOf (attributes : Attrs) (e : String) : List (String × PyVal) :=
  (lookupK attributes e).getD []

/-- The metrics list collected for one factor, in eatery order. -/
def metricsFor (attributes : Attrs) (g : Graph)
    (hav : ℚ → ℚ → ℚ → ℚ → ℚ) (now : ℕ) (start_node : String)
    (factor : String) : List PyVal :=
  if factor = "distance" then
    (eateryNodes attributes g now).map
      (fun e => PyVal.pyFloat (distOf g hav start_node e))
  else
    (eateryNodes attributes g now).filterMap
      (fun e => lookupK (dataOf attributes e) factor)

/-- The `min_max` dictionary: per factor with non-empty metrics, its
minimum, maximum and cost-inversion flag. -/
def minMaxOf (weights : List (String × ℚ)) (mf : String → List PyVal) :
    Option (List (String × PyVal × PyVal × Bool)) :=
  weights.foldlM (fun acc p =>
    if mf p.1 = [] then pure acc
    else do
      let mn ← pyMinList (mf p.1)
      let mx ← pyMaxList (mf p.1)
      pure (acc ++ [(p.1, mn, mx, decide (p.1 ∈ COST_FACTORS))])) []

/-- The value of one factor for one eatery (`None` when absent). -/
def factorValue (dist : ℚ) (data : List (String × PyVal))
    (factor : String) : Option PyVal :=
  if factor = "distance" then some (.pyFloat dist)
  else lookupK data factor

/-- One eatery's weighted total score. -/
def eateryScore (mm : List (String × PyVal × PyVal × Bool)) (dist : ℚ)
    (data : List (String × PyVal)) : List (String × ℚ) → Option ℚ
  | [] => some 0
  | (factor, weight) :: rest => do
    let total ← eateryScore mm dist data rest
    match factorValue dist data factor with
    | none => pure total
    | some value =>
      match lookupK mm factor with
      | none => pure total
      | some (mn, mx, inv) => do
        let normalized ← normalize_value_py value mn mx inv
        pure (ratAdd total (ratMul weight normalized))

/-- The scores dictionary over the eatery list, rounded to 4 decimals. -/
def scoresOf (score : String → Option ℚ) :
    List String → Option (List (String × ℚ))
  | [] => some []
  | e :: es => do
    let v ← score e
    let rest ← scoresOf score es
    pure ((e, pyRound4 v) :: rest)

/-- `compute_scores(attributes, graph, start_node, custom_weights)`. -/
def compute_scores (attributes : Attrs) (g : Graph) (start_node : String)
    (custom_weights : List (String × ℚ)) (hav : ℚ → ℚ → ℚ → ℚ → ℚ)
    (now : ℕ) : Option (List (String × ℚ)) :=
  let weights := if custom_weights = [] then DEFAULT_WEIGHTS
    else custom_weights
  if eateryNodes attributes g now = [] then some []
  else
    match minMaxOf weights (metricsFor attributes g hav now start_node) with
    | none => none
    | some mm =>
      scoresOf (fun e => eateryScore mm (distOf g hav start_node e)
        (dataOf attributes e) weights) (eateryNodes attributes g now)

/-- One insertion step of the stable descending sort
`sorted(scores.items(), key=lambda x: x[1], reverse=True)`: a new item
goes after every existing item of greater-or-equal score. -/
def insertDesc (x : String × ℚ) : List (String × ℚ) → List (String × ℚ)
  | [] => [x]
  | y :: ys => if y.2 < x.2 then x :: y :: ys else y :: insertDesc x ys

/-- The stable descending sort of the scores. -/
def sortDesc (l : List (String × ℚ)) : List (String × ℚ) :=
  l.foldl (fun acc x => insertDesc x acc) []

theorem mem_insertDesc {x p : String × ℚ} :
    ∀ {acc : List (String × ℚ)}, p ∈ insertDesc x acc → p = x ∨ p ∈ acc := by
  intro acc
  induction acc with
  | nil =>
    intro h
    rcases List.mem_singleton.mp h with rfl
    exact Or.inl rfl
  | cons y ys ih =>
    intro h
    rw [insertDesc] at h
    by_cases hc : y.2 < x.2
    · rw [if_pos hc] at h
      rcases List.mem_cons.mp h with rfl | h2
      · exact Or.inl rfl
      · exact Or.inr h2
    · rw [if_neg hc] at h
      rcases List.mem_cons.mp h with rfl | h2
      · exact Or.inr (List.mem_cons_self _ _)
      · rcases ih h2 with h3 | h3
        · exact Or.inl h3
        · exact Or.inr (List.mem_cons_of_mem _ h3)

theorem mem_sortDesc {l : List (String × ℚ)} {p : String × ℚ}
    (h : p ∈ sortDesc l) : p ∈ l := by
  have haux : ∀ (t : List (String × ℚ)) (acc : List (String × ℚ)),
      p ∈ t.foldl (fun a x => insertDesc x a) acc → p ∈ acc ∨ p ∈ t := by
    intro t
    induction t with
    | nil =>
      intro acc hp
      exact Or.inl hp
    | cons x ts ih =>
      intro acc hp
      rcases ih (insertDesc x acc) hp with h2 | h2
      · rcases mem_insertDesc h2 with rfl | h3
        · exact Or.inr (List.mem_cons_self _ _)
        · exact Or.inl h3
      · exact Or.inr (List.mem_cons_of_mem _ h2)
  rcases haux l [] h with h2 | h2
  · cases h2
  · exact h2

theorem scoresOf_keys {score : String → Option ℚ} :
    ∀ {l : List String} {out : List (String × ℚ)},
      scoresOf score l = some out → ∀ p ∈ out, p.1 ∈ l := by
  intro l
  induction l with
  | nil =>
    intro out h p hp
    rw [scoresOf] at h
    rw [← Option.some.inj h] at hp
    cases hp
  | cons e es ih =>
    intro out h p hp
    rw [scoresOf] at h
    cases hv : score e with
    | none =>
      rw [hv] at h
      exact Option.noConfusion h
    | some v =>
      rw [hv] at h
      cases hrest : scoresOf score es with
      | none =>
        rw [hrest] at h
        exact Option.noConfusion h
      | some rest =>
        rw [hrest] at h
        simp only [Option.bind_some, Option.pure_def] at h
        rw [← Option.some.inj h] at hp
        rcases List.mem_cons.mp hp with rfl | h2
        · exact List.mem_cons_self _ _
        · exact List.mem_cons_of_mem _ (ih hrest p h2)

theorem eateryNodes_hasNode {attributes : Attrs} {g : Graph} {now : ℕ}
    {e : String} (h : e ∈ eateryNodes attributes g now) :
    g.hasNode e = true := by
  rw [eateryNodes] at h
  obtain ⟨q, hq, hfst⟩ := List.mem_map.mp h
  obtain ⟨_, hcond⟩ := List.mem_filter.mp hq
  rw [Bool.and_eq_true] at hcond
  rw [← hfst]
  exact hcond.1

theorem compute_scores_hasNode {attributes : Attrs} {g : Graph}
    {start_node : String} {custom_weights : List (String × ℚ)}
    {hav : ℚ → ℚ → ℚ → ℚ → ℚ} {now : ℕ} {scores : List (String × ℚ)}
    (hsc : compute_scores attributes g start_node custom_weights hav now =
      some scores) :
    ∀ p ∈ scores, g.hasNode p.1 = true := by
  intro p hp
  rw [compute_scores] at hsc
  split at hsc
  · rw [← Option.some.inj hsc] at hp
    cases hp
  · split at hsc
    · exact Option.noConfusion hsc
    · exact eateryNodes_hasNode (scoresOf_keys hsc p hp)

/-- The result dictionary of `find_optimal_path`: either the success
record or `{"error": msg}`.  The `execution_time` and `peak_memory_kb`
metrics entries (wall clock and memory) are not modelled. -/
inductive FindResult where
  | ok (start goal : String) (goalScore : ℚ) (path : List String)
      (cost : WithTop ℚ) (algorithm : String)
      (eateryInfo : List (String × PyVal))
      (weightsUsed : List (String × ℚ)) (openStatus : String)
      (distance : ℚ) (nodesExpanded maxFrontier : ℕ)
  | err (msg : String)
  deriving DecidableEq

/-- `convert_ranks_to_weights(custom_ranks) if custom_ranks else
DEFAULT_WEIGHTS`. -/
def weightsChoice (custom_ranks : List (String × PyVal)) :
    List (String × ℚ) :=
  if custom_ranks = [] then DEFAULT_WEIGHTS
  else convert_ranks_to_weights custom_ranks

/-- The candidate loop of `find_optimal_path`: run the chosen search
against each sorted candidate and return on the first success. -/
def tryCandidates (g : Graph) (attributes : Attrs)
    (hav : ℚ → ℚ → ℚ → ℚ → ℚ) (now : ℕ)
    (start_node algorithm : String) (weights : List (String × ℚ)) :
    List (String × ℚ) → FindResult
  | [] => .err "No reachable eateries found among top candidates"
  | (eatery_id, score) :: rest =>
    if algorithm = "ucs" ∨ algorithm = "astar" then
      let r := if algorithm = "ucs" then ucs_search g start_node eatery_id
        else a_star_search g hav start_node eatery_id
      if r.errorMsg = "" ∧ r.path ≠ [] then
        .ok start_node eatery_id score r.path r.cost algorithm
          (dataOf attributes eatery_id) weights
          (if is_open (hoursOf (dataOf attributes eatery_id)) now
            then "Open" else "Closed")
          (distOf g hav start_node eatery_id)
          r.nodesExpanded r.maxFrontier
      else
        tryCandidates g attributes hav now start_node algorithm weights rest
    else .err "Invalid algorithm. Choose 'ucs' or 'astar'"

/-- `find_optimal_path(start_node, algorithm, custom_ranks)` over the
explicit data stores.  The `load_graph`/`load_attributes` error
branches are not modelled (data is passed in), and the text after
`"Unexpected error"` is truncated. -/
def find_optimal_path (g : Graph) (attributes : Attrs)
    (hav : ℚ → ℚ → ℚ → ℚ → ℚ) (now : ℕ)
    (start_node algorithm : String)
    (custom_ranks : List (String × PyVal)) : FindResult :=
  if ¬ g.hasNode start_node then
    .err ("Start node '" ++ start_node ++ "' not found")
  else
    match compute_scores attributes g start_node
        (weightsChoice custom_ranks) hav now with
    | none => .err "Unexpected error"
    | some scores =>
      if scores = [] then .err "No valid eateries found"
      else
        tryCandidates g attributes hav now start_node algorithm
          (weightsChoice custom_ranks) (sortDesc scores)

/-- The candidate loop returns the first candidate whose connectivity
check (equivalently, reachability) succeeds, and the fixed failure
message when none does. -/
theorem tryCandidates_spec (g : Graph) (attributes : Attrs)
    (hav : ℚ → ℚ → ℚ → ℚ → ℚ) (now : ℕ)
    (start_node algorithm : String) (weights : List (String × ℚ))
    (hw : ∀ p ∈ g.edges, ∀ q ∈ p.2, 0 ≤ q.2)
    (hand : ∀ p ∈ g.edges, (p.2.map Prod.fst).Nodup)
    (hstart : g.hasNode start_node = true)
    (halg : algorithm = "ucs" ∨ algorithm = "astar") :
    ∀ l : List (String × ℚ), (∀ p ∈ l, g.hasNode p.1 = true) →
      (match l.find? (fun p => check_connectivity g start_node p.1) with
       | some pr => ∃ path cost info st d ne mf,
           tryCandidates g attributes hav now start_node algorithm weights l =
             .ok start_node pr.1 pr.2 path cost algorithm info weights
               st d ne mf
       | none =>
           tryCandidates g attributes hav now start_node algorithm weights l =
             .err "No reachable eateries found among top candidates") := by
  intro l
  induction l with
  | nil =>
    intro _
    rw [List.find?_nil]
    rfl
  | cons hd rest ih =>
    intro hmem
    obtain ⟨eid, sc⟩ := hd
    have heid : g.hasNode eid = true := hmem _ (List.mem_cons_self _ _)
    have hsucc_iff : (((if algorithm = "ucs" then
          ucs_search g start_node eid
        else a_star_search g hav start_node eid)).errorMsg = "" ∧
        ((if algorithm = "ucs" then ucs_search g start_node eid
          else a_star_search g hav start_node eid)).path ≠ []) ↔
        Reach g start_node eid := by
      rcases halg with rfl | rfl
      · rw [if_pos rfl]
        exact (ucs_search_correct hw hand hstart heid).1
      · rw [if_neg (by decide)]
        exact (@a_star_search_correct g hav start_node eid hw hand
          hstart heid).1
    by_cases hcc : check_connectivity g start_node eid = true
    · rw [@List.find?_cons_of_pos (String × ℚ)
        (fun q => check_connectivity g start_node q.1) (eid, sc) rest hcc]
      have hreach := (check_connectivity_eq_true_iff hstart heid).mp hcc
      have hsucc := hsucc_iff.mpr hreach
      show ∃ path cost info st d ne mf,
        tryCandidates g attributes hav now start_node algorithm weights
          ((eid, sc) :: rest) =
        .ok start_node eid sc path cost algorithm info weights st d ne mf
      simp only [tryCandidates]
      rw [if_pos halg, if_pos hsucc]
      exact ⟨_, _, _, _, _, _, _, rfl⟩
    · rw [@List.find?_cons_of_neg (String × ℚ)
        (fun q => check_connectivity g start_node q.1) (eid, sc) rest hcc]
      have hnr : ¬ Reach g start_node eid :=
        fun hr => hcc ((check_connectivity_eq_true_iff hstart heid).mpr hr)
      have hfail : ¬ (((if algorithm = "ucs" then
          ucs_search g start_node eid
        else a_star_search g hav start_node eid)).errorMsg = "" ∧
        ((if algorithm = "ucs" then ucs_search g start_node eid
          else a_star_search g hav start_node eid)).path ≠ []) :=
        fun hsucc => hnr (hsucc_iff.mp hsucc)
      have hstep : tryCandidates g attributes hav now start_node algorithm
          weights ((eid, sc) :: rest) =
          tryCandidates g attributes hav now start_node algorithm weights
            rest := by
        simp only [tryCandidates]
        rw [if_pos halg, if_neg hfail]
      rw [hstep]
      exact ih (fun p hp => hmem p (List.mem_cons_of_mem _ hp))

/-- C2: with a valid positively-weighted graph, a present start node, a
valid algorithm name and a successfully computed non-empty score
dictionary, `find_optimal_path` returns a success record whose goal is
the first candidate of the descending-score order that is reachable
from the start (connectivity of each candidate being equivalent to
reachability), and the failure
`"No reachable eateries found among top candidates"` exactly when no
scored candidate is reachable — per-candidate unreachability only moves
the loop to the next candidate. -/
theorem find_optimal_first_reachable (g : Graph) (attributes : Attrs)
    (hav : ℚ → ℚ → ℚ → ℚ → ℚ) (now : ℕ) (start_node algorithm : String)
    (custom_ranks : List (String × PyVal)) (scores : List (String × ℚ))
    (hwf : g.WF) (hpos : g.PosWeights)
    (hstart : g.hasNode start_node = true)
    (halg : algorithm = "ucs" ∨ algorithm = "astar")
    (hsc : compute_scores attributes g start_node
      (weightsChoice custom_ranks) hav now = some scores)
    (hne : scores ≠ []) :
    (∀ p ∈ sortDesc scores,
      (check_connectivity g start_node p.1 = true ↔
        Reach g start_node p.1)) ∧
    (match (sortDesc scores).find?
        (fun p => check_connectivity g start_node p.1) with
     | some pr => ∃ path cost info st d ne mf,
         find_optimal_path g attributes hav now start_node algorithm
             custom_ranks =
           .ok start_node pr.1 pr.2 path cost algorithm info
             (weightsChoice custom_ranks) st d ne mf
     | none =>
         find_optimal_path g attributes hav now start_node algorithm
             custom_ranks =
           .err "No reachable eateries found among top candidates") := by
  have hw : ∀ p ∈ g.edges, ∀ q ∈ p.2, (0 : ℚ) ≤ q.2 :=
    fun p hp q hq => (hpos p hp q hq).le
  have hand := hwf.2.2
  have hmem : ∀ p ∈ sortDesc scores, g.hasNode p.1 = true :=
    fun p hp => compute_scores_hasNode hsc p (mem_sortDesc hp)
  constructor
  · intro p hp
    exact check_connectivity_eq_true_iff hstart (hmem p hp)
  · have hfp : find_optimal_path g attributes hav now start_node algorithm
        custom_ranks =
        tryCandidates g attributes hav now start_node algorithm
          (weightsChoice custom_ranks) (sortDesc scores) := by
      unfold find_optimal_path
      rw [if_neg (fun hx => hx hstart)]
      simp only [hsc]
      rw [if_neg hne]
    rw [hfp]
    exact tryCandidates_spec g attributes hav now start_node algorithm
      (weightsChoice custom_ranks) hw hand hstart halg (sortDesc scores) hmem

/-- Two-node graph for the C2 witness. -/
def c2Graph : Graph :=
  ⟨[("A", (0, 0)), ("B", (0, 0))], [("A", [("B", 2)]), ("B", [("A", 2)])]⟩

/-- Attribute store for the C2 witness: one eatery `B` with no fields
(missing `hours` defaults to open). -/
def c2Attrs : Attrs := [("B", [])]

/-- C2 witness: on the concrete two-node instance the only candidate
`B` scores `0.0909`, is reachable, and `find_optimal_path` returns the
success record for it. -/
theorem find_optimal_first_reachable_witness :
    (∀ p ∈ sortDesc [("B", mkRat 909 10000)],
      (check_connectivity c2Graph "A" p.1 = true ↔ Reach c2Graph "A" p.1)) ∧
    (match (sortDesc [("B", mkRat 909 10000)]).find?
        (fun p => check_connectivity c2Graph "A" p.1) with
     | some pr => ∃ path cost info st d ne mf,
         find_optimal_path c2Graph c2Attrs (fun _ _ _ _ => 0) 0 "A" "ucs"
             [] =
           .ok "A" pr.1 pr.2 path cost "ucs" info (weightsChoice []) st d
             ne mf
     | none =>
         find_optimal_path c2Graph c2Attrs (fun _ _ _ _ => 0) 0 "A" "ucs"
             [] =
           .err "No reachable eateries found among top candidates") :=
  find_optimal_first_reachable c2Graph c2Attrs (fun _ _ _ _ => 0) 0 "A"
    "ucs" [] [("B", mkRat 909 10000)] (by decide)
    ((show c2Graph.InvOrig by decide).2.2.1) rfl (Or.inl rfl) (by decide)
    (by decide)

end Backend
